import Mathlib

/-!
Verification of the tojblockd core against its specification.

This file contains a shallow embedding of the three core subsystems of
tojblockd (the extent-based FAT allocator of fat.cpp, the image composer
of image.cpp, and the directory encoder of dir.cpp), translated from the
C++ sources, together with theorems settling the frozen claims about them.

Machine integers are modelled as Nat with explicit reduction modulo 2^32
at the points where the C code performs uint32_t arithmetic that can wrap.
All cluster numbers, extent fields and FAT entry values are uint32 in the
source, so definitions reduce incoming argument values modulo 2^32 where
the C parameter type is uint32_t.
-/

/-- Size of a sector in bytes (vfat.h). -/
def SECTOR_SIZE : Nat := 512

/-- Size of a cluster in bytes (vfat.h). -/
def CLUSTER_SIZE : Nat := 4096

/-- Number of reserved sectors before the first FAT (vfat.h). -/
def RESERVED_SECTORS : Nat := 32

/-- The first two FAT entries are dummy entries (fat.h). -/
def RESERVED_FAT_ENTRIES : Nat := 2

/-- End-of-chain marker (fat.h). -/
def FAT_END_OF_CHAIN : Nat := 0x0fffffff

/-- Bad-cluster marker (fat.h). -/
def FAT_BAD_CLUSTER : Nat := 0x0ffffff7

/-- Unallocated-cluster marker (fat.h). -/
def FAT_UNALLOCATED : Nat := 0

/-- Modulus of uint32_t arithmetic. -/
def U32 : Nat := 4294967296

/-- The errno value EIO. -/
def EIO_errno : Nat := 5

/-- The errno value EACCES, returned by Filemap::receive. -/
def EACCES_errno : Nat := 13

/-- The errno value EROFS (read-only file system). -/
def EROFS_errno : Nat := 30

/-- One fat_extent record (fat.cpp): a contiguous section of the FAT whose
values are either all identical (extent_type = EXTENT_LITERAL, value in
index) or ascending successor pointers with a final next value
(extent_type = EXTENT_UNKNOWN). All fields are uint32 in the source. -/
structure FatExtent where
  starting_cluster : Nat
  ending_cluster : Nat
  index : Nat
  next : Nat
  extent_type : Nat
deriving DecidableEq, Repr

/-- EXTENT_LITERAL tag (fat.cpp). -/
def EXTENT_LITERAL : Nat := 0

/-- EXTENT_UNKNOWN tag (fat.cpp). -/
def EXTENT_UNKNOWN : Nat := 1

/-- Entry 0 of the FAT: media descriptor marker (fat.cpp). -/
def entry_0 : FatExtent :=
  { starting_cluster := 0, ending_cluster := 0, index := 0x0ffffff8,
    next := 0, extent_type := EXTENT_LITERAL }

/-- Entry 1 of the FAT: end-of-chain marker (fat.cpp). -/
def entry_1 : FatExtent :=
  { starting_cluster := 1, ending_cluster := 1, index := FAT_END_OF_CHAIN,
    next := 0, extent_type := EXTENT_LITERAL }

/-- The allocator's global state (fat.cpp): the front extent vector, the
tail extent vector (filemaps, ordered from high to low cluster numbers),
the cluster count and the byte size of one FAT copy. -/
structure FatState where
  extents : List FatExtent
  extents_from_end : List FatExtent
  data_clusters : Nat
  fat_size : Nat
deriving DecidableEq, Repr

/-- The ALIGN macro of vfat.h applied in uint32 arithmetic. For a
power-of-two sz this rounds x up to a multiple of sz; the C mask form
`(x + sz - 1) & ~(sz - 1)` equals this division form for uint32 values. -/
def ALIGN32 (x sz : Nat) : Nat := (((x + sz - 1) % U32) / sz) * sz

/-- The ALIGN macro of vfat.h in size_t arithmetic (no wrap in practice). -/
def ALIGN64 (x sz : Nat) : Nat := ((x + sz - 1) / sz) * sz

/-- fat_init (fat.cpp): reset the extent vectors to the two dummy entries
and compute the FAT byte size. The multiplication `(data_clusters +
RESERVED_FAT_ENTRIES) * 4` is uint32 arithmetic in the source. -/
def fat_init (data_clusters : Nat) : FatState :=
  let dc := data_clusters % U32
  { extents := [entry_0, entry_1]
    extents_from_end := []
    data_clusters := dc
    fat_size := ALIGN32 (((dc + RESERVED_FAT_ENTRIES) * 4) % U32) SECTOR_SIZE }

/-- first_free_cluster (fat.cpp): one past the last front extent. The
front vector is never empty in reachable states; the default covers the
impossible empty case. The increment is uint32 arithmetic. -/
def first_free_cluster (s : FatState) : Nat :=
  ((s.extents.getLastD entry_0).ending_cluster + 1) % U32

/-- last_free_cluster (fat.cpp): one before the lowest tail extent, or the
last data cluster when the tail is empty. Uint32 arithmetic. -/
def last_free_cluster (s : FatState) : Nat :=
  match s.extents_from_end.getLast? with
  | none => (s.data_clusters + RESERVED_FAT_ENTRIES - 1) % U32
  | some e => (e.starting_cluster + (U32 - 1)) % U32

/-- The binary search loop of find_extent (fat.cpp). Returns the index of
the extent of exts containing cluster_nr, or -1. The C loop uses int
arithmetic; all reachable calls keep l and h + l non-negative, where C
truncating division and Lean floor division agree. -/
def find_extent_go (exts : List FatExtent) (cluster_nr : Nat) (l h : Int) : Int :=
  if hlh : l ≤ h then
    let m : Int := (h + l) / 2
    let fe := exts.getD m.toNat entry_0
    if cluster_nr < fe.starting_cluster then
      find_extent_go exts cluster_nr l (m - 1)
    else if cluster_nr > fe.ending_cluster then
      find_extent_go exts cluster_nr (m + 1) h
    else m
  else
    -1
termination_by (h + 1 - l).toNat
decreasing_by
  all_goals omega

/-- find_extent (fat.cpp): index of the front extent containing the given
cluster number, or -1 if there is no such extent. -/
def find_extent (s : FatState) (cluster_nr : Nat) : Int :=
  find_extent_go s.extents cluster_nr 0 ((s.extents.length : Int) - 1)

/-- fat_cluster_pos (fat.cpp): starting byte position in the image of a
data cluster. The subtraction `cluster_nr - 2` is uint32 arithmetic. -/
def fat_cluster_pos (s : FatState) (cluster_nr : Nat) : Nat :=
  RESERVED_SECTORS * SECTOR_SIZE + s.fat_size
    + (((cluster_nr % U32) + (U32 - 2)) % U32) * CLUSTER_SIZE

/-- fat_alloc_beginning (fat.cpp): append a fresh chain of the given
length at the front. Returns the starting cluster and the new state. -/
def fat_alloc_beginning (s : FatState) (clusters : Nat) : Nat × FatState :=
  let c := clusters % U32
  let start := first_free_cluster s
  let new_extent : FatExtent :=
    { starting_cluster := start
      ending_cluster := (start + c + (U32 - 1)) % U32
      index := 0
      next := FAT_END_OF_CHAIN
      extent_type := EXTENT_UNKNOWN }
  (start, { s with extents := s.extents ++ [new_extent] })

/-- fat_alloc_end (fat.cpp): prepend a fresh chain of the given length at
the tail. Returns the starting cluster and the new state. -/
def fat_alloc_end (s : FatState) (clusters : Nat) : Nat × FatState :=
  let c := clusters % U32
  let ending := last_free_cluster s
  let new_extent : FatExtent :=
    { starting_cluster := (ending + (U32 - c) + 1) % U32
      ending_cluster := ending
      index := 0
      next := FAT_END_OF_CHAIN
      extent_type := EXTENT_UNKNOWN }
  (new_extent.starting_cluster,
    { s with extents_from_end := s.extents_from_end ++ [new_extent] })

/-- The chain-walk loop of fat_extend_chain (fat.cpp): follow next
pointers until an extent whose next is the end-of-chain marker. A result
below 0 makes the caller return 0; the source returns 0 directly from
inside the loop when it meets a literal extent, which is merged into the
-1 result here (the caller treats both identically). The fuel bounds the
walk; on the acyclic chains of reachable states it is never exhausted. -/
def extend_chain_walk (exts : List FatExtent) : Int → Nat → Int
  | extent_nr, 0 => -1
  | extent_nr, fuel + 1 =>
    if extent_nr < 0 then extent_nr
    else
      let fe := exts.getD extent_nr.toNat entry_0
      if fe.next = FAT_END_OF_CHAIN then extent_nr
      else if fe.extent_type = EXTENT_LITERAL then -1
      else
        extend_chain_walk exts
          (find_extent_go exts (fe.next) 0 ((exts.length : Int) - 1)) fuel

/-- fat_extend_chain (fat.cpp): walk to the last extent of the chain
containing cluster_nr and append one cluster to it. Returns the chain's
new last cluster (0 for failure) and the new state. -/
def fat_extend_chain (s : FatState) (cluster_nr : Nat) : Nat × FatState :=
  let c := cluster_nr % U32
  let extent_nr := extend_chain_walk s.extents (find_extent s c) (s.extents.length + 1)
  if extent_nr < 0 then (0, s)
  else if extent_nr = (s.extents.length : Int) - 1 then
    let k := extent_nr.toNat
    let fe := s.extents.getD k entry_0
    let fe' := { fe with ending_cluster := (fe.ending_cluster + 1) % U32 }
    ((fe.ending_cluster + 1) % U32, { s with extents := s.extents.set k fe' })
  else
    let k := extent_nr.toNat
    let fe := s.extents.getD k entry_0
    let start := first_free_cluster s
    let new_extent : FatExtent :=
      { starting_cluster := start
        ending_cluster := start
        index := fe.index
        next := FAT_END_OF_CHAIN
        extent_type := fe.extent_type }
    (start,
      { s with extents := (s.extents.set k { fe with next := start }) ++ [new_extent] })

/-- fat_finalize (fat.cpp): push a literal-unallocated extent and a
literal-bad extent over the unused middle of the FAT, then append the
tail extents in reverse order. The image_register call the source makes
here binds the FAT service to the composer and does not modify the extent
table, so it is not part of the allocator state transition. -/
def fat_finalize (s : FatState) (max_free_clusters : Nat) : FatState :=
  let m := max_free_clusters % U32
  let ff := first_free_cluster s
  let lf := last_free_cluster s
  let fe_free : FatExtent :=
    { starting_cluster := ff
      ending_cluster := min lf ((ff + m + (U32 - 1)) % U32)
      index := FAT_UNALLOCATED
      next := FAT_UNALLOCATED
      extent_type := EXTENT_LITERAL }
  let exts1 := if fe_free.starting_cluster ≤ fe_free.ending_cluster
    then s.extents ++ [fe_free] else s.extents
  let fe_bad : FatExtent :=
    { starting_cluster := (fe_free.ending_cluster + 1) % U32
      ending_cluster := lf
      index := FAT_BAD_CLUSTER
      next := FAT_BAD_CLUSTER
      extent_type := EXTENT_LITERAL }
  let exts2 := if fe_bad.starting_cluster ≤ fe_bad.ending_cluster
    then exts1 ++ [fe_bad] else exts1
  { s with extents := exts2 ++ s.extents_from_end.reverse, extents_from_end := [] }

/-- The entries one extent contributes in the loop body of
FatDataService::fill (fat.cpp): for a literal extent, copies of its index
value while the position is at most ending_cluster; for a chain extent,
ascending successor pointers while the position is below ending_cluster
and then, when entries remain, one copy of next. -/
def fat_fill_chunk (fe : FatExtent) (pos rem : Nat) : List Nat :=
  if fe.extent_type = EXTENT_LITERAL then
    List.replicate (min (fe.ending_cluster + 1 - pos) rem) fe.index
  else
    (List.range (min (fe.ending_cluster - pos) rem)).map (fun j => pos + j + 1)
      ++ (if min (fe.ending_cluster - pos) rem < rem then [fe.next] else [])

/-- The extent-walking loop of FatDataService::fill (fat.cpp), producing
FAT entries as u32 values starting at extent index k and entry position
pos. After each extent's contribution the walk advances to the adjacent
extent by index, or emits bad-cluster markers when the extent list is
exhausted. -/
def fat_fill_go (exts : List FatExtent) (k pos rem : Nat) : List Nat :=
  let chunk := fat_fill_chunk (exts.getD k entry_0) pos rem
  if rem - chunk.length = 0 then chunk
  else if k < exts.length - 1 then
    chunk ++ fat_fill_go exts (k + 1) (pos + chunk.length) (rem - chunk.length)
  else chunk ++ List.replicate (rem - chunk.length) FAT_BAD_CLUSTER
termination_by exts.length - k
decreasing_by omega

/-- FatDataService::fill (fat.cpp) at entry granularity: the u32 entry
values the FAT service produces for `entries` entries starting at entry
number entry_nr. -/
def fat_fill_words (s : FatState) (entry_nr entries : Nat) : List Nat :=
  let start := find_extent s entry_nr
  if start < 0 then List.replicate entries FAT_BAD_CLUSTER
  else fat_fill_go s.extents start.toNat entry_nr entries

/-- Little-endian byte encoding of a u32 value (htole32 followed by the
four byte stores of the uint32 buffer writes in fill). -/
def le32_bytes (v : Nat) : List Nat :=
  [v % 256, (v / 256) % 256, (v / 65536) % 256, (v / 16777216) % 256]

/-- Reading four bytes back as a little-endian u32 value. -/
def read_le32 (bytes : List Nat) : Nat :=
  bytes.getD 0 0 + 256 * (bytes.getD 1 0 + 256 * (bytes.getD 2 0 + 256 * (bytes.getD 3 0)))

/-- FatDataService::fill (fat.cpp) at byte granularity: the length/offset
interface of the service, with the uint32 truncation of `offset / 4`
applied as in the source. The asserts of the source require offset and
length to be multiples of 4. -/
def fatservice_fill (s : FatState) (length offset : Nat) : List Nat :=
  (fat_fill_words s ((offset / 4) % U32) (length / 4)).flatMap le32_bytes

/-- try_inc_extent (fat.cpp): try to append one entry of the given value
to extent extent_nr. Returns whether it succeeded and the new extent
list. -/
def try_inc_extent (exts : List FatExtent) (extent_nr : Nat) (value : Nat) :
    Bool × List FatExtent :=
  let fe := exts.getD extent_nr entry_0
  if fe.extent_type = EXTENT_LITERAL then
    if fe.index = value then
      (true, exts.set extent_nr
        { fe with ending_cluster := (fe.ending_cluster + 1) % U32 })
    else (false, exts)
  else
    if fe.next = (fe.ending_cluster + 1) % U32 then
      (true, exts.set extent_nr
        { fe with next := value, ending_cluster := (fe.ending_cluster + 1) % U32 })
    else (false, exts)

/-- bump_extent (fat.cpp): the extent had its first entry stolen; shrink
it from the left or erase it when it was a single cluster. -/
def bump_extent (exts : List FatExtent) (extent_nr : Nat) : List FatExtent :=
  let fe := exts.getD extent_nr entry_0
  if fe.starting_cluster = fe.ending_cluster then
    exts.eraseIdx extent_nr
  else
    exts.set extent_nr { fe with starting_cluster := (fe.starting_cluster + 1) % U32 }

/-- try_renext_extent (fat.cpp): change the next field of a chain extent
when the new value is an end-of-chain marker or a plausible cluster
number. -/
def try_renext_extent (s : FatState) (extent_nr : Nat) (value : Nat) :
    Bool × List FatExtent :=
  let fe := s.extents.getD extent_nr entry_0
  if extent_nr < RESERVED_FAT_ENTRIES then (false, s.extents)
  else if fe.extent_type = EXTENT_LITERAL then (false, s.extents)
  else if value = FAT_END_OF_CHAIN
      ∨ (value > RESERVED_FAT_ENTRIES
         ∧ value < s.data_clusters + RESERVED_FAT_ENTRIES) then
    (true, s.extents.set extent_nr { fe with next := value })
  else (false, s.extents)

/-- punch_extent (fat.cpp): split or reuse an extent so that a new
single-cluster extent carries the given value at cluster_nr. Returns the
index of that extent (or -1) and the new extent list. -/
def punch_extent (s : FatState) (cluster_nr value : Nat) : Int × List FatExtent :=
  let found := find_extent s cluster_nr
  if found < 0 then (-1, s.extents)
  else
    let extent_nr := found.toNat
    let new_ext : FatExtent :=
      if value = FAT_UNALLOCATED ∨ value = FAT_BAD_CLUSTER then
        { starting_cluster := cluster_nr, ending_cluster := cluster_nr,
          index := value, next := 0, extent_type := EXTENT_LITERAL }
      else
        { starting_cluster := cluster_nr, ending_cluster := cluster_nr,
          index := 0, next := value, extent_type := EXTENT_UNKNOWN }
    let fe := s.extents.getD extent_nr entry_0
    if fe.starting_cluster = fe.ending_cluster then
      (found, s.extents.set extent_nr new_ext)
    else if fe.starting_cluster = cluster_nr then
      (found, (s.extents.set extent_nr
        { fe with starting_cluster := (fe.starting_cluster + 1) % U32
        }).insertIdx extent_nr new_ext)
    else if fe.ending_cluster = cluster_nr then
      let fe' := { fe with
        ending_cluster := (fe.ending_cluster + (U32 - 1)) % U32,
        next := if fe.extent_type ≠ EXTENT_LITERAL then cluster_nr else fe.next }
      (found + 1, (s.extents.set extent_nr fe').insertIdx (extent_nr + 1) new_ext)
    else
      let post_ext : FatExtent :=
        { starting_cluster := (cluster_nr + 1) % U32
          ending_cluster := fe.ending_cluster
          index := fe.index
          next := fe.next
          extent_type := fe.extent_type }
      let fe' := { fe with
        ending_cluster := (cluster_nr + (U32 - 1)) % U32,
        next := if fe.extent_type ≠ EXTENT_LITERAL then cluster_nr else fe.next }
      (found + 1,
        ((s.extents.set extent_nr fe').insertIdx (extent_nr + 1) new_ext).insertIdx
          (extent_nr + 2) post_ext)

/-- The per-entry loop body of FatDataService::receive (fat.cpp). Takes
the current state, the original entry value (from the fill diff buffer
computed at entry), the written value and the entry position. Returns
none for the EIO rejections of the source, otherwise the updated state. -/
def fat_receive_entry (s : FatState) (orig_v buf_v pos : Nat) : Option FatState :=
  if buf_v = orig_v then some s
  else if pos < RESERVED_FAT_ENTRIES then none
  else if orig_v = FAT_BAD_CLUSTER then none
  else
    let found := find_extent s pos
    if found ≤ 0 then none
    else
      let extent_nr := found.toNat
      let fe := s.extents.getD extent_nr entry_0
      let value := buf_v
      if fe.starting_cluster = pos ∧ (try_inc_extent s.extents (extent_nr - 1) value).1 then
        some { s with extents := bump_extent (try_inc_extent s.extents (extent_nr - 1) value).2 extent_nr }
      else if fe.ending_cluster = pos ∧ (try_renext_extent s extent_nr value).1 then
        some { s with extents := (try_renext_extent s extent_nr value).2 }
      else
        some { s with extents := (punch_extent s pos value).2 }

/-- The entry loop of FatDataService::receive (fat.cpp), walking the
written values paired with the original fill values computed once from
the entry state. Returns the errno and the state at the point the loop
stopped: on a rejection the modifications already applied for earlier
entries remain in place. -/
def fat_receive_go (s : FatState) : List (Nat × Nat) → Nat → Nat × FatState
  | [], _ => (0, s)
  | (buf_v, orig_v) :: rest, pos =>
    match fat_receive_entry s orig_v buf_v pos with
    | none => (EIO_errno, s)
    | some s' => fat_receive_go s' rest (pos + 1)

/-- FatDataService::receive (fat.cpp) at entry granularity: diff the
written u32 values against the current fill output (computed once, from
the state at entry) and interpret each differing entry. -/
def fat_receive_words (s : FatState) (buf : List Nat) (entry_nr : Nat) : Nat × FatState :=
  let orig := fat_fill_words s entry_nr buf.length
  fat_receive_go s (buf.zip orig) entry_nr

/-- The behaviour of one data service, abstracting over the DataService
subclasses of image.h. A successful fill writes the byte `byteAt o` at
each logical offset o of the requested windowant; fillErr and recvErr give
the errno results of fill and receive. -/
structure ServiceBehavior where
  byteAt : Nat → Nat
  fillErr : Nat → Nat → Nat
  recvErr : List Nat → Nat → Nat

/-- One service_range value of image.cpp (the start position is the map
key). The service pointer is modelled by a service identifier. -/
structure ServiceRange where
  length : Nat
  offset : Nat
  service : Nat
deriving DecidableEq, Repr

/-- Modelled from the spec: the Refcounted base class of refcounted.h is
not part of the sources; per the spec and image.h, ref increments a
per-service strong count, deref decrements it, and the final-release hook
runs exactly when the count reaches 0. The ledger also counts the refs
taken, the refs released and the hook runs per service. -/
structure RefLedger where
  refs : Nat → Nat
  taken : Nat → Nat
  released : Nat → Nat
  hookRuns : Nat → Nat

/-- The composer's global state (image.cpp): the service map and the data
chunk map, both ordered by start position, plus the reference ledger. -/
structure ImageState where
  services : List (Nat × ServiceRange)
  chunks : List (Nat × List Nat)
  ledger : RefLedger

/-- service->ref() on the ledger. -/
def svcRef (L : RefLedger) (sid : Nat) : RefLedger :=
  { L with refs := fun j => if j = sid then L.refs sid + 1 else L.refs j
           taken := fun j => if j = sid then L.taken sid + 1 else L.taken j }

/-- service->deref() on the ledger: decrement, and record a hook run when
the count reaches 0. -/
def svcDeref (L : RefLedger) (sid : Nat) : RefLedger :=
  { L with refs := fun j => if j = sid then L.refs sid - 1 else L.refs j
           released := fun j => if j = sid then L.released sid + 1 else L.released j
           hookRuns := fun j =>
             if j = sid ∧ L.refs sid - 1 = 0 then L.hookRuns sid + 1 else L.hookRuns j }

/-- One ref or deref event, in program order. -/
inductive RefEvent where
  | take (sid : Nat)
  | release (sid : Nat)
deriving DecidableEq, Repr

/-- Apply a list of ref and deref events to the ledger in order. -/
def applyEvents (L : RefLedger) : List RefEvent → RefLedger
  | [] => L
  | .take sid :: rest => applyEvents (svcRef L sid) rest
  | .release sid :: rest => applyEvents (svcDeref L sid) rest

/-- image_init (image.cpp): both maps empty. The ledger starts with all
counters 0 (services are constructed with 0 refs active). -/
def image_init : ImageState :=
  { services := []
    chunks := []
    ledger := { refs := fun _ => 0, taken := fun _ => 0,
                released := fun _ => 0, hookRuns := fun _ => 0 } }

/-- Sorted insert-or-replace, modelling `map[key] = value` on the ordered
std::map represented as a key-sorted association list. -/
def mapInsertSorted {α : Type} : List (Nat × α) → Nat × α → List (Nat × α)
  | [], p => [p]
  | q :: rest, p =>
    if p.1 < q.1 then p :: q :: rest
    else if p.1 = q.1 then p :: rest
    else q :: mapInsertSorted rest p

/-- Lookup by key in an association list (map.find semantics on the
sorted lists used here). -/
def mapLookup {α : Type} (l : List (Nat × α)) (k : Nat) : Option α :=
  (l.find? (fun p => p.1 = k)).map (fun p => p.2)

/-- find_chunk (image.cpp): the suffix of the sorted chunk map starting
at the chunk containing pos or, if there is none, at the first chunk
starting after pos (lower_bound plus the one-step-back check). -/
def find_chunk (chunks : List (Nat × List Nat)) (pos : Nat) :
    List (Nat × List Nat) :=
  let pre := chunks.takeWhile (fun p => p.1 < pos)
  let suf := chunks.dropWhile (fun p => p.1 < pos)
  match pre.getLast? with
  | some prev => if prev.1 + prev.2.length > pos then prev :: suf else suf
  | none => suf

/-- find_service (image.cpp): same as find_chunk but for the service
map. -/
def find_service (services : List (Nat × ServiceRange)) (pos : Nat) :
    List (Nat × ServiceRange) :=
  let pre := services.takeWhile (fun p => p.1 < pos)
  let suf := services.dropWhile (fun p => p.1 < pos)
  match pre.getLast? with
  | some prev => if prev.1 + prev.2.length > pos then prev :: suf else suf
  | none => suf

/-- The prefix of the map that find_chunk's iterator position skips. -/
def find_chunk_pre (chunks : List (Nat × List Nat)) (pos : Nat) :
    List (Nat × List Nat) :=
  let pre := chunks.takeWhile (fun p => p.1 < pos)
  match pre.getLast? with
  | some prev => if prev.1 + prev.2.length > pos then pre.dropLast else pre
  | none => pre

/-- The prefix of the service map that find_service's iterator skips. -/
def find_service_pre (services : List (Nat × ServiceRange)) (pos : Nat) :
    List (Nat × ServiceRange) :=
  let pre := services.takeWhile (fun p => p.1 < pos)
  match pre.getLast? with
  | some prev => if prev.1 + prev.2.length > pos then pre.dropLast else pre
  | none => pre

/-- The loop of image_clear_services (image.cpp) over the iterated suffix
of the service map, from the iterator position to the first range
starting at or past finish. Returns the resulting suffix and the ref and
deref events in program order: a range sticking out past finish is split
(the new right piece takes a ref and is inserted by key); a range
overlapping start from the left is truncated in place; a range wholly
inside is erased with a deref. -/
def clear_services_go (start finish : Nat) :
    List (Nat × ServiceRange) → List (Nat × ServiceRange) × List RefEvent
  | [] => ([], [])
  | (k, r) :: rest =>
    if finish ≤ k then ((k, r) :: rest, [])
    else
      let split? : Option (Nat × ServiceRange) :=
        if finish < k + r.length then
          some (finish, { length := k + r.length - finish,
                          offset := r.offset + (finish - k),
                          service := r.service })
        else none
      let sev : List RefEvent :=
        match split? with
        | some _ => [RefEvent.take r.service]
        | none => []
      let out := clear_services_go start finish rest
      let withSplit :=
        match split? with
        | some p => mapInsertSorted out.1 p
        | none => out.1
      if k < start then
        (((k, { r with length := start - k }) :: withSplit), sev ++ out.2)
      else
        (withSplit, sev ++ [RefEvent.release r.service] ++ out.2)

/-- image_clear_services (image.cpp). -/
def image_clear_services (st : ImageState) (start length : Nat) : ImageState :=
  if length = 0 then st
  else
    let pre := find_service_pre st.services start
    let suf := find_service st.services start
    let out := clear_services_go start (start + length) suf
    { st with services := pre ++ out.1, ledger := applyEvents st.ledger out.2 }

/-- image_register (image.cpp): take a ref; length 0 just balances the
ref; otherwise clear the range and insert the new service range. -/
def image_register (st : ImageState) (sid start length offset : Nat) : ImageState :=
  let st1 := { st with ledger := svcRef st.ledger sid }
  if length = 0 then { st1 with ledger := svcDeref st1.ledger sid }
  else
    let st2 := image_clear_services st1 start length
    let nr : ServiceRange := { length := length, offset := offset, service := sid }
    { st2 with services := mapInsertSorted st2.services (start, nr) }

/-- The loop of image_clear_data (image.cpp) over the iterated suffix of
the chunk map. A chunk sticking out past finish spawns a new chunk at
finish whose bytes are copied with the source's arithmetic
`memcpy(dest, &data.back() - new_length, new_length)`, which starts one
byte before the final new_length bytes of the chunk. -/
def clear_data_go (start finish : Nat) :
    List (Nat × List Nat) → List (Nat × List Nat)
  | [] => []
  | (k, data) :: rest =>
    if finish ≤ k then (k, data) :: rest
    else
      let split? : Option (Nat × List Nat) :=
        if finish < k + data.length then
          some (finish,
            (data.drop (data.length - 1 - (k + data.length - finish))).take
              (k + data.length - finish))
        else none
      let out := clear_data_go start finish rest
      let withSplit :=
        match split? with
        | some p => mapInsertSorted out p
        | none => out
      if k < start then
        (k, data.take (start - k)) :: withSplit
      else
        withSplit

/-- image_clear_data (image.cpp). -/
def image_clear_data (st : ImageState) (start length : Nat) : ImageState :=
  if length = 0 then st
  else
    let pre := find_chunk_pre st.chunks start
    let suf := find_chunk st.chunks start
    { st with chunks := pre ++ clear_data_go start (start + length) suf }

/-- notify_services (image.cpp): call receive on every service whose
range intersects the written window, in map order, stopping at the first
nonzero result. The length passed is the source's
`min(range.length - off, end - s_it->first)` and the bytes passed are the
bytes of buf from bufpos on, capped at that length (the source can
overrun the buffer here when a range starting before the window is longer
than the window; the model passes the available bytes). -/
def notify_services (env : Nat → ServiceBehavior) (buf : List Nat)
    (start finish : Nat) : List (Nat × ServiceRange) → Nat
  | [] => 0
  | (k, r) :: rest =>
    if k < finish then
      let off := if k < start then start - k else 0
      let bufpos := if k < start then 0 else k - start
      let len := min (r.length - off) (finish - k)
      let ret := (env r.service).recvErr ((buf.drop bufpos).take len) (r.offset + off)
      if ret ≠ 0 then ret
      else notify_services env buf start finish rest
    else 0

/-- image_receive (image.cpp): zero length is a no-op; otherwise notify
the intersecting services, aborting on the first error without storing
anything, then clear the data range and store one chunk holding a copy of
the buffer. -/
def image_receive (st : ImageState) (env : Nat → ServiceBehavior)
    (buf : List Nat) (start length : Nat) : Nat × ImageState :=
  if length = 0 then (0, st)
  else
    let ret := notify_services env buf start (start + length)
      (find_service st.services start)
    if ret ≠ 0 then (ret, st)
    else
      let st1 := image_clear_data st start length
      (0, { st1 with chunks := mapInsertSorted st1.chunks (start, buf.take length) })

/-- Write bytes into a buffer at an index (the pointer-offset stores of
image_fill into the caller's buffer). -/
def listWrite (buf : List Nat) (at_idx : Nat) (bytes : List Nat) : List Nat :=
  buf.take at_idx ++ bytes ++ buf.drop (at_idx + bytes.length)

/-- The walk loop of image_fill (image.cpp). The two map iterators are
modelled as suffixes of the sorted maps; head access uses a default pair
for the empty case, guarded by the emptiness tests the source performs on
the iterators. Each iteration fills one maximal sub-segment: a data chunk
covering the position wins, then a service range covering it, else zeros
up to the next boundary. On a service fill error the loop stops and
returns the error with the buffer as written so far (the model's services
write nothing when they fail) and the count of bytes filled before the
failure. -/
def image_fill_go (env : Nat → ServiceBehavior)
    (chunksIt : List (Nat × List Nat)) (svcIt : List (Nat × ServiceRange))
    (buf : List Nat) (start length filled : Nat) : Nat × List Nat × Nat :=
  if h0 : length ≤ filled then (0, buf, filled)
  else
    let pos := start + filled
    let maxLen1 := length - filled
    if hc : chunksIt ≠ [] ∧ (chunksIt.headD (0, [])).1 ≤ pos then
      let k := (chunksIt.headD (0, [])).1
      let data := (chunksIt.headD (0, [])).2
      let copy_off := pos - k
      let fill_len := min (data.length - copy_off) maxLen1
      image_fill_go env chunksIt.tail svcIt
        (listWrite buf filled ((data.drop copy_off).take fill_len))
        start length (filled + fill_len)
    else
      let maxLen2 := if chunksIt = [] then maxLen1
        else min ((chunksIt.headD (0, [])).1 - pos) maxLen1
      if hs : svcIt ≠ [] ∧ (svcIt.headD (0, ⟨0, 0, 0⟩)).1 ≤ pos then
        let k := (svcIt.headD (0, ⟨0, 0, 0⟩)).1
        let r := (svcIt.headD (0, ⟨0, 0, 0⟩)).2
        let fill_off := pos - k
        if r.length ≤ fill_off then
          image_fill_go env chunksIt svcIt.tail buf start length filled
        else
          let fill_len := min (r.length - fill_off) maxLen2
          let ret := (env r.service).fillErr fill_len (r.offset + fill_off)
          if ret ≠ 0 then (ret, buf, filled)
          else
            image_fill_go env chunksIt svcIt.tail
              (listWrite buf filled ((List.range fill_len).map
                (fun j => (env r.service).byteAt (r.offset + fill_off + j))))
              start length (filled + fill_len)
      else
        let maxLen3 := if svcIt = [] then maxLen2
          else min ((svcIt.headD (0, ⟨0, 0, 0⟩)).1 - pos) maxLen2
        image_fill_go env chunksIt svcIt
          (listWrite buf filled (List.replicate maxLen3 0))
          start length (filled + maxLen3)
termination_by (chunksIt.length + svcIt.length, length - filled)
decreasing_by
  · apply Prod.Lex.left
    rcases chunksIt with _ | ⟨p, tl⟩
    · simp at hc
    · simp [List.tail]
  · apply Prod.Lex.left
    rcases svcIt with _ | ⟨p, tl⟩
    · simp at hs
    · simp [List.tail]
  · apply Prod.Lex.left
    rcases svcIt with _ | ⟨p, tl⟩
    · simp at hs
    · simp [List.tail]
  · apply Prod.Lex.right
    rcases chunksIt with _ | ⟨⟨ck, cd⟩, ctl⟩ <;>
      rcases svcIt with _ | ⟨⟨sk, sr⟩, stl⟩ <;>
        simp_all <;> omega

/-- image_fill (image.cpp): walk the two maps from the iterators at
start, filling data chunks first, then services, then zeros. Returns the
errno, the buffer contents after the call and the number of bytes filled
when the walk stopped. -/
def image_fill (env : Nat → ServiceBehavior) (st : ImageState)
    (buf : List Nat) (start length : Nat) : Nat × List Nat × Nat :=
  image_fill_go env (find_chunk st.chunks start) (find_service st.services start)
    buf start length 0

/-- Filemap::receive (filemap.cpp): always refuse writes, returning
EACCES regardless of the buffer, length and offset. -/
def filemap_receive (_buf : List Nat) (_length _offset : Nat) : Nat :=
  EACCES_errno

/-- The root directory lives at cluster 2 (dir.h). -/
def ROOT_DIR_CLUSTER : Nat := 2

/-- One DirService object (dir.cpp): the host path, the accumulated
directory entry bytes and the last allocated cluster. -/
structure DirService where
  path : String
  data : List Nat
  last_cluster : Nat
deriving DecidableEq, Repr

/-- The directory encoder's global state together with the allocator and
composer states it calls into: the dirservices map from starting cluster
to directory service, and the unique-name counter. A directory service
is identified in the composer by its starting cluster. -/
structure DirSys where
  fat : FatState
  img : ImageState
  dirservices : List (Nat × DirService)
  unique_name_counter : Nat

/-- prep_short_entry (dir.cpp): the 11-byte invalid-but-unique shortname
buffer: a space, a zero, six bytes holding the counter five bits at a
time, a slash and two zeros. -/
def prep_short_entry (uniq : Nat) : List Nat :=
  [32, 0, uniq % 32, (uniq / 32) % 32, (uniq / 1024) % 32, (uniq / 32768) % 32,
   (uniq / 1048576) % 32, (uniq / 33554432) % 32, 47, 0, 0]

/-- calc_vfat_checksum (dir.cpp): the FAT-spec checksum of the first 11
bytes, with uint8 arithmetic on the running sum. -/
def calc_vfat_checksum (entry : List Nat) : Nat :=
  (entry.take 11).foldl (fun sum b => ((sum % 2) * 128 + sum / 2 + b) % 256) 0

/-- The 32 bytes of the short entry built by dir_add_entry (dir.cpp).
The localtime-based encode_datetime and the gmtime-based encode_date of
the source depend on the C library's time zone database, so they are
taken as parameters producing their four and two bytes. -/
def short_entry_bytes (encDT : Nat → Nat × Nat × Nat × Nat)
    (encD : Nat → Nat × Nat)
    (uniq entry_clust file_size attrs mtime atime : Nat) : List Nat :=
  let attrs1 := (attrs % 256) ||| 1
  let fsize := if attrs1 &&& 16 ≠ 0 then 0 else file_size
  let dt := encDT mtime
  let da := encD atime
  prep_short_entry uniq ++
    [attrs1, 0, (mtime % 2) * 100,
     dt.1, dt.2.1, dt.2.2.1, dt.2.2.2,
     da.1, da.2,
     (entry_clust / 65536) % 256, (entry_clust / 16777216) % 256,
     dt.1, dt.2.1, dt.2.2.1, dt.2.2.2,
     entry_clust % 256, (entry_clust / 256) % 256,
     fsize % 256, (fsize / 256) % 256, (fsize / 65536) % 256,
     (fsize / 16777216) % 256]

/-- One code-unit slot of an LFN record (dir.cpp fill_filename_part):
the little-endian bytes of the code unit at fn_offset, or 0xff filler
past the end of the filename. -/
def lfn_slot (filename : List Nat) (fn_offset : Nat) : Nat × Nat :=
  match filename.get? fn_offset with
  | some v => (v % 256, (v / 256) % 256)
  | none => (255, 255)

/-- fill_filename_part (dir.cpp): one 32-byte LFN record carrying 13 code
units of the filename at the byte offsets 1,3,5,7,9,14,16,18,20,22,24,
28,30, the sequence number (with 0x40 added on the last-in-sequence
record), the LFN attribute marker 0x0f at byte 11 and the short-entry
checksum at byte 13. -/
def fill_filename_part (seq_nr : Nat) (is_last : Bool) (filename : List Nat)
    (checksum : Nat) : List Nat :=
  let base := (seq_nr - 1) * 13
  let s := fun i => lfn_slot filename (base + i)
  [if is_last then (seq_nr ||| 64) % 256 else seq_nr % 256,
   (s 0).1, (s 0).2, (s 1).1, (s 1).2, (s 2).1, (s 2).2, (s 3).1, (s 3).2,
   (s 4).1, (s 4).2,
   15, 0, checksum,
   (s 5).1, (s 5).2, (s 6).1, (s 6).2, (s 7).1, (s 7).2, (s 8).1, (s 8).2,
   (s 9).1, (s 9).2, (s 10).1, (s 10).2,
   0, 0,
   (s 11).1, (s 11).2, (s 12).1, (s 12).2]

/-- The LFN records of one directory entry in storage order: sequence
numbers from n down to 1, the first carrying the last-in-sequence flag
(dir.cpp dir_add_entry loop). -/
def lfn_records (n : Nat) (filename : List Nat) (checksum : Nat) :
    List (List Nat) :=
  (List.range n).reverse.map
    (fun i => fill_filename_part (i + 1) (i + 1 = n) filename checksum)

/-- dir_add_entry (dir.cpp): remap parent 0 to the root cluster, reject
names longer than 256 code units, look up the parent directory, grow its
cluster chain when the new records do not fit the allocated clusters
(re-registering the service for the new cluster at service offset equal
to the old allocated size), then append the LFN records and the short
entry to the directory's bytes. -/
def dir_add_entry (sys : DirSys) (encDT : Nat → Nat × Nat × Nat × Nat)
    (encD : Nat → Nat × Nat) (parent_clust entry_clust : Nat)
    (filename : List Nat) (file_size attrs mtime atime : Nat) :
    Bool × DirSys :=
  let pc0 := parent_clust % U32
  let pc := if pc0 = 0 then ROOT_DIR_CLUSTER else pc0
  if filename.length > 256 then (false, sys)
  else
    match mapLookup sys.dirservices pc with
    | none => (false, sys)
    | some parent =>
      let allocated0 := ALIGN64 parent.data.length CLUSTER_SIZE
      let allocated := if allocated0 = 0 then CLUSTER_SIZE else allocated0
      let num_entries := 1 + (filename.length + 13 - 1) / 13
      let grown : Option (FatState × ImageState × DirService) :=
        if num_entries * 32 + parent.data.length > allocated then
          let res := fat_extend_chain sys.fat parent.last_cluster
          if res.1 = 0 then none
          else
            some (res.2,
              image_register sys.img pc (fat_cluster_pos res.2 res.1)
                CLUSTER_SIZE allocated,
              { parent with last_cluster := res.1 })
        else some (sys.fat, sys.img, parent)
      match grown with
      | none => (false, sys)
      | some (fat', img', parent') =>
        let uniq := sys.unique_name_counter
        let short := short_entry_bytes encDT encD uniq (entry_clust % U32)
          (file_size % U32) attrs mtime atime
        let checksum := calc_vfat_checksum short
        let recs := lfn_records (num_entries - 1) filename checksum ++ [short]
        let parent2 := { parent' with data := parent'.data ++ recs.flatten }
        (true,
          { fat := fat'
            img := img'
            dirservices := mapInsertSorted sys.dirservices (pc, parent2)
            unique_name_counter := uniq + 1 })

/-- dir_alloc_new (dir.cpp): allocate one front cluster, create a fresh
directory service holding the path, take the dirservices-map ref the
source takes directly on the new object, and register the service with
the composer for one cluster at its cluster position. -/
def dir_alloc_new (sys : DirSys) (path : String) : Nat × DirSys :=
  let res := fat_alloc_beginning sys.fat 1
  let sc := res.1
  let svc : DirService := { path := path, data := [], last_cluster := sc }
  let img1 := { sys.img with ledger := svcRef sys.img.ledger sc }
  let img2 := image_register img1 sc (fat_cluster_pos res.2 sc) CLUSTER_SIZE 0
  (sc,
    { fat := res.2
      img := img2
      dirservices := mapInsertSorted sys.dirservices (sc, svc)
      unique_name_counter := sys.unique_name_counter })

/-- An extent contains a cluster number. -/
def extContains (e : FatExtent) (c : Nat) : Prop :=
  e.starting_cluster ≤ c ∧ c ≤ e.ending_cluster

instance (e : FatExtent) (c : Nat) : Decidable (extContains e c) :=
  inferInstanceAs (Decidable (e.starting_cluster ≤ c ∧ c ≤ e.ending_cluster))

/-- Two front extents are adjacent: the second starts right after the
first ends. -/
def extAdj (a b : FatExtent) : Prop :=
  b.starting_cluster = a.ending_cluster + 1

instance (a b : FatExtent) : Decidable (extAdj a b) :=
  inferInstanceAs (Decidable (b.starting_cluster = a.ending_cluster + 1))

/-- Two tail extents are adjacent in push order: the later one ends right
below the earlier one's start. -/
def extTailAdj (a b : FatExtent) : Prop :=
  b.ending_cluster + 1 = a.starting_cluster

instance (a b : FatExtent) : Decidable (extTailAdj a b) :=
  inferInstanceAs (Decidable (b.ending_cluster + 1 = a.starting_cluster))

/-- Executable check of front-extent adjacency along a list, used to give
List.Chain' extAdj a kernel-reducible decision procedure. -/
def chainAdjB : List FatExtent → Bool
  | [] => true
  | [_] => true
  | a :: b :: r => decide (extAdj a b) && chainAdjB (b :: r)

instance (l : List FatExtent) : Decidable (List.Chain' extAdj l) :=
  decidable_of_iff (chainAdjB l = true) (by
    induction l with
    | nil => simp [chainAdjB]
    | cons a r ih =>
      cases r with
      | nil => simp [chainAdjB]
      | cons b r2 =>
        rw [List.chain'_cons, ← ih]
        show (decide (extAdj a b) && chainAdjB (b :: r2)) = true ↔ _
        rw [Bool.and_eq_true, decide_eq_true_eq])

/-- The extent table is a disjoint cover of the cluster range
`[0, dc + 2)`: nonempty, sorted by start with no overlap, starting at
cluster 0, consecutive extents meeting with no gap, ending at cluster
dc + 1, and every cluster of the range inside some extent. -/
def DisjointCover (exts : List FatExtent) (dc : Nat) : Prop :=
  exts ≠ [] ∧
  (exts.getD 0 entry_0).starting_cluster = 0 ∧
  List.Chain' extAdj exts ∧
  List.Pairwise (fun a b => a.ending_cluster < b.starting_cluster) exts ∧
  (exts.getLastD entry_0).ending_cluster = dc + 1 ∧
  ∀ c < dc + RESERVED_FAT_ENTRIES, ∃ e ∈ exts, extContains e c

instance (exts : List FatExtent) (dc : Nat) : Decidable (DisjointCover exts dc) :=
  inferInstanceAs (Decidable (exts ≠ [] ∧
    (exts.getD 0 entry_0).starting_cluster = 0 ∧
    List.Chain' extAdj exts ∧
    List.Pairwise (fun a b : FatExtent => a.ending_cluster < b.starting_cluster) exts ∧
    (exts.getLastD entry_0).ending_cluster = dc + 1 ∧
    ∀ c < dc + RESERVED_FAT_ENTRIES, ∃ e ∈ exts, extContains e c))

/-- The allocator operations available during the construction stage. -/
inductive FatOp where
  | allocBeginning (clusters : Nat)
  | allocEnd (clusters : Nat)
  | extendChain (cluster_nr : Nat)
deriving DecidableEq, Repr

/-- Run one construction-stage operation, discarding the returned cluster
number. -/
def fatStep (s : FatState) : FatOp → FatState
  | .allocBeginning n => (fat_alloc_beginning s n).2
  | .allocEnd n => (fat_alloc_end s n).2
  | .extendChain c => (fat_extend_chain s c).2

/-- A construction-stage operation stays within the allocator's capacity:
an allocation fits between the two free-cluster cursors, and a chain
extension either fails or has a free cluster available. The source does
not check these conditions; they delimit the states it is designed for. -/
def fatOpOk (s : FatState) : FatOp → Bool
  | .allocBeginning n =>
    decide (first_free_cluster s + n % U32 ≤ last_free_cluster s + 1)
  | .allocEnd n =>
    decide (first_free_cluster s + n % U32 ≤ last_free_cluster s + 1)
  | .extendChain c =>
    decide ((fat_extend_chain s c).1 = 0)
      || decide (first_free_cluster s ≤ last_free_cluster s)

/-- Every operation of the sequence is within capacity, checked along the
trace. -/
def fatOpsOk : FatState → List FatOp → Bool
  | _, [] => true
  | s, op :: rest => fatOpOk s op && fatOpsOk (fatStep s op) rest

/-- Run a sequence of construction-stage operations. -/
def runFatOps : FatState → List FatOp → FatState
  | s, [] => s
  | s, op :: rest => runFatOps (fatStep s op) rest

/-- An operation requests at least one cluster. -/
def fatOpPos : FatOp → Bool
  | .allocBeginning n => decide (0 < n % U32)
  | .allocEnd n => decide (0 < n % U32)
  | .extendChain _ => true

/-- The finalize argument does not overflow the uint32 computation of the
free extent's ending cluster. -/
def fat_finalize_ok (s : FatState) (max_free : Nat) : Bool :=
  decide (first_free_cluster s + max_free % U32 ≤ U32)

/-- The composer operations. -/
inductive ImageOp where
  | register (sid start length offset : Nat)
  | receive (buf : List Nat) (start length : Nat)
  | clearData (start length : Nat)
  | clearServices (start length : Nat)

/-- Run one composer operation, discarding any errno result. -/
def imageStep (env : Nat → ServiceBehavior) (st : ImageState) :
    ImageOp → ImageState
  | .register sid start length offset => image_register st sid start length offset
  | .receive buf start length => (image_receive st env buf start length).2
  | .clearData start length => image_clear_data st start length
  | .clearServices start length => image_clear_services st start length

/-- Run a sequence of composer operations. -/
def runImageOps (env : Nat → ServiceBehavior) :
    ImageState → List ImageOp → ImageState
  | st, [] => st
  | st, op :: rest => runImageOps env (imageStep env st op) rest

/-- The number of service-map entries held by service sid. -/
def svcCount (services : List (Nat × ServiceRange)) (sid : Nat) : Nat :=
  (services.filter (fun p => p.2.service = sid)).length

/-- Well-formedness of the composer's range maps: keys strictly
ascending, ranges pairwise disjoint and nonempty. The length of a chunk
entry is the length of its byte vector. -/
def svcMapWF (l : List (Nat × ServiceRange)) : Prop :=
  List.Pairwise (fun a b => a.1 + a.2.length ≤ b.1) l ∧ ∀ p ∈ l, 0 < p.2.length

/-- Well-formedness of the chunk map. -/
def chunkMapWF (l : List (Nat × List Nat)) : Prop :=
  List.Pairwise (fun a b => a.1 + a.2.length ≤ b.1) l ∧ ∀ p ∈ l, 0 < p.2.length

/-- The FAT entry value the specification assigns to entry position p of
an extent table: the literal value inside a literal extent, the successor
pointer at a non-final chain position, the next field at the final chain
position, and the bad-cluster marker outside every extent. -/
def entryVal (exts : List FatExtent) (p : Nat) : Nat :=
  match exts.find? (fun e => decide (extContains e p)) with
  | some e =>
    if e.extent_type = EXTENT_LITERAL then e.index
    else if p < e.ending_cluster then p + 1
    else e.next
  | none => FAT_BAD_CLUSTER

/-- The last cluster of the front extent sequence (the value
first_free_cluster - 1 stands for in plain arithmetic). -/
def frontLastEnd (s : FatState) : Nat :=
  (s.extents.getLastD entry_0).ending_cluster

/-- The value of last_free_cluster in plain arithmetic. -/
def lastFreeN (s : FatState) : Nat :=
  match s.extents_from_end.getLast? with
  | none => s.data_clusters + 1
  | some e => e.starting_cluster - 1

/-- The construction-stage invariant of the allocator state: the front
extents tile an initial segment of the cluster space starting at 0, the
tail extents tile a final segment ending at dc + 1 in descending push
order, the two do not meet, and all stored values are uint32 values small
enough that the uint32 arithmetic of the operations does not wrap. -/
structure ConstInv (dc : Nat) (s : FatState) : Prop where
  dc_eq : s.data_clusters = dc
  dc_bound : dc + 2 < U32
  front_ne : s.extents ≠ []
  front_head : (s.extents.getD 0 entry_0).starting_cluster = 0
  front_chain : List.Chain' extAdj s.extents
  front_loose : ∀ e ∈ s.extents, e.starting_cluster ≤ e.ending_cluster + 1
  front_fields : ∀ e ∈ s.extents, e.index < U32 ∧ e.next < U32
  front_last_ge1 : 1 ≤ frontLastEnd s
  sep : frontLastEnd s ≤ lastFreeN s
  tail_chain : List.Chain' extTailAdj s.extents_from_end
  tail_loose : ∀ e ∈ s.extents_from_end, e.starting_cluster ≤ e.ending_cluster + 1
  tail_fields : ∀ e ∈ s.extents_from_end, e.index < U32 ∧ e.next < U32
  tail_head : s.extents_from_end ≠ [] →
    (s.extents_from_end.getD 0 entry_0).ending_cluster = dc + 1
  tail_start_ge : ∀ e ∈ s.extents_from_end, 2 ≤ e.starting_cluster
  tail_bound : ∀ e ∈ s.extents_from_end,
    e.ending_cluster ≤ dc + 1 ∧ e.starting_cluster ≤ dc + 2

/-- All extents of the state are nonempty (no zero-length allocations
happened). -/
def AllPosExt (s : FatState) : Prop :=
  (∀ e ∈ s.extents, e.starting_cluster ≤ e.ending_cluster) ∧
  (∀ e ∈ s.extents_from_end, e.starting_cluster ≤ e.ending_cluster)

/-- The walk result of fat_extend_chain on a state (abbreviation for the
statement of its case lemmas). -/
def ecw (s : FatState) (c : Nat) : Int :=
  extend_chain_walk s.extents (find_extent s (c % U32)) (s.extents.length + 1)

/-- The extent the fat_extend_chain walk lands on. -/
def ecFe (s : FatState) (c : Nat) : FatExtent :=
  s.extents.getD (ecw s c).toNat entry_0

/-- The walked-to extent with its ending cluster incremented (the
last-extent branch of fat_extend_chain). -/
def ecFeInc (s : FatState) (c : Nat) : FatExtent := { ecFe s c with ending_cluster := ((ecFe s c).ending_cluster + 1) % U32 }

/-- The walked-to extent with its next pointer redirected to the first
free cluster (the mid-extent branch of fat_extend_chain). -/
def ecFeLinked (s : FatState) (c : Nat) : FatExtent := { ecFe s c with next := first_free_cluster s }

/-- The one-cluster extent fat_extend_chain appends in its mid-extent
branch. -/
def ecNewExt (s : FatState) (c : Nat) : FatExtent := { starting_cluster := first_free_cluster s, ending_cluster := first_free_cluster s, index := (ecFe s c).index, next := FAT_END_OF_CHAIN, extent_type := (ecFe s c).extent_type }

/-- The literal-unallocated extent fat_finalize builds over the free
middle of the FAT. -/
def finFree (s : FatState) (m : Nat) : FatExtent :=
  { starting_cluster := first_free_cluster s
    ending_cluster := min (last_free_cluster s) ((first_free_cluster s + m % U32 + (U32 - 1)) % U32)
    index := FAT_UNALLOCATED
    next := FAT_UNALLOCATED
    extent_type := EXTENT_LITERAL }

/-- The front extents of fat_finalize after the conditional free-extent
push. -/
def finExts1 (s : FatState) (m : Nat) : List FatExtent :=
  if (finFree s m).starting_cluster ≤ (finFree s m).ending_cluster
  then s.extents ++ [finFree s m] else s.extents

/-- The literal-bad extent fat_finalize builds over the rest of the free
middle. -/
def finBad (s : FatState) (m : Nat) : FatExtent :=
  { starting_cluster := ((finFree s m).ending_cluster + 1) % U32
    ending_cluster := last_free_cluster s
    index := FAT_BAD_CLUSTER
    next := FAT_BAD_CLUSTER
    extent_type := EXTENT_LITERAL }

/-- The front extents of fat_finalize after both conditional pushes. -/
def finExts2 (s : FatState) (m : Nat) : List FatExtent :=
  if (finBad s m).starting_cluster ≤ (finBad s m).ending_cluster
  then finExts1 s m ++ [finBad s m] else finExts1 s m

/-- A trivially accepting service behaviour (fills zeros, accepts every
write), used to instantiate the composer theorems at concrete inputs. -/
def envZero : Nat → ServiceBehavior :=
  fun _ => { byteAt := fun _ => 0, fillErr := fun _ _ => 0, recvErr := fun _ _ => 0 }

theorem getD_eq_get (l : List FatExtent) (i : Nat) (h : i < l.length) :
    l.getD i entry_0 = l.get ⟨i, h⟩ := by
  simp [List.getD_eq_getElem?_getD, List.getElem?_eq_getElem h]

theorem pairwise_lt_get (exts : List FatExtent)
    (hs : List.Pairwise (fun a b => a.ending_cluster < b.starting_cluster) exts)
    (i j : Nat) (hij : i < j) (hj : j < exts.length) :
    (exts.getD i entry_0).ending_cluster < (exts.getD j entry_0).starting_cluster := by
  rw [getD_eq_get exts i (lt_trans hij hj), getD_eq_get exts j hj]
  exact List.pairwise_iff_get.mp hs ⟨i, lt_trans hij hj⟩ ⟨j, hj⟩ hij

theorem extContains_def (e : FatExtent) (c : Nat) :
    extContains e c ↔ e.starting_cluster ≤ c ∧ c ≤ e.ending_cluster := Iff.rfl

theorem find_extent_go_sound (exts : List FatExtent) (c : Nat) (l h : Int)
    (hl : 0 ≤ l) (hh : h < (exts.length : Int)) :
    find_extent_go exts c l h = -1 ∨
    (0 ≤ find_extent_go exts c l h ∧
      find_extent_go exts c l h < (exts.length : Int) ∧
      extContains (exts.getD (find_extent_go exts c l h).toNat entry_0) c) := by
  revert hl hh
  induction l, h using find_extent_go.induct exts c with
  | case1 l h hlh m fe hlt ih =>
    intro hl hh
    rw [find_extent_go, dif_pos hlh]
    simp only
    rw [if_pos hlt]
    exact ih hl (by omega)
  | case2 l h hlh m fe hlt hgt ih =>
    intro hl hh
    rw [find_extent_go, dif_pos hlh]
    simp only
    rw [if_neg hlt, if_pos hgt]
    exact ih (by omega) hh
  | case3 l h hlh m fe hlt hgt =>
    intro hl hh
    rw [find_extent_go, dif_pos hlh]
    simp only
    rw [if_neg hlt, if_neg hgt]
    right
    refine ⟨by omega, by omega, ?_⟩
    show extContains fe c
    exact ⟨by omega, by omega⟩
  | case4 l h hlh =>
    intro hl hh
    rw [find_extent_go, dif_neg hlh]
    exact Or.inl rfl

theorem getD_mem (l : List FatExtent) (i : Nat) (h : i < l.length) :
    l.getD i entry_0 ∈ l := by
  rw [getD_eq_get l i h]
  exact List.mem_iff_get.mpr ⟨⟨i, h⟩, rfl⟩

theorem find_extent_go_none (exts : List FatExtent) (c : Nat) (l h : Int)
    (hl : 0 ≤ l) (hh : h < (exts.length : Int))
    (hnc : ∀ e ∈ exts, ¬ extContains e c) :
    find_extent_go exts c l h = -1 := by
  revert hl hh
  induction l, h using find_extent_go.induct exts c with
  | case1 l h hlh m fe hlt ih =>
    intro hl hh
    rw [find_extent_go, dif_pos hlh]
    simp only
    rw [if_pos hlt]
    exact ih hl (by omega)
  | case2 l h hlh m fe hlt hgt ih =>
    intro hl hh
    rw [find_extent_go, dif_pos hlh]
    simp only
    rw [if_neg hlt, if_pos hgt]
    exact ih (by omega) hh
  | case3 l h hlh m fe hlt hgt =>
    intro hl hh
    exfalso
    have hfe : fe = exts.getD m.toNat entry_0 := rfl
    rw [hfe] at hlt hgt
    have hmem : exts.getD m.toNat entry_0 ∈ exts := getD_mem exts m.toNat (by omega)
    refine hnc _ hmem ?_
    rw [extContains_def]
    omega
  | case4 l h hlh =>
    intro hl hh
    rw [find_extent_go, dif_neg hlh]

theorem find_extent_go_found (exts : List FatExtent) (c : Nat)
    (hs : List.Pairwise (fun a b => a.ending_cluster < b.starting_cluster) exts)
    (hloose : ∀ e ∈ exts, e.starting_cluster ≤ e.ending_cluster + 1)
    (i : Nat) (hi : i < exts.length) (hci : extContains (exts.getD i entry_0) c)
    (l h : Int) (hl : 0 ≤ l) (hh : h < (exts.length : Int))
    (hli : l ≤ (i : Int)) (hih : (i : Int) ≤ h) :
    find_extent_go exts c l h = (i : Int) := by
  rw [extContains_def] at hci
  revert hl hh hli hih
  induction l, h using find_extent_go.induct exts c with
  | case1 l h hlh m fe hlt ih =>
    intro hl hh hli hih
    rw [find_extent_go, dif_pos hlh]
    simp only
    rw [if_pos hlt]
    have hfe : fe = exts.getD m.toNat entry_0 := rfl
    rw [hfe] at hlt
    have hmlen : m.toNat < exts.length := by omega
    have him : i < m.toNat := by
      rcases lt_trichotomy i m.toNat with hc1 | hc1 | hc1
      · exact hc1
      · exfalso
        subst hc1
        omega
      · exfalso
        have hp := pairwise_lt_get exts hs m.toNat i hc1 hi
        have hlo := hloose _ (getD_mem exts m.toNat hmlen)
        omega
    exact ih hl (by omega) hli (by omega)
  | case2 l h hlh m fe hlt hgt ih =>
    intro hl hh hli hih
    rw [find_extent_go, dif_pos hlh]
    simp only
    rw [if_neg hlt, if_pos hgt]
    have hfe : fe = exts.getD m.toNat entry_0 := rfl
    rw [hfe] at hgt
    have hmlen : m.toNat < exts.length := by omega
    have him : m.toNat < i := by
      rcases lt_trichotomy i m.toNat with hc1 | hc1 | hc1
      · exfalso
        have hp := pairwise_lt_get exts hs i m.toNat hc1 hmlen
        have hlo := hloose _ (getD_mem exts m.toNat hmlen)
        omega
      · exfalso
        subst hc1
        omega
      · exact hc1
    exact ih (by omega) hh (by omega) hih
  | case3 l h hlh m fe hlt hgt =>
    intro hl hh hli hih
    rw [find_extent_go, dif_pos hlh]
    simp only
    rw [if_neg hlt, if_neg hgt]
    have hfe : fe = exts.getD m.toNat entry_0 := rfl
    rw [hfe] at hlt hgt
    have hmlen : m.toNat < exts.length := by omega
    rcases lt_trichotomy i m.toNat with hc1 | hc1 | hc1
    · exfalso
      have hp := pairwise_lt_get exts hs i m.toNat hc1 hmlen
      omega
    · omega
    · exfalso
      have hp := pairwise_lt_get exts hs m.toNat i hc1 hi
      omega
  | case4 l h hlh =>
    intro hl hh hli hih
    omega

theorem getD_eq_getN {α : Type} (l : List α) (d : α) (i : Nat) (h : i < l.length) :
    l.getD i d = l.get ⟨i, h⟩ := by
  simp [List.getD_eq_getElem?_getD, List.getElem?_eq_getElem h]

theorem chain_adj_get (exts : List FatExtent) (hch : List.Chain' extAdj exts)
    (i : Nat) (h : i + 1 < exts.length) :
    (exts.getD (i + 1) entry_0).starting_cluster
      = (exts.getD i entry_0).ending_cluster + 1 := by
  rw [getD_eq_get exts i (by omega), getD_eq_get exts (i + 1) h]
  exact List.chain'_iff_get.mp hch i (by omega)

theorem chain_ending_mono (exts : List FatExtent) (hch : List.Chain' extAdj exts)
    (hloose : ∀ e ∈ exts, e.starting_cluster ≤ e.ending_cluster + 1)
    (i j : Nat) (hij : i ≤ j) (hj : j < exts.length) :
    (exts.getD i entry_0).ending_cluster ≤ (exts.getD j entry_0).ending_cluster := by
  induction j with
  | zero =>
    have : i = 0 := by omega
    subst this
    exact le_refl _
  | succ n ih =>
    rcases Nat.lt_or_ge i (n + 1) with hlt | hge
    · have h1 := ih (by omega) (by omega)
      have h2 := chain_adj_get exts hch n hj
      have h3 := hloose _ (getD_mem exts (n + 1) hj)
      omega
    · have : i = n + 1 := by omega
      subst this
      exact le_refl _

theorem chain_sorted (exts : List FatExtent) (hch : List.Chain' extAdj exts)
    (hloose : ∀ e ∈ exts, e.starting_cluster ≤ e.ending_cluster + 1) :
    List.Pairwise (fun a b => a.ending_cluster < b.starting_cluster) exts := by
  rw [List.pairwise_iff_get]
  intro i j hij
  have h1 : (exts.getD i.1 entry_0).ending_cluster
      ≤ (exts.getD (j.1 - 1) entry_0).ending_cluster :=
    chain_ending_mono exts hch hloose i.1 (j.1 - 1) (by omega) (by omega)
  have h2 := chain_adj_get exts hch (j.1 - 1) (by omega)
  have hj1 : j.1 - 1 + 1 = j.1 := by omega
  rw [hj1] at h2
  rw [← getD_eq_get exts i.1 i.2, ← getD_eq_get exts j.1 j.2]
  omega

theorem chain_ending_le_last (exts : List FatExtent) (hch : List.Chain' extAdj exts)
    (hloose : ∀ e ∈ exts, e.starting_cluster ≤ e.ending_cluster + 1)
    (i : Nat) (hi : i < exts.length) :
    (exts.getD i entry_0).ending_cluster ≤ (exts.getLastD entry_0).ending_cluster := by
  have hne : exts ≠ [] := by
    intro h
    rw [h] at hi
    simp at hi
  have hgl : exts.getLastD entry_0 = exts.getD (exts.length - 1) entry_0 := by
    rw [List.getLastD_eq_getLast?, List.getLast?_eq_getElem?,
      List.getD_eq_getElem?_getD]
  rw [hgl]
  exact chain_ending_mono exts hch hloose i (exts.length - 1) (by omega) (by omega)

theorem chain_cover (exts : List FatExtent) (hch : List.Chain' extAdj exts) :
    ∀ c : Nat, exts ≠ [] → (exts.getD 0 entry_0).starting_cluster ≤ c →
    c ≤ (exts.getLastD entry_0).ending_cluster →
    ∃ e ∈ exts, extContains e c := by
  induction exts with
  | nil => intro c h; exact absurd rfl h
  | cons a rest ih =>
    intro c _ hc1 hc2
    rcases le_or_lt c a.ending_cluster with hle | hgt
    · exact ⟨a, List.mem_cons_self a rest, ⟨hc1, hle⟩⟩
    · rcases rest with _ | ⟨b, rest2⟩
      · have ha : ([a] : List FatExtent).getLastD entry_0 = a := rfl
        rw [ha] at hc2
        exact absurd hc2 (by omega)
      · have hch2 := (List.chain'_cons.mp hch).2
        have hadj := (List.chain'_cons.mp hch).1
        have hb : (List.getD (b :: rest2) 0 entry_0).starting_cluster ≤ c := by
          simp only [List.getD]
          simp only [extAdj] at hadj
          simp only [List.get?, Option.getD]
          omega
        have hlast : c ≤ ((b :: rest2).getLastD entry_0).ending_cluster := by
          simpa using hc2
        obtain ⟨e, hmem, hcont⟩ := ih hch2 c (by simp) hb hlast
        exact ⟨e, List.mem_cons_of_mem a hmem, hcont⟩

theorem find_contains_eq (exts : List FatExtent) (c : Nat)
    (hch : List.Chain' extAdj exts)
    (hloose : ∀ e ∈ exts, e.starting_cluster ≤ e.ending_cluster + 1) :
    ∀ k, (hk : k < exts.length) → extContains (exts.getD k entry_0) c →
    exts.find? (fun e => decide (extContains e c)) = some (exts.getD k entry_0) := by
  induction exts with
  | nil => intro k hk; simp at hk
  | cons a rest ih =>
    intro k hk hc
    have hsorted := chain_sorted _ hch hloose
    match k with
    | 0 =>
      have hget : (a :: rest).getD 0 entry_0 = a := rfl
      rw [hget] at hc ⊢
      rw [List.find?_cons_of_pos]
      simpa using hc
    | n + 1 =>
      have hget : (a :: rest).getD (n + 1) entry_0 = rest.getD n entry_0 := rfl
      rw [hget] at hc ⊢
      have hna : ¬ extContains a c := by
        have hp := pairwise_lt_get (a :: rest) hsorted 0 (n + 1) (by omega) hk
        rw [hget] at hp
        have hc1 := hc.1
        intro hcontra
        have hc2 := hcontra.2
        have ha0 : (a :: rest).getD 0 entry_0 = a := rfl
        rw [ha0] at hp
        omega
      rw [List.find?_cons_of_neg]
      · exact ih (List.chain'_cons'.mp hch).2
          (fun e he => hloose e (List.mem_cons_of_mem a he)) n (by simpa using hk) hc
      · simpa using hna

theorem entryVal_of_contains (exts : List FatExtent) (p : Nat)
    (hch : List.Chain' extAdj exts)
    (hloose : ∀ e ∈ exts, e.starting_cluster ≤ e.ending_cluster + 1)
    (k : Nat) (hk : k < exts.length)
    (hc : extContains (exts.getD k entry_0) p) :
    entryVal exts p =
      (if (exts.getD k entry_0).extent_type = EXTENT_LITERAL
        then (exts.getD k entry_0).index
        else if p < (exts.getD k entry_0).ending_cluster then p + 1
        else (exts.getD k entry_0).next) := by
  unfold entryVal
  rw [find_contains_eq exts p hch hloose k hk hc]

theorem entryVal_past_end (exts : List FatExtent) (p : Nat)
    (hch : List.Chain' extAdj exts)
    (hloose : ∀ e ∈ exts, e.starting_cluster ≤ e.ending_cluster + 1)
    (hp : (exts.getLastD entry_0).ending_cluster < p) :
    entryVal exts p = FAT_BAD_CLUSTER := by
  unfold entryVal
  rw [List.find?_eq_none.mpr]
  intro e he
  simp only [decide_eq_true_eq, extContains_def]
  intro hcontra
  obtain ⟨i, hei⟩ := List.mem_iff_get.mp he
  have hle := chain_ending_le_last exts hch hloose i.1 i.2
  rw [getD_eq_get exts i.1 i.2] at hle
  simp only [Fin.eta] at hle
  rw [hei] at hle
  omega

theorem fat_fill_chunk_length_le (fe : FatExtent) (pos rem : Nat) :
    (fat_fill_chunk fe pos rem).length ≤ rem := by
  by_cases hty : fe.extent_type = EXTENT_LITERAL
  · simp only [fat_fill_chunk, if_pos hty, List.length_replicate]
    omega
  · simp only [fat_fill_chunk, if_neg hty, List.length_append, List.length_map,
      List.length_range]
    by_cases hin : min (fe.ending_cluster - pos) rem < rem
    · rw [if_pos hin]
      simp only [List.length_cons, List.length_nil]
      omega
    · rw [if_neg hin]
      simp only [List.length_nil]
      omega

theorem fat_fill_chunk_ne (fe : FatExtent) (pos rem : Nat)
    (hp : pos ≤ fe.ending_cluster) (h2 : 1 ≤ rem) :
    1 ≤ (fat_fill_chunk fe pos rem).length := by
  by_cases hty : fe.extent_type = EXTENT_LITERAL
  · simp only [fat_fill_chunk, if_pos hty, List.length_replicate]
    omega
  · simp only [fat_fill_chunk, if_neg hty, List.length_append, List.length_map,
      List.length_range]
    by_cases hin : min (fe.ending_cluster - pos) rem < rem
    · rw [if_pos hin]
      simp only [List.length_cons, List.length_nil]
      omega
    · rw [if_neg hin]
      simp only [List.length_nil]
      omega

theorem fat_fill_chunk_getD (fe : FatExtent) (pos rem j : Nat)
    (hj : j < (fat_fill_chunk fe pos rem).length) :
    (fat_fill_chunk fe pos rem).getD j 0 =
      if fe.extent_type = EXTENT_LITERAL then fe.index
      else if pos + j < fe.ending_cluster then pos + j + 1 else fe.next := by
  by_cases hty : fe.extent_type = EXTENT_LITERAL
  · simp only [fat_fill_chunk, if_pos hty, List.length_replicate] at hj ⊢
    rw [getD_eq_getN _ 0 j (by simpa using hj)]
    simp
  · simp only [fat_fill_chunk, if_neg hty, List.length_append, List.length_map,
      List.length_range] at hj ⊢
    rcases Nat.lt_or_ge j (min (fe.ending_cluster - pos) rem) with hlt | hge
    · rw [List.getD_append _ _ _ _ (by simpa using hlt)]
      rw [getD_eq_getN _ 0 j (by simpa using hlt)]
      simp only [List.get_map, List.get_range]
      rw [if_pos (by omega)]
    · have hsplit : min (fe.ending_cluster - pos) rem < rem := by
        by_contra hcon
        rw [if_neg hcon] at hj
        simp only [List.length_nil] at hj
        omega
      rw [if_pos hsplit] at hj ⊢
      simp only [List.length_cons, List.length_nil] at hj
      have hj1 : j = min (fe.ending_cluster - pos) rem := by omega
      rw [List.getD_append_right]
      · simp only [List.length_map, List.length_range]
        rw [hj1, Nat.sub_self]
        have hone : ([fe.next].getD 0 0) = fe.next := rfl
        rw [hone, if_neg (by omega)]
      · simp only [List.length_map, List.length_range]
        omega

theorem fat_fill_chunk_pos_bound (fe : FatExtent) (pos rem j : Nat)
    (hp : pos ≤ fe.ending_cluster)
    (hj : j < (fat_fill_chunk fe pos rem).length) :
    pos + j ≤ fe.ending_cluster := by
  by_cases hty : fe.extent_type = EXTENT_LITERAL
  · simp only [fat_fill_chunk, if_pos hty, List.length_replicate] at hj
    omega
  · simp only [fat_fill_chunk, if_neg hty, List.length_append, List.length_map,
      List.length_range] at hj
    by_cases hin : min (fe.ending_cluster - pos) rem < rem
    · rw [if_pos hin] at hj
      simp only [List.length_cons, List.length_nil] at hj
      omega
    · rw [if_neg hin] at hj
      simp only [List.length_nil] at hj
      omega

theorem fat_fill_chunk_full (fe : FatExtent) (pos rem : Nat)
    (hp : pos ≤ fe.ending_cluster)
    (h : (fat_fill_chunk fe pos rem).length < rem) :
    pos + (fat_fill_chunk fe pos rem).length = fe.ending_cluster + 1 := by
  by_cases hty : fe.extent_type = EXTENT_LITERAL
  · simp only [fat_fill_chunk, if_pos hty, List.length_replicate] at h ⊢
    omega
  · simp only [fat_fill_chunk, if_neg hty, List.length_append, List.length_map,
      List.length_range] at h ⊢
    by_cases hin : min (fe.ending_cluster - pos) rem < rem
    · rw [if_pos hin] at h ⊢
      simp only [List.length_cons, List.length_nil] at h ⊢
      omega
    · rw [if_neg hin] at h ⊢
      simp only [List.length_nil] at h ⊢
      omega

theorem getLastD_eq_getD_len (l : List FatExtent) :
    l.getLastD entry_0 = l.getD (l.length - 1) entry_0 := by
  cases l with
  | nil => rfl
  | cons a rest =>
    rw [List.getLastD_eq_getLast?, List.getLast?_eq_getElem?,
      List.getD_eq_getElem?_getD]

theorem fat_fill_go_eq (exts : List FatExtent) (k pos rem : Nat) :
    fat_fill_go exts k pos rem =
      (if rem - (fat_fill_chunk (exts.getD k entry_0) pos rem).length = 0
        then fat_fill_chunk (exts.getD k entry_0) pos rem
        else if k < exts.length - 1 then
          fat_fill_chunk (exts.getD k entry_0) pos rem ++
            fat_fill_go exts (k + 1)
              (pos + (fat_fill_chunk (exts.getD k entry_0) pos rem).length)
              (rem - (fat_fill_chunk (exts.getD k entry_0) pos rem).length)
        else fat_fill_chunk (exts.getD k entry_0) pos rem ++
          List.replicate
            (rem - (fat_fill_chunk (exts.getD k entry_0) pos rem).length)
            FAT_BAD_CLUSTER) := by
  rw [fat_fill_go]

theorem fat_fill_go_spec (exts : List FatExtent)
    (hch : List.Chain' extAdj exts)
    (hne : ∀ e ∈ exts, e.starting_cluster ≤ e.ending_cluster) :
    ∀ rem k pos j, k < exts.length →
    (exts.getD k entry_0).starting_cluster ≤ pos →
    pos ≤ (exts.getD k entry_0).ending_cluster →
    j < rem →
    (fat_fill_go exts k pos rem).getD j 0 = entryVal exts (pos + j) := by
  have hloose : ∀ e ∈ exts, e.starting_cluster ≤ e.ending_cluster + 1 := by
    intro e he
    have := hne e he
    omega
  intro rem
  induction rem using Nat.strong_induction_on with
  | _ rem ih =>
    intro k pos j hk hsp hpe hj
    have hlenle := fat_fill_chunk_length_le (exts.getD k entry_0) pos rem
    have hlen1 : 1 ≤ (fat_fill_chunk (exts.getD k entry_0) pos rem).length :=
      fat_fill_chunk_ne _ pos rem hpe (by omega)
    have hmain : ∀ hjin : j < (fat_fill_chunk (exts.getD k entry_0) pos rem).length,
        (fat_fill_chunk (exts.getD k entry_0) pos rem).getD j 0
          = entryVal exts (pos + j) := by
      intro hjin
      rw [fat_fill_chunk_getD _ _ _ _ hjin]
      have hcont : extContains (exts.getD k entry_0) (pos + j) :=
        (extContains_def _ _).mpr
          ⟨by omega, fat_fill_chunk_pos_bound _ _ _ _ hpe hjin⟩
      rw [entryVal_of_contains exts (pos + j) hch hloose k hk hcont]
    rw [fat_fill_go_eq]
    by_cases hz : rem - (fat_fill_chunk (exts.getD k entry_0) pos rem).length = 0
    · rw [if_pos hz]
      exact hmain (by omega)
    · rw [if_neg hz]
      have hfull := fat_fill_chunk_full (exts.getD k entry_0) pos rem hpe (by omega)
      rcases Nat.lt_or_ge j (fat_fill_chunk (exts.getD k entry_0) pos rem).length
        with hjin | hjout
      · by_cases hkl : k < exts.length - 1
        · rw [if_pos hkl, List.getD_append _ _ _ _ hjin]
          exact hmain hjin
        · rw [if_neg hkl, List.getD_append _ _ _ _ hjin]
          exact hmain hjin
      · by_cases hkl : k < exts.length - 1
        · rw [if_pos hkl, List.getD_append_right _ _ _ _ hjout]
          have hadj := chain_adj_get exts hch k (by omega)
          have hnext : (exts.getD (k + 1) entry_0).starting_cluster
              = pos + (fat_fill_chunk (exts.getD k entry_0) pos rem).length := by
            omega
          have hnexte := hne _ (getD_mem exts (k + 1) (by omega))
          have hrec := ih
            (rem - (fat_fill_chunk (exts.getD k entry_0) pos rem).length)
            (by omega) (k + 1)
            (pos + (fat_fill_chunk (exts.getD k entry_0) pos rem).length)
            (j - (fat_fill_chunk (exts.getD k entry_0) pos rem).length)
            (by omega) (by omega) (by omega) (by omega)
          rw [hrec]
          have harith : pos + (fat_fill_chunk (exts.getD k entry_0) pos rem).length
              + (j - (fat_fill_chunk (exts.getD k entry_0) pos rem).length)
              = pos + j := by omega
          rw [harith]
        · rw [if_neg hkl, List.getD_append_right _ _ _ _ hjout]
          have hrep : (List.replicate
              (rem - (fat_fill_chunk (exts.getD k entry_0) pos rem).length)
              FAT_BAD_CLUSTER).getD
              (j - (fat_fill_chunk (exts.getD k entry_0) pos rem).length) 0
              = FAT_BAD_CLUSTER := by
            rw [getD_eq_getN _ 0 _ (by simp only [List.length_replicate]; omega)]
            simp
          rw [hrep]
          have hklast : k = exts.length - 1 := by omega
          rw [entryVal_past_end exts (pos + j) hch hloose ?_]
          rw [getLastD_eq_getD_len, ← hklast]
          omega

theorem getLastD_append_single (l : List FatExtent) (a : FatExtent) :
    (l ++ [a]).getLastD entry_0 = a := by
  rw [List.getLastD_eq_getLast?, List.getLast?_concat]
  rfl

theorem getLastD_of_ne (l : List FatExtent) (h : l ≠ []) :
    l.getLast? = some (l.getLastD entry_0) := by
  rw [List.getLastD_eq_getLast?]
  cases hgl : l.getLast? with
  | none => exact absurd (List.getLast?_eq_none_iff.mp hgl) h
  | some a => rfl

theorem getD_append_left_ext (l l2 : List FatExtent) (i : Nat) (h : i < l.length) :
    (l ++ l2).getD i entry_0 = l.getD i entry_0 :=
  List.getD_append _ _ _ _ h

theorem chain_append_single (l : List FatExtent) (a : FatExtent)
    (hch : List.Chain' extAdj l)
    (hadj : l ≠ [] → extAdj (l.getLastD entry_0) a) :
    List.Chain' extAdj (l ++ [a]) := by
  rw [List.chain'_append]
  refine ⟨hch, List.chain'_singleton a, ?_⟩
  intro x hx y hy
  cases hl : l.getLast? with
  | none => rw [hl] at hx; simp at hx
  | some b =>
    rw [hl] at hx
    simp at hx hy
    subst hx
    subst hy
    have hne : l ≠ [] := by
      intro hcon
      rw [hcon] at hl
      simp at hl
    have hthis := hadj hne
    have hb : l.getLastD entry_0 = b := by
      have h2 := getLastD_of_ne l hne
      rw [h2] at hl
      exact Option.some.inj hl
    rw [hb] at hthis
    exact hthis

theorem tail_chain_append_single (l : List FatExtent) (a : FatExtent)
    (hch : List.Chain' extTailAdj l)
    (hadj : l ≠ [] → extTailAdj (l.getLastD entry_0) a) :
    List.Chain' extTailAdj (l ++ [a]) := by
  rw [List.chain'_append]
  refine ⟨hch, List.chain'_singleton a, ?_⟩
  intro x hx y hy
  cases hl : l.getLast? with
  | none => rw [hl] at hx; simp at hx
  | some b =>
    rw [hl] at hx
    simp at hx hy
    subst hx
    subst hy
    have hne : l ≠ [] := by
      intro hcon
      rw [hcon] at hl
      simp at hl
    have hthis := hadj hne
    have hb : l.getLastD entry_0 = b := by
      have h2 := getLastD_of_ne l hne
      rw [h2] at hl
      exact Option.some.inj hl
    rw [hb] at hthis
    exact hthis

theorem getD_set_ext (l : List FatExtent) (i j : Nat) (x : FatExtent)
    (hj : j < l.length) :
    (l.set i x).getD j entry_0 = if i = j then x else l.getD j entry_0 := by
  rw [getD_eq_get (l.set i x) j (by simpa using hj), getD_eq_get l j hj]
  by_cases hij : i = j
  · subst hij
    simp [List.get_set]
  · simp [List.get_set, hij]

theorem getLastD_set_ext (l : List FatExtent) (i : Nat) (x : FatExtent)
    (hi : i < l.length) :
    (l.set i x).getLastD entry_0 =
      if i = l.length - 1 then x else l.getLastD entry_0 := by
  have hne : l ≠ [] := by
    intro hcon
    rw [hcon] at hi
    simp at hi
  have h1 : (l.set i x).getLastD entry_0 = (l.set i x).getD (l.length - 1) entry_0 := by
    rw [getLastD_eq_getD_len]
    simp
  rw [h1, getD_set_ext l i (l.length - 1) x (by omega), getLastD_eq_getD_len]

theorem chain_set_preserve (exts : List FatExtent)
    (hch : List.Chain' extAdj exts) (i : Nat) (x : FatExtent)
    (hi : i < exts.length)
    (hstart : x.starting_cluster = (exts.getD i entry_0).starting_cluster)
    (hend : i + 1 < exts.length →
      x.ending_cluster = (exts.getD i entry_0).ending_cluster) :
    List.Chain' extAdj (exts.set i x) := by
  rw [List.chain'_iff_get] at hch ⊢
  intro j hj
  simp only [List.length_set] at hj
  have hg1 := getD_set_ext exts i j x (by omega)
  have hg2 := getD_set_ext exts i (j + 1) x (by omega)
  rw [getD_eq_get _ j (by simpa using (by omega : j < exts.length))] at hg1
  rw [getD_eq_get _ (j + 1) (by simpa using (by omega : j + 1 < exts.length))] at hg2
  have horig := hch j hj
  rw [getD_eq_get exts j (by omega)] at hg1
  rw [getD_eq_get exts (j + 1) (by omega)] at hg2
  simp only [extAdj] at horig ⊢
  by_cases hij : i = j
  · rw [if_pos hij] at hg1
    rw [if_neg (by omega)] at hg2
    rw [hg1, hg2]
    have hendj := hend (by omega)
    rw [getD_eq_get exts i (by omega)] at hendj
    subst hij
    omega
  · rw [if_neg hij] at hg1
    by_cases hij2 : i = j + 1
    · rw [if_pos hij2] at hg2
      rw [hg1, hg2]
      rw [getD_eq_get exts i (by omega)] at hstart
      subst hij2
      omega
    · rw [if_neg hij2] at hg2
      rw [hg1, hg2]
      exact horig

theorem getLast?_mem_ext (l : List FatExtent) (a : FatExtent)
    (h : l.getLast? = some a) : a ∈ l := by
  have hne : l ≠ [] := by
    intro hcon
    rw [hcon] at h
    simp at h
  have h2 := getLastD_of_ne l hne
  rw [h] at h2
  have h3 : a = l.getLastD entry_0 := Option.some.inj h2
  rw [h3, getLastD_eq_getD_len]
  exact getD_mem l (l.length - 1) (by
    have : l.length ≠ 0 := fun hc => hne (List.length_eq_zero.mp hc)
    omega)

theorem lastFreeN_le (dc : Nat) (s : FatState) (h : ConstInv dc s) :
    lastFreeN s ≤ dc + 1 := by
  unfold lastFreeN
  cases hgl : s.extents_from_end.getLast? with
  | none =>
    show s.data_clusters + 1 ≤ dc + 1
    rw [h.dc_eq]
  | some e =>
    show e.starting_cluster - 1 ≤ dc + 1
    have hmem := getLast?_mem_ext _ _ hgl
    have := (h.tail_bound e hmem).2
    omega

theorem ffc_eq (dc : Nat) (s : FatState) (h : ConstInv dc s) :
    first_free_cluster s = frontLastEnd s + 1 := by
  unfold first_free_cluster
  have h1 : frontLastEnd s ≤ dc + 1 := le_trans h.sep (lastFreeN_le dc s h)
  have h2 := h.dc_bound
  unfold frontLastEnd at h1 ⊢
  simp only [U32] at h2 ⊢
  omega

theorem lfc_eq (dc : Nat) (s : FatState) (h : ConstInv dc s) :
    last_free_cluster s = lastFreeN s := by
  unfold last_free_cluster lastFreeN
  have hdc := h.dc_bound
  cases hgl : s.extents_from_end.getLast? with
  | none =>
    show (s.data_clusters + RESERVED_FAT_ENTRIES - 1) % U32 = s.data_clusters + 1
    rw [h.dc_eq]
    simp only [U32, RESERVED_FAT_ENTRIES] at hdc ⊢
    omega
  | some e =>
    show (e.starting_cluster + (U32 - 1)) % U32 = e.starting_cluster - 1
    have hmem := getLast?_mem_ext _ _ hgl
    have hb := (h.tail_bound e hmem).2
    have hg := h.tail_start_ge e hmem
    simp only [U32] at hdc hb ⊢
    omega

theorem frontLastEnd_le (dc : Nat) (s : FatState) (h : ConstInv dc s) :
    frontLastEnd s ≤ dc + 1 := le_trans h.sep (lastFreeN_le dc s h)

theorem constInv_init (dc : Nat) (hdc : dc + 2 < U32) : ConstInv dc (fat_init dc) := by
  have hdc' : dc % U32 = dc := by
    simp only [U32] at hdc ⊢
    omega
  refine
    { dc_eq := hdc'
      dc_bound := hdc
      front_ne := by simp [fat_init]
      front_head := rfl
      front_chain := ?_
      front_loose := ?_
      front_fields := ?_
      front_last_ge1 := ?_
      sep := ?_
      tail_chain := List.chain'_nil
      tail_loose := by intro e he; simp [fat_init] at he
      tail_fields := by intro e he; simp [fat_init] at he
      tail_head := by intro hne; simp [fat_init] at hne
      tail_start_ge := by intro e he; simp [fat_init] at he
      tail_bound := by intro e he; simp [fat_init] at he }
  · show List.Chain' extAdj [entry_0, entry_1]
    refine List.chain'_cons.mpr ⟨?_, List.chain'_singleton _⟩
    show entry_1.starting_cluster = entry_0.ending_cluster + 1
    rfl
  · intro e he
    simp only [fat_init, List.mem_cons, List.mem_singleton] at he
    rcases he with he | he | he
    · rw [he]; simp [entry_0]
    · rw [he]; simp [entry_1]
    · simp at he
  · intro e he
    simp only [fat_init, List.mem_cons, List.mem_singleton] at he
    rcases he with he | he | he
    · rw [he]; simp [entry_0, U32]
    · rw [he]; simp [entry_1, FAT_END_OF_CHAIN, U32]
    · simp at he
  · show 1 ≤ frontLastEnd (fat_init dc)
    have : frontLastEnd (fat_init dc) = 1 := rfl
    omega
  · show frontLastEnd (fat_init dc) ≤ lastFreeN (fat_init dc)
    have h1 : frontLastEnd (fat_init dc) = 1 := rfl
    have h2 : lastFreeN (fat_init dc) = dc % U32 + 1 := rfl
    omega

theorem alloc_beginning_result (s : FatState) (n : Nat) :
    (fat_alloc_beginning s n).2 = { s with extents := s.extents ++
      [{ starting_cluster := first_free_cluster s,
         ending_cluster := (first_free_cluster s + n % U32 + (U32 - 1)) % U32,
         index := 0, next := FAT_END_OF_CHAIN,
         extent_type := EXTENT_UNKNOWN }] } := rfl

theorem alloc_end_result (s : FatState) (n : Nat) :
    (fat_alloc_end s n).2 = { s with extents_from_end := s.extents_from_end ++
      [{ starting_cluster := (last_free_cluster s + (U32 - n % U32) + 1) % U32,
         ending_cluster := last_free_cluster s,
         index := 0, next := FAT_END_OF_CHAIN,
         extent_type := EXTENT_UNKNOWN }] } := rfl

theorem constInv_alloc_beginning (dc : Nat) (s : FatState) (n : Nat)
    (h : ConstInv dc s)
    (hok : first_free_cluster s + n % U32 ≤ last_free_cluster s + 1) :
    ConstInv dc (fat_alloc_beginning s n).2 := by
  rw [alloc_beginning_result]
  have hffc := ffc_eq dc s h
  have hlfc := lfc_eq dc s h
  have hlfle := lastFreeN_le dc s h
  have hdc := h.dc_bound
  rw [hffc, hlfc] at hok
  have hend : (first_free_cluster s + n % U32 + (U32 - 1)) % U32
      = frontLastEnd s + n % U32 := by
    rw [hffc]
    simp only [U32] at hdc hok ⊢
    omega
  set ne : FatExtent :=
    { starting_cluster := first_free_cluster s,
      ending_cluster := (first_free_cluster s + n % U32 + (U32 - 1)) % U32,
      index := 0, next := FAT_END_OF_CHAIN,
      extent_type := EXTENT_UNKNOWN } with hne_def
  have hne_start : ne.starting_cluster = frontLastEnd s + 1 := hffc
  have hne_end : ne.ending_cluster = frontLastEnd s + n % U32 := hend
  have hfl : frontLastEnd { s with extents := s.extents ++ [ne] }
      = frontLastEnd s + n % U32 := by
    unfold frontLastEnd
    rw [getLastD_append_single]
    exact hne_end
  refine
    { dc_eq := h.dc_eq
      dc_bound := h.dc_bound
      front_ne := by simp
      front_head := ?_
      front_chain := ?_
      front_loose := ?_
      front_fields := ?_
      front_last_ge1 := ?_
      sep := ?_
      tail_chain := h.tail_chain
      tail_loose := h.tail_loose
      tail_fields := h.tail_fields
      tail_head := h.tail_head
      tail_start_ge := h.tail_start_ge
      tail_bound := h.tail_bound }
  · show ((s.extents ++ [ne]).getD 0 entry_0).starting_cluster = 0
    rw [getD_append_left_ext s.extents [ne] 0 (by
      have := h.front_ne
      cases hx : s.extents with
      | nil => exact absurd hx this
      | cons a rest => simp)]
    exact h.front_head
  · show List.Chain' extAdj (s.extents ++ [ne])
    refine chain_append_single s.extents ne h.front_chain ?_
    intro _
    show ne.starting_cluster = (s.extents.getLastD entry_0).ending_cluster + 1
    rw [hne_start]
    rfl
  · intro e he
    rw [List.mem_append] at he
    rcases he with he | he
    · exact h.front_loose e he
    · rw [List.mem_singleton] at he
      rw [he, hne_start, hne_end]
      omega
  · intro e he
    rw [List.mem_append] at he
    rcases he with he | he
    · exact h.front_fields e he
    · rw [List.mem_singleton] at he
      rw [he]
      refine ⟨by simp [U32], by simp [FAT_END_OF_CHAIN, U32]⟩
  · show 1 ≤ frontLastEnd { s with extents := s.extents ++ [ne] }
    rw [hfl]
    have := h.front_last_ge1
    omega
  · show frontLastEnd { s with extents := s.extents ++ [ne] }
      ≤ lastFreeN { s with extents := s.extents ++ [ne] }
    rw [hfl]
    have hlf2 : lastFreeN { s with extents := s.extents ++ [ne] } = lastFreeN s := rfl
    rw [hlf2]
    omega

theorem constInv_alloc_end (dc : Nat) (s : FatState) (n : Nat)
    (h : ConstInv dc s)
    (hok : first_free_cluster s + n % U32 ≤ last_free_cluster s + 1) :
    ConstInv dc (fat_alloc_end s n).2 := by
  rw [alloc_end_result]
  have hffc := ffc_eq dc s h
  have hlfc := lfc_eq dc s h
  have hlfle := lastFreeN_le dc s h
  have hdc := h.dc_bound
  have hge1 := h.front_last_ge1
  have hsep := h.sep
  rw [hffc, hlfc] at hok
  have hstart : (last_free_cluster s + (U32 - n % U32) + 1) % U32
      = lastFreeN s + 1 - n % U32 := by
    rw [hlfc]
    have hnlt : n % U32 < U32 := Nat.mod_lt n (by simp [U32])
    simp only [U32] at hdc hok hnlt ⊢
    omega
  set ne : FatExtent :=
    { starting_cluster := (last_free_cluster s + (U32 - n % U32) + 1) % U32,
      ending_cluster := last_free_cluster s,
      index := 0, next := FAT_END_OF_CHAIN,
      extent_type := EXTENT_UNKNOWN } with hne_def
  have hne_start : ne.starting_cluster = lastFreeN s + 1 - n % U32 := hstart
  have hne_end : ne.ending_cluster = lastFreeN s := hlfc
  have hlf2 : lastFreeN { s with extents_from_end := s.extents_from_end ++ [ne] }
      = ne.starting_cluster - 1 := by
    unfold lastFreeN
    rw [List.getLast?_concat]
  refine
    { dc_eq := h.dc_eq
      dc_bound := h.dc_bound
      front_ne := h.front_ne
      front_head := h.front_head
      front_chain := h.front_chain
      front_loose := h.front_loose
      front_fields := h.front_fields
      front_last_ge1 := h.front_last_ge1
      sep := ?_
      tail_chain := ?_
      tail_loose := ?_
      tail_fields := ?_
      tail_head := ?_
      tail_start_ge := ?_
      tail_bound := ?_ }
  · show frontLastEnd s ≤ lastFreeN { s with extents_from_end := s.extents_from_end ++ [ne] }
    rw [hlf2, hne_start]
    omega
  · show List.Chain' extTailAdj (s.extents_from_end ++ [ne])
    refine tail_chain_append_single s.extents_from_end ne h.tail_chain ?_
    intro hne2
    show ne.ending_cluster + 1 = (s.extents_from_end.getLastD entry_0).starting_cluster
    rw [hne_end]
    have hmem := getLast?_mem_ext _ _ (getLastD_of_ne s.extents_from_end hne2)
    have hg := h.tail_start_ge _ hmem
    have hlfn : lastFreeN s = (s.extents_from_end.getLastD entry_0).starting_cluster - 1 := by
      unfold lastFreeN
      rw [getLastD_of_ne s.extents_from_end hne2]
    omega
  · intro e he
    rw [List.mem_append] at he
    rcases he with he | he
    · exact h.tail_loose e he
    · rw [List.mem_singleton] at he
      rw [he, hne_start, hne_end]
      omega
  · intro e he
    rw [List.mem_append] at he
    rcases he with he | he
    · exact h.tail_fields e he
    · rw [List.mem_singleton] at he
      rw [he]
      exact ⟨by simp [U32], by simp [FAT_END_OF_CHAIN, U32]⟩
  · intro hne2
    show ((s.extents_from_end ++ [ne]).getD 0 entry_0).ending_cluster = dc + 1
    by_cases hx : s.extents_from_end = []
    · rw [hx]
      show ne.ending_cluster = dc + 1
      rw [hne_end]
      unfold lastFreeN
      rw [hx]
      show s.data_clusters + 1 = dc + 1
      rw [h.dc_eq]
    · have hlen : 0 < s.extents_from_end.length := by
        cases hy : s.extents_from_end with
        | nil => exact absurd hy hx
        | cons a r => simp
      rw [getD_append_left_ext s.extents_from_end [ne] 0 hlen]
      exact h.tail_head hx
  · intro e he
    rw [List.mem_append] at he
    rcases he with he | he
    · exact h.tail_start_ge e he
    · rw [List.mem_singleton] at he
      rw [he, hne_start]
      omega
  · intro e he
    rw [List.mem_append] at he
    rcases he with he | he
    · exact h.tail_bound e he
    · rw [List.mem_singleton] at he
      rw [he, hne_start, hne_end]
      omega

theorem extend_chain_walk_bounds (exts : List FatExtent) (fuel : Nat) :
    ∀ r : Int, (r = -1 ∨ (0 ≤ r ∧ r < (exts.length : Int))) →
    (extend_chain_walk exts r fuel = -1 ∨
      (0 ≤ extend_chain_walk exts r fuel ∧
        extend_chain_walk exts r fuel < (exts.length : Int))) := by
  induction fuel with
  | zero => intro r _; left; rfl
  | succ f ih =>
    intro r hr
    have hunf : extend_chain_walk exts r (f + 1) =
      (if r < 0 then r
       else if (exts.getD r.toNat entry_0).next = FAT_END_OF_CHAIN then r
       else if (exts.getD r.toNat entry_0).extent_type = EXTENT_LITERAL then -1
       else extend_chain_walk exts
         (find_extent_go exts ((exts.getD r.toNat entry_0).next) 0
           ((exts.length : Int) - 1)) f) := rfl
    rw [hunf]
    by_cases h1 : r < 0
    · rw [if_pos h1]
      left
      omega
    · rw [if_neg h1]
      by_cases h2 : (exts.getD r.toNat entry_0).next = FAT_END_OF_CHAIN
      · rw [if_pos h2]
        right
        omega
      · rw [if_neg h2]
        by_cases h3 : (exts.getD r.toNat entry_0).extent_type = EXTENT_LITERAL
        · rw [if_pos h3]
          left
          rfl
        · rw [if_neg h3]
          refine ih _ ?_
          have hs := find_extent_go_sound exts ((exts.getD r.toNat entry_0).next) 0
            ((exts.length : Int) - 1) (by omega) (by omega)
          rcases hs with hs | hs
          · left; exact hs
          · right; exact ⟨hs.1, hs.2.1⟩

theorem ecw_bounds (s : FatState) (c : Nat) :
    ecw s c = -1 ∨ (0 ≤ ecw s c ∧ ecw s c < (s.extents.length : Int)) := by
  refine extend_chain_walk_bounds s.extents (s.extents.length + 1) _ ?_
  have hs := find_extent_go_sound s.extents (c % U32) 0
    ((s.extents.length : Int) - 1) (by omega) (by omega)
  rcases hs with hs | hs
  · left; exact hs
  · right; exact ⟨hs.1, hs.2.1⟩

theorem fat_extend_chain_unfold (s : FatState) (c : Nat) :
    fat_extend_chain s c =
      (if ecw s c < 0 then (0, s)
      else if ecw s c = (s.extents.length : Int) - 1 then
        (((ecFe s c).ending_cluster + 1) % U32,
          { s with extents := s.extents.set (ecw s c).toNat ({ ecFe s c with ending_cluster := ((ecFe s c).ending_cluster + 1) % U32 }) })
      else
        (first_free_cluster s,
          { s with extents := (s.extents.set (ecw s c).toNat ({ ecFe s c with next := first_free_cluster s })) ++ [{ starting_cluster := first_free_cluster s, ending_cluster := first_free_cluster s, index := (ecFe s c).index, next := FAT_END_OF_CHAIN, extent_type := (ecFe s c).extent_type }] })) := rfl

theorem fat_extend_chain_fail (s : FatState) (c : Nat)
    (h1 : ecw s c < 0) :
    fat_extend_chain s c = (0, s) := by
  rw [fat_extend_chain_unfold, if_pos h1]

theorem fat_extend_chain_last (s : FatState) (c : Nat)
    (h1 : ¬ ecw s c < 0)
    (h2 : ecw s c = (s.extents.length : Int) - 1) :
    fat_extend_chain s c =
      (((ecFe s c).ending_cluster + 1) % U32,
       { s with extents := s.extents.set (ecw s c).toNat ({ ecFe s c with ending_cluster := ((ecFe s c).ending_cluster + 1) % U32 }) }) := by
  rw [fat_extend_chain_unfold, if_neg h1, if_pos h2]

theorem fat_extend_chain_mid (s : FatState) (c : Nat)
    (h1 : ¬ ecw s c < 0)
    (h2 : ¬ ecw s c = (s.extents.length : Int) - 1) :
    fat_extend_chain s c =
      (first_free_cluster s,
       { s with extents := (s.extents.set (ecw s c).toNat ({ ecFe s c with next := first_free_cluster s })) ++ [{ starting_cluster := first_free_cluster s, ending_cluster := first_free_cluster s, index := (ecFe s c).index, next := FAT_END_OF_CHAIN, extent_type := (ecFe s c).extent_type }] }) := by
  rw [fat_extend_chain_unfold, if_neg h1, if_neg h2]

theorem constInv_extend_chain (dc : Nat) (s : FatState) (c : Nat)
    (h : ConstInv dc s)
    (hok : (fat_extend_chain s c).1 = 0 ∨ first_free_cluster s ≤ last_free_cluster s) :
    ConstInv dc (fat_extend_chain s c).2 := by
  have hdc := h.dc_bound
  have hge1 := h.front_last_ge1
  have hffc := ffc_eq dc s h
  have hlfc := lfc_eq dc s h
  have hlfle := lastFreeN_le dc s h
  have hfle := frontLastEnd_le dc s h
  have hmod : (frontLastEnd s + 1) % U32 = frontLastEnd s + 1 := by
    simp only [U32] at hdc ⊢
    omega
  rcases ecw_bounds s c with hw | ⟨hw0, hwlt⟩
  · rw [fat_extend_chain_fail s c (by omega)]
    exact h
  · have hklt : (ecw s c).toNat < s.extents.length := by omega
    have hlen_pos : 0 < s.extents.length := by omega
    have hkmem : ecFe s c ∈ s.extents := getD_mem s.extents (ecw s c).toNat hklt
    have hfields := h.front_fields _ hkmem
    have hloose := h.front_loose _ hkmem
    by_cases hlast : ecw s c = (s.extents.length : Int) - 1
    · have hk_eq : (ecw s c).toNat = s.extents.length - 1 := by omega
      have hfe_last : ecFe s c = s.extents.getLastD entry_0 := by
        show s.extents.getD (ecw s c).toNat entry_0 = s.extents.getLastD entry_0
        rw [hk_eq, ← getLastD_eq_getD_len]
      have hfe_end : (ecFe s c).ending_cluster = frontLastEnd s := by
        rw [hfe_last]
        rfl
      have hr1 : (fat_extend_chain s c).1 = ((ecFe s c).ending_cluster + 1) % U32 := by
        rw [fat_extend_chain_last s c (by omega) hlast]
      have hsep2 : frontLastEnd s + 1 ≤ lastFreeN s := by
        rcases hok with hok | hok
        · rw [hr1, hfe_end, hmod] at hok
          omega
        · rw [hffc, hlfc] at hok
          exact hok
      rw [fat_extend_chain_last s c (by omega) hlast]
      show ConstInv dc { s with extents := s.extents.set (ecw s c).toNat (ecFeInc s c) }
      have hinc_start : (ecFeInc s c).starting_cluster = (ecFe s c).starting_cluster := rfl
      have hinc_end : (ecFeInc s c).ending_cluster = frontLastEnd s + 1 := by
        show ((ecFe s c).ending_cluster + 1) % U32 = frontLastEnd s + 1
        rw [hfe_end, hmod]
      refine
        { dc_eq := h.dc_eq
          dc_bound := h.dc_bound
          front_ne := ?_
          front_head := ?_
          front_chain := ?_
          front_loose := ?_
          front_fields := ?_
          front_last_ge1 := ?_
          sep := ?_
          tail_chain := h.tail_chain
          tail_loose := h.tail_loose
          tail_fields := h.tail_fields
          tail_head := h.tail_head
          tail_start_ge := h.tail_start_ge
          tail_bound := h.tail_bound }
      · intro hcon
        have hl := congrArg List.length hcon
        rw [List.length_set] at hl
        simp only [List.length_nil] at hl
        omega
      · show ((s.extents.set (ecw s c).toNat (ecFeInc s c)).getD 0 entry_0).starting_cluster = 0
        rw [getD_set_ext _ _ _ _ hlen_pos]
        by_cases hk0 : (ecw s c).toNat = 0
        · rw [if_pos hk0, hinc_start]
          show (s.extents.getD (ecw s c).toNat entry_0).starting_cluster = 0
          rw [hk0]
          exact h.front_head
        · rw [if_neg hk0]
          exact h.front_head
      · show List.Chain' extAdj (s.extents.set (ecw s c).toNat (ecFeInc s c))
        refine chain_set_preserve s.extents h.front_chain _ _ hklt hinc_start ?_
        intro hcon
        omega
      · intro e he
        rcases List.mem_or_eq_of_mem_set he with he | he
        · exact h.front_loose e he
        · rw [he, hinc_start, hinc_end]
          have := hfe_end
          omega
      · intro e he
        rcases List.mem_or_eq_of_mem_set he with he | he
        · exact h.front_fields e he
        · rw [he]
          exact hfields
      · show 1 ≤ frontLastEnd { s with extents := s.extents.set (ecw s c).toNat (ecFeInc s c) }
        unfold frontLastEnd
        rw [getLastD_set_ext _ _ _ hklt, if_pos hk_eq, hinc_end]
        omega
      · show frontLastEnd { s with extents := s.extents.set (ecw s c).toNat (ecFeInc s c) }
          ≤ lastFreeN { s with extents := s.extents.set (ecw s c).toNat (ecFeInc s c) }
        have hlf2 : lastFreeN { s with extents := s.extents.set (ecw s c).toNat (ecFeInc s c) }
            = lastFreeN s := rfl
        rw [hlf2]
        unfold frontLastEnd
        rw [getLastD_set_ext _ _ _ hklt, if_pos hk_eq, hinc_end]
        exact hsep2
    · have hk_lt1 : (ecw s c).toNat + 1 < s.extents.length := by omega
      have hr1 : (fat_extend_chain s c).1 = first_free_cluster s := by
        rw [fat_extend_chain_mid s c (by omega) hlast]
      have hsep2 : frontLastEnd s + 1 ≤ lastFreeN s := by
        rcases hok with hok | hok
        · rw [hr1, hffc] at hok
          omega
        · rw [hffc, hlfc] at hok
          exact hok
      rw [fat_extend_chain_mid s c (by omega) hlast]
      show ConstInv dc
        { s with extents := (s.extents.set (ecw s c).toNat (ecFeLinked s c)) ++ [ecNewExt s c] }
      have hlk_start : (ecFeLinked s c).starting_cluster = (ecFe s c).starting_cluster := rfl
      have hlk_end : (ecFeLinked s c).ending_cluster = (ecFe s c).ending_cluster := rfl
      have hnx_start : (ecNewExt s c).starting_cluster = frontLastEnd s + 1 := hffc
      have hnx_end : (ecNewExt s c).ending_cluster = frontLastEnd s + 1 := hffc
      have hsetlen : (s.extents.set (ecw s c).toNat (ecFeLinked s c)).length
          = s.extents.length := List.length_set _ _ _
      refine
        { dc_eq := h.dc_eq
          dc_bound := h.dc_bound
          front_ne := by simp
          front_head := ?_
          front_chain := ?_
          front_loose := ?_
          front_fields := ?_
          front_last_ge1 := ?_
          sep := ?_
          tail_chain := h.tail_chain
          tail_loose := h.tail_loose
          tail_fields := h.tail_fields
          tail_head := h.tail_head
          tail_start_ge := h.tail_start_ge
          tail_bound := h.tail_bound }
      · show (((s.extents.set (ecw s c).toNat (ecFeLinked s c)) ++ [ecNewExt s c]).getD 0
          entry_0).starting_cluster = 0
        rw [getD_append_left_ext _ _ 0 (by omega)]
        rw [getD_set_ext _ _ _ _ hlen_pos]
        by_cases hk0 : (ecw s c).toNat = 0
        · rw [if_pos hk0, hlk_start]
          show (s.extents.getD (ecw s c).toNat entry_0).starting_cluster = 0
          rw [hk0]
          exact h.front_head
        · rw [if_neg hk0]
          exact h.front_head
      · show List.Chain' extAdj ((s.extents.set (ecw s c).toNat (ecFeLinked s c)) ++ [ecNewExt s c])
        refine chain_append_single _ _ ?_ ?_
        · refine chain_set_preserve s.extents h.front_chain _ _ hklt hlk_start ?_
          intro _
          exact hlk_end
        · intro _
          show (ecNewExt s c).starting_cluster =
            ((s.extents.set (ecw s c).toNat (ecFeLinked s c)).getLastD entry_0).ending_cluster + 1
          rw [getLastD_set_ext _ _ _ hklt, if_neg (by omega), hnx_start]
          rfl
      · intro e he
        rw [List.mem_append] at he
        rcases he with he | he
        · rcases List.mem_or_eq_of_mem_set he with he | he
          · exact h.front_loose e he
          · rw [he, hlk_start, hlk_end]
            exact hloose
        · rw [List.mem_singleton] at he
          rw [he, hnx_start, hnx_end]
          omega
      · intro e he
        rw [List.mem_append] at he
        rcases he with he | he
        · rcases List.mem_or_eq_of_mem_set he with he | he
          · exact h.front_fields e he
          · rw [he]
            refine ⟨hfields.1, ?_⟩
            show first_free_cluster s < U32
            rw [hffc]
            simp only [U32] at hdc ⊢
            omega
        · rw [List.mem_singleton] at he
          rw [he]
          refine ⟨hfields.1, ?_⟩
          show FAT_END_OF_CHAIN < U32
          simp [FAT_END_OF_CHAIN, U32]
      · show 1 ≤ frontLastEnd
          { s with extents := (s.extents.set (ecw s c).toNat (ecFeLinked s c)) ++ [ecNewExt s c] }
        unfold frontLastEnd
        rw [getLastD_append_single, hnx_end]
        omega
      · show frontLastEnd
          { s with extents := (s.extents.set (ecw s c).toNat (ecFeLinked s c)) ++ [ecNewExt s c] }
          ≤ lastFreeN
          { s with extents := (s.extents.set (ecw s c).toNat (ecFeLinked s c)) ++ [ecNewExt s c] }
        have hlf2 : lastFreeN
            { s with extents := (s.extents.set (ecw s c).toNat (ecFeLinked s c)) ++ [ecNewExt s c] }
            = lastFreeN s := rfl
        rw [hlf2]
        unfold frontLastEnd
        rw [getLastD_append_single, hnx_end]
        exact hsep2

theorem constInv_run (dc : Nat) (s : FatState) (ops : List FatOp)
    (h : ConstInv dc s) (hops : fatOpsOk s ops = true) :
    ConstInv dc (runFatOps s ops) := by
  induction ops generalizing s with
  | nil => exact h
  | cons op rest ih =>
    simp only [fatOpsOk, Bool.and_eq_true] at hops
    show ConstInv dc (runFatOps (fatStep s op) rest)
    refine ih (fatStep s op) ?_ hops.2
    cases op with
    | allocBeginning n =>
      refine constInv_alloc_beginning dc s n h ?_
      have h1 := hops.1
      simp only [fatOpOk, decide_eq_true_eq] at h1
      exact h1
    | allocEnd n =>
      refine constInv_alloc_end dc s n h ?_
      have h1 := hops.1
      simp only [fatOpOk, decide_eq_true_eq] at h1
      exact h1
    | extendChain c =>
      refine constInv_extend_chain dc s c h ?_
      have h1 := hops.1
      simp only [fatOpOk, Bool.or_eq_true, decide_eq_true_eq] at h1
      exact h1

theorem allPos_step (dc : Nat) (s : FatState) (op : FatOp)
    (h : ConstInv dc s) (hok : fatOpOk s op = true) (hpos : fatOpPos op = true)
    (hap : AllPosExt s) : AllPosExt (fatStep s op) := by
  have hdc := h.dc_bound
  have hffc := ffc_eq dc s h
  have hlfc := lfc_eq dc s h
  have hlfle := lastFreeN_le dc s h
  have hfle := frontLastEnd_le dc s h
  have hge1 := h.front_last_ge1
  cases op with
  | allocBeginning n =>
    simp only [fatOpOk, decide_eq_true_eq] at hok
    simp only [fatOpPos, decide_eq_true_eq] at hpos
    rw [hffc, hlfc] at hok
    show AllPosExt (fat_alloc_beginning s n).2
    rw [alloc_beginning_result]
    refine ⟨?_, hap.2⟩
    intro e he
    rw [List.mem_append] at he
    rcases he with he | he
    · exact hap.1 e he
    · rw [List.mem_singleton] at he
      rw [he]
      show first_free_cluster s ≤ (first_free_cluster s + n % U32 + (U32 - 1)) % U32
      rw [hffc]
      simp only [U32] at hdc hok hpos ⊢
      omega
  | allocEnd n =>
    simp only [fatOpOk, decide_eq_true_eq] at hok
    simp only [fatOpPos, decide_eq_true_eq] at hpos
    rw [hffc, hlfc] at hok
    show AllPosExt (fat_alloc_end s n).2
    rw [alloc_end_result]
    refine ⟨hap.1, ?_⟩
    intro e he
    rw [List.mem_append] at he
    rcases he with he | he
    · exact hap.2 e he
    · rw [List.mem_singleton] at he
      rw [he]
      show (last_free_cluster s + (U32 - n % U32) + 1) % U32 ≤ last_free_cluster s
      rw [hlfc]
      simp only [U32] at hdc hok hpos hlfle ⊢
      omega
  | extendChain c =>
    show AllPosExt (fat_extend_chain s c).2
    rcases ecw_bounds s c with hw | ⟨hw0, hwlt⟩
    · rw [fat_extend_chain_fail s c (by omega)]
      exact hap
    · have hklt : (ecw s c).toNat < s.extents.length := by omega
      have hkmem : ecFe s c ∈ s.extents := getD_mem s.extents (ecw s c).toNat hklt
      have hfe_pos := hap.1 _ hkmem
      by_cases hlast : ecw s c = (s.extents.length : Int) - 1
      · rw [fat_extend_chain_last s c (by omega) hlast]
        show AllPosExt { s with extents := s.extents.set (ecw s c).toNat (ecFeInc s c) }
        have hk_eq : (ecw s c).toNat = s.extents.length - 1 := by omega
        have hfe_last : ecFe s c = s.extents.getLastD entry_0 := by
          show s.extents.getD (ecw s c).toNat entry_0 = s.extents.getLastD entry_0
          rw [hk_eq, ← getLastD_eq_getD_len]
        have hfe_end : (ecFe s c).ending_cluster = frontLastEnd s := by
          rw [hfe_last]
          rfl
        refine ⟨?_, hap.2⟩
        intro e he
        rcases List.mem_or_eq_of_mem_set he with he | he
        · exact hap.1 e he
        · rw [he]
          show (ecFe s c).starting_cluster ≤ ((ecFe s c).ending_cluster + 1) % U32
          rw [hfe_end] at hfe_pos ⊢
          simp only [U32] at hdc hfle ⊢
          omega
      · rw [fat_extend_chain_mid s c (by omega) hlast]
        show AllPosExt
          { s with extents := (s.extents.set (ecw s c).toNat (ecFeLinked s c)) ++ [ecNewExt s c] }
        refine ⟨?_, hap.2⟩
        intro e he
        rw [List.mem_append] at he
        rcases he with he | he
        · rcases List.mem_or_eq_of_mem_set he with he | he
          · exact hap.1 e he
          · rw [he]
            exact hfe_pos
        · rw [List.mem_singleton] at he
          rw [he]
          exact le_refl _

theorem allPos_run (dc : Nat) (s : FatState) (ops : List FatOp)
    (h : ConstInv dc s) (hops : fatOpsOk s ops = true)
    (hpos : ops.all fatOpPos = true) (hap : AllPosExt s) :
    AllPosExt (runFatOps s ops) := by
  induction ops generalizing s with
  | nil => exact hap
  | cons op rest ih =>
    simp only [fatOpsOk, Bool.and_eq_true] at hops
    simp only [List.all_cons, Bool.and_eq_true] at hpos
    show AllPosExt (runFatOps (fatStep s op) rest)
    refine ih (fatStep s op) ?_ hops.2 hpos.2 ?_
    · cases op with
      | allocBeginning n =>
        refine constInv_alloc_beginning dc s n h ?_
        have h1 := hops.1
        simp only [fatOpOk, decide_eq_true_eq] at h1
        exact h1
      | allocEnd n =>
        refine constInv_alloc_end dc s n h ?_
        have h1 := hops.1
        simp only [fatOpOk, decide_eq_true_eq] at h1
        exact h1
      | extendChain c =>
        refine constInv_extend_chain dc s c h ?_
        have h1 := hops.1
        simp only [fatOpOk, Bool.or_eq_true, decide_eq_true_eq] at h1
        exact h1
    · exact allPos_step dc s op h hops.1 hpos.1 hap

theorem fat_finalize_eq (s : FatState) (m : Nat) :
    fat_finalize s m =
      { s with extents := finExts2 s m ++ s.extents_from_end.reverse,
               extents_from_end := [] } := rfl

theorem head?_eq_getD (l : List FatExtent) (h : l ≠ []) :
    l.head? = some (l.getD 0 entry_0) := by
  cases l with
  | nil => exact absurd rfl h
  | cons a r => rfl

theorem chain_append_ext (A B : List FatExtent)
    (hA : List.Chain' extAdj A) (hB : List.Chain' extAdj B)
    (hAB : A ≠ [] → B ≠ [] →
      (B.getD 0 entry_0).starting_cluster = (A.getLastD entry_0).ending_cluster + 1) :
    List.Chain' extAdj (A ++ B) := by
  rw [List.chain'_append]
  refine ⟨hA, hB, ?_⟩
  intro x hx y hy
  have hAne : A ≠ [] := by
    intro hcon
    rw [hcon] at hx
    simp at hx
  have hBne : B ≠ [] := by
    intro hcon
    rw [hcon] at hy
    simp at hy
  rw [getLastD_of_ne A hAne] at hx
  rw [head?_eq_getD B hBne] at hy
  have hx2 : x = A.getLastD entry_0 := Option.some.inj hx.symm
  have hy2 : y = B.getD 0 entry_0 := Option.some.inj hy.symm
  rw [hx2, hy2]
  show (B.getD 0 entry_0).starting_cluster = (A.getLastD entry_0).ending_cluster + 1
  exact hAB hAne hBne

theorem tail_reverse_chain (l : List FatExtent) (h : List.Chain' extTailAdj l) :
    List.Chain' extAdj l.reverse := by
  rw [List.chain'_reverse]
  refine List.Chain'.imp ?_ h
  intro a b hab
  exact hab.symm

theorem getLastD_append_of_ne (A B : List FatExtent) (h : B ≠ []) :
    (A ++ B).getLastD entry_0 = B.getLastD entry_0 := by
  rw [List.getLastD_eq_getLast?, List.getLast?_append, getLastD_of_ne B h]
  rfl

theorem reverse_getD0 (l : List FatExtent) (h : l ≠ []) :
    l.reverse.getD 0 entry_0 = l.getLastD entry_0 := by
  have h1 : l.reverse.head? = l.getLast? := List.head?_reverse l
  rw [getLastD_of_ne l h] at h1
  have hrne : l.reverse ≠ [] := by simpa using h
  rw [head?_eq_getD l.reverse hrne] at h1
  exact Option.some.inj h1

theorem reverse_getLastD (l : List FatExtent) (h : l ≠ []) :
    l.reverse.getLastD entry_0 = l.getD 0 entry_0 := by
  have h1 : l.reverse.getLast? = l.head? := List.getLast?_reverse l
  rw [head?_eq_getD l h] at h1
  have hrne : l.reverse ≠ [] := by simpa using h
  rw [getLastD_of_ne l.reverse hrne] at h1
  exact Option.some.inj h1

theorem finExts2_props (dc m : Nat) (s : FatState)
    (h : ConstInv dc s) (hap : AllPosExt s) (hfin : fat_finalize_ok s m = true) :
    List.Chain' extAdj (finExts2 s m) ∧
    ((finExts2 s m).getLastD entry_0).ending_cluster = lastFreeN s ∧
    finExts2 s m ≠ [] ∧
    ((finExts2 s m).getD 0 entry_0).starting_cluster = 0 ∧
    (∀ e ∈ finExts2 s m, e.starting_cluster ≤ e.ending_cluster) := by
  have hdc := h.dc_bound
  have hffc := ffc_eq dc s h
  have hlfc := lfc_eq dc s h
  have hlfle := lastFreeN_le dc s h
  have hfle := frontLastEnd_le dc s h
  have hge1 := h.front_last_ge1
  have hsep := h.sep
  simp only [fat_finalize_ok, decide_eq_true_eq] at hfin
  have hfs : (finFree s m).starting_cluster = frontLastEnd s + 1 := hffc
  have hfe : (finFree s m).ending_cluster
      = min (lastFreeN s) (frontLastEnd s + m % U32) := by
    show min (last_free_cluster s) ((first_free_cluster s + m % U32 + (U32 - 1)) % U32)
      = min (lastFreeN s) (frontLastEnd s + m % U32)
    rw [hlfc, hffc]
    rw [hffc] at hfin
    simp only [U32] at hdc hfin ⊢
    omega
  have hbe : (finBad s m).ending_cluster = lastFreeN s := hlfc
  have hfront_end : (s.extents.getLastD entry_0).ending_cluster = frontLastEnd s := rfl
  have hfront_len : 0 < s.extents.length := by
    cases hx : s.extents with
    | nil => exact absurd hx h.front_ne
    | cons a r => simp
  by_cases hfree : (finFree s m).starting_cluster ≤ (finFree s m).ending_cluster
  · have h1 : finExts1 s m = s.extents ++ [finFree s m] := by
      unfold finExts1
      rw [if_pos hfree]
    have hchain1 : List.Chain' extAdj (finExts1 s m) := by
      rw [h1]
      refine chain_append_single _ _ h.front_chain ?_
      intro _
      show (finFree s m).starting_cluster = (s.extents.getLastD entry_0).ending_cluster + 1
      rw [hfs, hfront_end]
    have hlast1 : (finExts1 s m).getLastD entry_0 = finFree s m := by
      rw [h1]
      exact getLastD_append_single _ _
    have hbs : (finBad s m).starting_cluster = (finFree s m).ending_cluster + 1 := by
      show ((finFree s m).ending_cluster + 1) % U32 = (finFree s m).ending_cluster + 1
      rw [hfe]
      simp only [U32] at hdc hlfle hfle ⊢
      omega
    have hne1 : finExts1 s m ≠ [] := by
      rw [h1]
      simp
    have hlen1 : 0 < (finExts1 s m).length := by
      cases hx : finExts1 s m with
      | nil => exact absurd hx hne1
      | cons a r => simp
    have hpos1 : ∀ e ∈ finExts1 s m, e.starting_cluster ≤ e.ending_cluster := by
      rw [h1]
      intro e he
      rw [List.mem_append] at he
      rcases he with he | he
      · exact hap.1 e he
      · rw [List.mem_singleton] at he
        rw [he]
        exact hfree
    have hhead1 : ((finExts1 s m).getD 0 entry_0).starting_cluster = 0 := by
      rw [h1, getD_append_left_ext _ _ 0 hfront_len]
      exact h.front_head
    by_cases hbad : (finBad s m).starting_cluster ≤ (finBad s m).ending_cluster
    · have h2 : finExts2 s m = finExts1 s m ++ [finBad s m] := by
        unfold finExts2
        rw [if_pos hbad]
      refine ⟨?_, ?_, ?_, ?_, ?_⟩
      · rw [h2]
        refine chain_append_single _ _ hchain1 ?_
        intro _
        show (finBad s m).starting_cluster
          = ((finExts1 s m).getLastD entry_0).ending_cluster + 1
        rw [hlast1, hbs]
      · rw [h2, getLastD_append_single, hbe]
      · rw [h2]
        simp
      · rw [h2, getD_append_left_ext _ _ 0 hlen1]
        exact hhead1
      · rw [h2]
        intro e he
        rw [List.mem_append] at he
        rcases he with he | he
        · exact hpos1 e he
        · rw [List.mem_singleton] at he
          rw [he]
          exact hbad
    · have h2 : finExts2 s m = finExts1 s m := by
        unfold finExts2
        rw [if_neg hbad]
      have hminL : min (lastFreeN s) (frontLastEnd s + m % U32) = lastFreeN s := by
        rw [hbs, hbe, hfe] at hbad
        omega
      refine ⟨by rw [h2]; exact hchain1, ?_, by rw [h2]; exact hne1,
        by rw [h2]; exact hhead1, by rw [h2]; exact hpos1⟩
      rw [h2, hlast1]
      show (finFree s m).ending_cluster = lastFreeN s
      rw [hfe, hminL]
  · have h1 : finExts1 s m = s.extents := by
      unfold finExts1
      rw [if_neg hfree]
    have hminE : min (lastFreeN s) (frontLastEnd s + m % U32) = frontLastEnd s := by
      rw [hfs, hfe] at hfree
      omega
    have hbs : (finBad s m).starting_cluster = frontLastEnd s + 1 := by
      show ((finFree s m).ending_cluster + 1) % U32 = frontLastEnd s + 1
      rw [hfe, hminE]
      simp only [U32] at hdc hfle ⊢
      omega
    by_cases hbad : (finBad s m).starting_cluster ≤ (finBad s m).ending_cluster
    · have h2 : finExts2 s m = s.extents ++ [finBad s m] := by
        unfold finExts2
        rw [if_pos hbad, h1]
      refine ⟨?_, ?_, ?_, ?_, ?_⟩
      · rw [h2]
        refine chain_append_single _ _ h.front_chain ?_
        intro _
        show (finBad s m).starting_cluster = (s.extents.getLastD entry_0).ending_cluster + 1
        rw [hbs, hfront_end]
      · rw [h2, getLastD_append_single, hbe]
      · rw [h2]
        simp
      · rw [h2, getD_append_left_ext _ _ 0 hfront_len]
        exact h.front_head
      · rw [h2]
        intro e he
        rw [List.mem_append] at he
        rcases he with he | he
        · exact hap.1 e he
        · rw [List.mem_singleton] at he
          rw [he]
          exact hbad
    · have h2 : finExts2 s m = s.extents := by
        unfold finExts2
        rw [if_neg hbad, h1]
      have hLE : lastFreeN s = frontLastEnd s := by
        rw [hbs, hbe] at hbad
        omega
      refine ⟨by rw [h2]; exact h.front_chain, ?_, by rw [h2]; exact h.front_ne,
        by rw [h2]; exact h.front_head, by rw [h2]; exact hap.1⟩
      rw [h2, hfront_end, hLE]

theorem finalize_props (dc m : Nat) (s : FatState)
    (h : ConstInv dc s) (hap : AllPosExt s) (hfin : fat_finalize_ok s m = true) :
    DisjointCover (fat_finalize s m).extents dc ∧
    ∀ e ∈ (fat_finalize s m).extents, e.starting_cluster ≤ e.ending_cluster := by
  obtain ⟨hch2, hlast2, hne2, hhead2, hpos2⟩ := finExts2_props dc m s h hap hfin
  have hext : (fat_finalize s m).extents
      = finExts2 s m ++ s.extents_from_end.reverse := by
    rw [fat_finalize_eq]
  rw [hext]
  have hlen2 : 0 < (finExts2 s m).length := by
    cases hx : finExts2 s m with
    | nil => exact absurd hx hne2
    | cons a r => simp
  have htailch : List.Chain' extAdj s.extents_from_end.reverse :=
    tail_reverse_chain _ h.tail_chain
  have hbound : s.extents_from_end.reverse ≠ [] →
      (s.extents_from_end.reverse.getD 0 entry_0).starting_cluster
        = ((finExts2 s m).getLastD entry_0).ending_cluster + 1 := by
    intro hrne
    have htne : s.extents_from_end ≠ [] := by
      intro hcon
      rw [hcon] at hrne
      simp at hrne
    rw [reverse_getD0 _ htne, hlast2]
    have hmem := getLast?_mem_ext _ _ (getLastD_of_ne _ htne)
    have hg := h.tail_start_ge _ hmem
    have hlfn : lastFreeN s
        = (s.extents_from_end.getLastD entry_0).starting_cluster - 1 := by
      unfold lastFreeN
      rw [getLastD_of_ne _ htne]
    omega
  have hchainF : List.Chain' extAdj (finExts2 s m ++ s.extents_from_end.reverse) :=
    chain_append_ext _ _ hch2 htailch (fun _ hrne => hbound hrne)
  have hposF : ∀ e ∈ finExts2 s m ++ s.extents_from_end.reverse,
      e.starting_cluster ≤ e.ending_cluster := by
    intro e he
    rw [List.mem_append] at he
    rcases he with he | he
    · exact hpos2 e he
    · rw [List.mem_reverse] at he
      exact hap.2 e he
  have hlooseF : ∀ e ∈ finExts2 s m ++ s.extents_from_end.reverse,
      e.starting_cluster ≤ e.ending_cluster + 1 := by
    intro e he
    have := hposF e he
    omega
  have hneF : finExts2 s m ++ s.extents_from_end.reverse ≠ [] := by
    intro hcon
    rw [List.append_eq_nil] at hcon
    exact hne2 hcon.1
  have hheadF : ((finExts2 s m ++ s.extents_from_end.reverse).getD 0 entry_0).starting_cluster
      = 0 := by
    rw [getD_append_left_ext _ _ 0 hlen2]
    exact hhead2
  have hlastF : ((finExts2 s m ++ s.extents_from_end.reverse).getLastD entry_0).ending_cluster
      = dc + 1 := by
    by_cases htne : s.extents_from_end = []
    · rw [htne]
      simp only [List.reverse_nil, List.append_nil]
      rw [hlast2]
      unfold lastFreeN
      rw [htne]
      show s.data_clusters + 1 = dc + 1
      rw [h.dc_eq]
    · have hrne : s.extents_from_end.reverse ≠ [] := by simpa using htne
      rw [getLastD_append_of_ne _ _ hrne, reverse_getLastD _ htne]
      exact h.tail_head htne
  refine ⟨⟨hneF, hheadF, hchainF, chain_sorted _ hchainF hlooseF, hlastF, ?_⟩, hposF⟩
  intro c hc
  refine chain_cover _ hchainF c hneF ?_ ?_
  · rw [hheadF]
    omega
  · rw [hlastF]
    simp only [RESERVED_FAT_ENTRIES] at hc
    omega

theorem allPos_init (dc : Nat) : AllPosExt (fat_init dc) := by
  refine ⟨?_, ?_⟩
  · intro e he
    have he2 : e ∈ [entry_0, entry_1] := he
    rcases List.mem_cons.mp he2 with he3 | he3
    · rw [he3]
      decide
    · rw [List.mem_singleton] at he3
      rw [he3]
      decide
  · intro e he
    have he2 : e ∈ ([] : List FatExtent) := he
    simp at he2

/-- C2: for every data_clusters whose cluster range fits in uint32 and
every within-capacity sequence of positive-size fat_alloc_beginning and
fat_alloc_end allocations and fat_extend_chain calls followed by a
fat_finalize whose free-extent arithmetic does not wrap, the finalized
extent table is a disjoint cover of the cluster range
[0, data_clusters + 2): nonempty, sorted by starting cluster with no
overlap, first extent starting at 0, consecutive extents meeting with no
gap, last extent ending at data_clusters + 1, and every cluster of the
range inside an extent. -/
theorem fat_finalize_disjoint_cover (dc mf : Nat) (ops : List FatOp)
    (hdc : dc + 2 < U32)
    (hops : fatOpsOk (fat_init dc) ops = true)
    (hpos : ops.all fatOpPos = true)
    (hfin : fat_finalize_ok (runFatOps (fat_init dc) ops) mf = true) :
    DisjointCover (fat_finalize (runFatOps (fat_init dc) ops) mf).extents dc := by
  have h0 := constInv_init dc hdc
  have h1 := constInv_run dc _ ops h0 hops
  have hap := allPos_run dc _ ops h0 hops hpos (allPos_init dc)
  exact (finalize_props dc mf _ h1 hap hfin).1

theorem fat_finalize_disjoint_cover_witness :
    fatOpsOk (fat_init 8) [FatOp.allocBeginning 2, FatOp.allocEnd 1] = true ∧
    DisjointCover (fat_finalize (runFatOps (fat_init 8)
      [FatOp.allocBeginning 2, FatOp.allocEnd 1]) 100).extents 8 :=
  ⟨by decide,
    fat_finalize_disjoint_cover 8 100
      [FatOp.allocBeginning 2, FatOp.allocEnd 1]
      (by decide) (by decide) (by decide) (by decide)⟩

theorem fat_finalize_over_allocation_cex :
    ¬ DisjointCover (fat_finalize (runFatOps (fat_init 0)
      [FatOp.allocBeginning 1]) 1).extents 0 := by
  decide

theorem fatStep_fat_size (s : FatState) (op : FatOp) :
    (fatStep s op).fat_size = s.fat_size := by
  cases op with
  | allocBeginning n => rfl
  | allocEnd n => rfl
  | extendChain c =>
    show (fat_extend_chain s c).2.fat_size = s.fat_size
    rw [fat_extend_chain_unfold]
    by_cases h1 : ecw s c < 0
    · rw [if_pos h1]
    · rw [if_neg h1]
      by_cases h2 : ecw s c = (s.extents.length : Int) - 1
      · rw [if_pos h2]
      · rw [if_neg h2]

theorem runFatOps_fat_size (ops : List FatOp) : ∀ s : FatState,
    (runFatOps s ops).fat_size = s.fat_size := by
  induction ops with
  | nil => intro s; rfl
  | cons op rest ih =>
    intro s
    show (runFatOps (fatStep s op) rest).fat_size = s.fat_size
    rw [ih (fatStep s op), fatStep_fat_size]

theorem fat_finalize_fat_size (s : FatState) (m : Nat) :
    (fat_finalize s m).fat_size = s.fat_size := by
  rw [fat_finalize_eq]

theorem fat_init_fat_size_lt (dc : Nat) : (fat_init dc).fat_size < U32 := by
  show ALIGN32 (((dc % U32 + RESERVED_FAT_ENTRIES) * 4) % U32) SECTOR_SIZE < U32
  unfold ALIGN32
  simp only [U32, SECTOR_SIZE]
  omega

theorem read_le32_le32_bytes (v : Nat) : read_le32 (le32_bytes v) = v % U32 := by
  show v % 256 + 256 * ((v / 256) % 256 + 256 * ((v / 65536) % 256
    + 256 * ((v / 16777216) % 256))) = v % U32
  simp only [U32]
  omega

theorem flatMap_le32_slice (ws : List Nat) (i : Nat) (hi : i < ws.length) :
    ((ws.flatMap le32_bytes).drop (4 * i)).take 4 = le32_bytes (ws.getD i 0) := by
  induction ws generalizing i with
  | nil => simp at hi
  | cons w rest ih =>
    rw [List.flatMap_cons]
    cases i with
    | zero =>
      rw [Nat.mul_zero, List.drop_zero, List.take_append_of_le_length (by
        show (4 : Nat) ≤ (le32_bytes w).length
        simp [le32_bytes])]
      show (le32_bytes w).take 4 = le32_bytes w
      rw [List.take_of_length_le (by simp [le32_bytes])]
    | succ n =>
      have hlen : (le32_bytes w).length = 4 := by simp [le32_bytes]
      have h4 : 4 * (n + 1) = (le32_bytes w).length + 4 * n := by
        rw [hlen]
        omega
      rw [h4, List.drop_append (4 * n), ih n (by simpa using hi)]
      rfl

theorem fat_fill_go_length (exts : List FatExtent) : ∀ d k pos rem,
    exts.length - k ≤ d → (fat_fill_go exts k pos rem).length = rem := by
  intro d
  induction d with
  | zero =>
    intro k pos rem hd
    rw [fat_fill_go_eq]
    have hle := fat_fill_chunk_length_le (exts.getD k entry_0) pos rem
    by_cases h1 : rem - (fat_fill_chunk (exts.getD k entry_0) pos rem).length = 0
    · rw [if_pos h1]
      omega
    · rw [if_neg h1, if_neg (by omega), List.length_append, List.length_replicate]
      omega
  | succ n ih =>
    intro k pos rem hd
    rw [fat_fill_go_eq]
    have hle := fat_fill_chunk_length_le (exts.getD k entry_0) pos rem
    by_cases h1 : rem - (fat_fill_chunk (exts.getD k entry_0) pos rem).length = 0
    · rw [if_pos h1]
      omega
    · rw [if_neg h1]
      by_cases h2 : k < exts.length - 1
      · rw [if_pos h2, List.length_append, ih (k + 1) _ _ (by omega)]
        omega
      · rw [if_neg h2, List.length_append, List.length_replicate]
        omega

theorem fat_fill_words_length (s : FatState) (p0 n : Nat) :
    (fat_fill_words s p0 n).length = n := by
  show (if find_extent s p0 < 0 then List.replicate n FAT_BAD_CLUSTER
    else fat_fill_go s.extents (find_extent s p0).toNat p0 n).length = n
  by_cases h : find_extent s p0 < 0
  · rw [if_pos h, List.length_replicate]
  · rw [if_neg h]
    exact fat_fill_go_length s.extents s.extents.length _ _ _ (by omega)

theorem fat_fill_words_spec (dc : Nat) (s : FatState) (p0 n j : Nat)
    (hdcv : DisjointCover s.extents dc)
    (hne : ∀ e ∈ s.extents, e.starting_cluster ≤ e.ending_cluster)
    (hj : j < n) :
    (fat_fill_words s p0 n).getD j 0 = entryVal s.extents (p0 + j) := by
  obtain ⟨hne0, hhead, hch, hpair, hlast, hcover⟩ := hdcv
  have hloose : ∀ e ∈ s.extents, e.starting_cluster ≤ e.ending_cluster + 1 := by
    intro e he
    have := hne e he
    omega
  show (if find_extent s p0 < 0 then List.replicate n FAT_BAD_CLUSTER
    else fat_fill_go s.extents (find_extent s p0).toNat p0 n).getD j 0 = _
  by_cases hp0 : p0 ≤ (s.extents.getLastD entry_0).ending_cluster
  · obtain ⟨e, hmem, hce⟩ := chain_cover _ hch p0 hne0 (by rw [hhead]; omega) hp0
    obtain ⟨⟨k, hk⟩, hek⟩ := List.mem_iff_get.mp hmem
    have hck : extContains (s.extents.getD k entry_0) p0 := by
      rw [getD_eq_get _ _ hk, hek]
      exact hce
    have hlen0 : 0 < s.extents.length := by omega
    have hfind : find_extent s p0 = (k : Int) :=
      find_extent_go_found s.extents p0 (chain_sorted _ hch hloose) hloose k hk hck
        0 ((s.extents.length : Int) - 1) (by omega) (by omega) (by omega) (by omega)
    rw [hfind, if_neg (by omega)]
    have hkn : ((k : Int)).toNat = k := Int.toNat_ofNat k
    rw [hkn]
    have hck2 := (extContains_def _ _).mp hck
    exact fat_fill_go_spec s.extents hch hne n k p0 j hk hck2.1 hck2.2 hj
  · have hnc : ∀ e ∈ s.extents, ¬ extContains e p0 := by
      intro e he hcon
      obtain ⟨⟨k, hk⟩, hek⟩ := List.mem_iff_get.mp he
      have hle := chain_ending_le_last s.extents hch hloose k hk
      rw [getD_eq_get _ _ hk, hek] at hle
      have := (extContains_def _ _).mp hcon
      omega
    have hfind : find_extent s p0 = -1 :=
      find_extent_go_none s.extents p0 0 ((s.extents.length : Int) - 1)
        (by omega) (by omega) hnc
    rw [hfind, if_pos (by omega)]
    rw [getD_eq_getN _ 0 j (by simpa using hj)]
    simp only [List.get_replicate]
    rw [entryVal_past_end s.extents (p0 + j) hch hloose (by omega)]

theorem finalize_fields (dc m : Nat) (s : FatState) (h : ConstInv dc s) :
    ∀ e ∈ (fat_finalize s m).extents, e.index < U32 ∧ e.next < U32 := by
  intro e he
  rw [fat_finalize_eq] at he
  have he2 : e ∈ finExts2 s m ++ s.extents_from_end.reverse := he
  rw [List.mem_append] at he2
  rcases he2 with he2 | he2
  · have he3 : e ∈ finExts1 s m ∨ e = finBad s m := by
      unfold finExts2 at he2
      by_cases hbad : (finBad s m).starting_cluster ≤ (finBad s m).ending_cluster
      · rw [if_pos hbad, List.mem_append] at he2
        rcases he2 with he2 | he2
        · exact Or.inl he2
        · rw [List.mem_singleton] at he2
          exact Or.inr he2
      · rw [if_neg hbad] at he2
        exact Or.inl he2
    rcases he3 with he3 | he3
    · have he4 : e ∈ s.extents ∨ e = finFree s m := by
        unfold finExts1 at he3
        by_cases hfree : (finFree s m).starting_cluster ≤ (finFree s m).ending_cluster
        · rw [if_pos hfree, List.mem_append] at he3
          rcases he3 with he3 | he3
          · exact Or.inl he3
          · rw [List.mem_singleton] at he3
            exact Or.inr he3
        · rw [if_neg hfree] at he3
          exact Or.inl he3
      rcases he4 with he4 | he4
      · exact h.front_fields e he4
      · rw [he4]
        refine ⟨?_, ?_⟩
        · show FAT_UNALLOCATED < U32
          decide
        · show FAT_UNALLOCATED < U32
          decide
    · rw [he3]
      refine ⟨?_, ?_⟩
      · show FAT_BAD_CLUSTER < U32
        decide
      · show FAT_BAD_CLUSTER < U32
        decide
  · rw [List.mem_reverse] at he2
    exact h.tail_fields e he2

/-- C1: for every finalized allocator state built by an in-capacity
construction sequence of positive-size allocations, and every FAT-region
read with offset and length multiples of 4, the i-th little-endian u32
value of the fill output is the literal value of the literal extent
holding entry position offset/4 + i, the successor position at a
non-final chain position, the chain's next field at a final chain
position, and the bad-cluster marker at or past data_clusters + 2. -/
theorem fat_fill_le32_entry_values (dc mf offset length i : Nat) (ops : List FatOp)
    (st : FatState) (v p : Nat)
    (hdc : dc + 2 < U32)
    (hops : fatOpsOk (fat_init dc) ops = true)
    (hposops : ops.all fatOpPos = true)
    (hfin : fat_finalize_ok (runFatOps (fat_init dc) ops) mf = true)
    (hst : st = fat_finalize (runFatOps (fat_init dc) ops) mf)
    (hoff : offset % 4 = 0) (hlen : length % 4 = 0)
    (hrange : offset + length ≤ st.fat_size)
    (hi : i < length / 4)
    (hp : p = offset / 4 + i)
    (hv : v = read_le32 (((fatservice_fill st length offset).drop (4 * i)).take 4)) :
    (∀ e ∈ st.extents, extContains e p →
      (e.extent_type = EXTENT_LITERAL → v = e.index) ∧
      (e.extent_type ≠ EXTENT_LITERAL → p < e.ending_cluster → v = p + 1) ∧
      (e.extent_type ≠ EXTENT_LITERAL → p = e.ending_cluster → v = e.next)) ∧
    (dc + RESERVED_FAT_ENTRIES ≤ p → v = FAT_BAD_CLUSTER) := by
  subst hp
  have h0 := constInv_init dc hdc
  have h1 := constInv_run dc _ ops h0 hops
  have hap := allPos_run dc _ ops h0 hops hposops (allPos_init dc)
  have hfp := finalize_props dc mf _ h1 hap hfin
  have hfieldsF := finalize_fields dc mf _ h1
  rw [← hst] at hfp hfieldsF
  obtain ⟨hdcv, hne⟩ := hfp
  have hfs : st.fat_size < U32 := by
    rw [hst, fat_finalize_fat_size, runFatOps_fat_size]
    exact fat_init_fat_size_lt dc
  have hod : (offset / 4) % U32 = offset / 4 := by
    refine Nat.mod_eq_of_lt ?_
    simp only [U32] at hfs ⊢
    omega
  have hwlen : (fat_fill_words st (offset / 4) (length / 4)).length = length / 4 :=
    fat_fill_words_length st _ _
  have hslice : ((fatservice_fill st length offset).drop (4 * i)).take 4
      = le32_bytes ((fat_fill_words st (offset / 4) (length / 4)).getD i 0) := by
    show (((fat_fill_words st ((offset / 4) % U32) (length / 4)).flatMap
      le32_bytes).drop (4 * i)).take 4 = _
    rw [hod]
    exact flatMap_le32_slice _ i (by rw [hwlen]; exact hi)
  have hvv : v = entryVal st.extents (offset / 4 + i) % U32 := by
    rw [hv, hslice, read_le32_le32_bytes,
      fat_fill_words_spec dc st (offset / 4) (length / 4) i hdcv hne hi]
  obtain ⟨hne0, hhead, hch, hpair, hlast, hcover⟩ := hdcv
  have hloose : ∀ e ∈ st.extents, e.starting_cluster ≤ e.ending_cluster + 1 := by
    intro e he
    have := hne e he
    omega
  refine ⟨?_, ?_⟩
  · intro e he hcont
    obtain ⟨⟨k, hk⟩, hek⟩ := List.mem_iff_get.mp he
    have hgk : st.extents.getD k entry_0 = e := by
      rw [getD_eq_get _ _ hk, hek]
    have hev := entryVal_of_contains st.extents (offset / 4 + i) hch hloose k hk
      (by rw [hgk]; exact hcont)
    rw [hgk] at hev
    have hfe := hfieldsF e he
    have hple : offset / 4 + i ≤ e.ending_cluster := ((extContains_def _ _).mp hcont).2
    have hend_le : e.ending_cluster ≤ dc + 1 := by
      have hx := chain_ending_le_last st.extents hch hloose k hk
      rw [hgk, hlast] at hx
      exact hx
    refine ⟨?_, ?_, ?_⟩
    · intro hty
      rw [hvv, hev, if_pos hty]
      exact Nat.mod_eq_of_lt hfe.1
    · intro hty hplt
      rw [hvv, hev, if_neg hty, if_pos hplt]
      refine Nat.mod_eq_of_lt ?_
      simp only [U32] at hdc ⊢
      omega
    · intro hty hpe
      rw [hvv, hev, if_neg hty, if_neg (by omega)]
      exact Nat.mod_eq_of_lt hfe.2
  · intro hpge
    rw [hvv, entryVal_past_end st.extents (offset / 4 + i) hch hloose (by
      rw [hlast]
      simp only [RESERVED_FAT_ENTRIES] at hpge
      omega)]
    decide

theorem fat_fill_le32_entry_values_witness :
    (∀ e ∈ (fat_finalize (runFatOps (fat_init 3) [FatOp.allocBeginning 2]) 10).extents,
      extContains e (0 / 4 + 1) →
      (e.extent_type = EXTENT_LITERAL → read_le32 (((fatservice_fill (fat_finalize (runFatOps (fat_init 3) [FatOp.allocBeginning 2]) 10) 8 0).drop (4 * 1)).take 4) = e.index) ∧
      (e.extent_type ≠ EXTENT_LITERAL → 0 / 4 + 1 < e.ending_cluster →
        read_le32 (((fatservice_fill (fat_finalize (runFatOps (fat_init 3) [FatOp.allocBeginning 2]) 10) 8 0).drop (4 * 1)).take 4) = 0 / 4 + 1 + 1) ∧
      (e.extent_type ≠ EXTENT_LITERAL → 0 / 4 + 1 = e.ending_cluster →
        read_le32 (((fatservice_fill (fat_finalize (runFatOps (fat_init 3) [FatOp.allocBeginning 2]) 10) 8 0).drop (4 * 1)).take 4) = e.next)) ∧
    (3 + RESERVED_FAT_ENTRIES ≤ 0 / 4 + 1 → read_le32 (((fatservice_fill (fat_finalize (runFatOps (fat_init 3) [FatOp.allocBeginning 2]) 10) 8 0).drop (4 * 1)).take 4) = FAT_BAD_CLUSTER) :=
  fat_fill_le32_entry_values 3 10 0 8 1 [FatOp.allocBeginning 2] _ _ _
    (by decide) (by decide) (by decide) (by decide) rfl (by decide) (by decide)
    (by decide) (by decide) rfl rfl

theorem fat_fill_zero_length_alloc_cex :
    fatOpsOk (fat_init 1) [FatOp.allocEnd 0] = true ∧
    fat_finalize_ok (runFatOps (fat_init 1) [FatOp.allocEnd 0]) 1 = true ∧
    1 + RESERVED_FAT_ENTRIES ≤ 0 / 4 + 3 ∧
    read_le32 (((fatservice_fill (fat_finalize (runFatOps (fat_init 1)
      [FatOp.allocEnd 0]) 1) 16 0).drop (4 * 3)).take 4) = FAT_END_OF_CHAIN ∧
    FAT_END_OF_CHAIN ≠ FAT_BAD_CLUSTER := by
  refine ⟨by decide, by decide, by decide, ?_, by decide⟩
  simp [fatservice_fill, fat_fill_words, find_extent, find_extent_go, fat_fill_go,
    fat_fill_chunk, runFatOps, fatStep, fat_alloc_end, fat_finalize, fat_init,
    first_free_cluster, last_free_cluster, entry_0, entry_1, U32, ALIGN32,
    read_le32, le32_bytes, FAT_END_OF_CHAIN, FAT_BAD_CLUSTER,
    RESERVED_FAT_ENTRIES, SECTOR_SIZE, EXTENT_LITERAL, EXTENT_UNKNOWN,
    FAT_UNALLOCATED]

theorem tail_start_antitone (l : List FatExtent) (hch : List.Chain' extTailAdj l)
    (hloose : ∀ e ∈ l, e.starting_cluster ≤ e.ending_cluster + 1)
    (i j : Nat) (hij : i ≤ j) (hj : j < l.length) :
    (l.getD j entry_0).starting_cluster ≤ (l.getD i entry_0).starting_cluster := by
  induction j with
  | zero =>
    have : i = 0 := by omega
    subst this
    exact le_refl _
  | succ n ih =>
    rcases Nat.lt_or_ge i (n + 1) with hlt | hge
    · have h1 := ih (by omega) (by omega)
      have h2 : (l.getD (n + 1) entry_0).ending_cluster + 1
          = (l.getD n entry_0).starting_cluster := by
        have hx := List.chain'_iff_get.mp hch n (by omega)
        rw [getD_eq_get l n (by omega), getD_eq_get l (n + 1) hj]
        exact hx
      have h3 := hloose _ (getD_mem l (n + 1) hj)
      omega
    · have : i = n + 1 := by omega
      subst this
      exact le_refl _

/-- C9: during construction, a cluster covered by a tail extent (one
allocated by fat_alloc_end) cannot have its chain extended:
fat_extend_chain returns 0 and leaves the state unchanged, because the
front-extent search never consults the tail sequence. -/
theorem tail_chain_extend_returns_zero (dc : Nat) (ops : List FatOp) (c : Nat)
    (st : FatState) (e : FatExtent)
    (hdc : dc + 2 < U32)
    (hops : fatOpsOk (fat_init dc) ops = true)
    (hst : st = runFatOps (fat_init dc) ops)
    (he : e ∈ st.extents_from_end) (hc : extContains e c) :
    (fat_extend_chain st c).1 = 0 ∧ (fat_extend_chain st c).2 = st := by
  have h0 := constInv_init dc hdc
  have h1 : ConstInv dc st := hst ▸ constInv_run dc _ ops h0 hops
  have hdcb := h1.dc_bound
  have hcdc : c ≤ dc + 1 := le_trans ((extContains_def _ _).mp hc).2 (h1.tail_bound e he).1
  have hcmod : c % U32 = c := by
    refine Nat.mod_eq_of_lt ?_
    simp only [U32] at hdcb ⊢
    omega
  have htne : st.extents_from_end ≠ [] := by
    intro hcon
    rw [hcon] at he
    simp at he
  obtain ⟨⟨k, hk⟩, hek⟩ := List.mem_iff_get.mp he
  have hanti := tail_start_antitone st.extents_from_end h1.tail_chain h1.tail_loose
    k (st.extents_from_end.length - 1) (by omega) (by omega)
  have hgl : st.extents_from_end.getD (st.extents_from_end.length - 1) entry_0
      = st.extents_from_end.getLastD entry_0 := (getLastD_eq_getD_len _).symm
  rw [hgl] at hanti
  have hgk : st.extents_from_end.getD k entry_0 = e := by
    rw [getD_eq_get _ _ hk, hek]
  rw [hgk] at hanti
  have hlfn : lastFreeN st
      = (st.extents_from_end.getLastD entry_0).starting_cluster - 1 := by
    unfold lastFreeN
    rw [getLastD_of_ne _ htne]
  have hstart_ge := h1.tail_start_ge _ (getLast?_mem_ext _ _ (getLastD_of_ne _ htne))
  have hsep := h1.sep
  have hcge : e.starting_cluster ≤ c := ((extContains_def _ _).mp hc).1
  have hcgt : frontLastEnd st < c := by omega
  have hnc : ∀ x ∈ st.extents, ¬ extContains x (c % U32) := by
    rw [hcmod]
    intro x hx hcon
    obtain ⟨⟨j, hjl⟩, hxj⟩ := List.mem_iff_get.mp hx
    have hle := chain_ending_le_last st.extents h1.front_chain h1.front_loose j hjl
    rw [getD_eq_get _ _ hjl, hxj] at hle
    have hcon2 := (extContains_def _ _).mp hcon
    have hfle2 : (st.extents.getLastD entry_0).ending_cluster = frontLastEnd st := rfl
    rw [hfle2] at hle
    omega
  have hfind : find_extent st (c % U32) = -1 :=
    find_extent_go_none st.extents (c % U32) 0 ((st.extents.length : Int) - 1)
      (by omega) (by omega) hnc
  have hecw : ecw st c = -1 := by
    show extend_chain_walk st.extents (find_extent st (c % U32))
      (st.extents.length + 1) = -1
    rw [hfind]
    rfl
  have hflt : ecw st c < 0 := by
    rw [hecw]
    omega
  rw [fat_extend_chain_fail st c hflt]
  exact ⟨rfl, rfl⟩

theorem tail_chain_extend_returns_zero_witness :
    (fat_extend_chain (runFatOps (fat_init 5) [FatOp.allocEnd 2]) 5).1 = 0 ∧
    (fat_extend_chain (runFatOps (fat_init 5) [FatOp.allocEnd 2]) 5).2
      = runFatOps (fat_init 5) [FatOp.allocEnd 2] :=
  tail_chain_extend_returns_zero 5 [FatOp.allocEnd 2] 5 _
    { starting_cluster := 5, ending_cluster := 6, index := 0,
      next := FAT_END_OF_CHAIN, extent_type := EXTENT_UNKNOWN }
    (by decide) (by decide) rfl (by decide) (by decide)

/-- C10: when the FAT write-back loop meets an entry it rejects (an entry
below the reserved range, an entry whose original value is the
bad-cluster marker, or an entry no front extent covers), it returns EIO
immediately with the state as already modified for earlier entries, and
a concrete failing receive leaves the extent table changed. -/
theorem fat_receive_no_rollback :
    (∀ s : FatState, ∀ buf_v orig_v pos : Nat, ∀ rest : List (Nat × Nat),
      buf_v ≠ orig_v →
      (pos < RESERVED_FAT_ENTRIES ∨ orig_v = FAT_BAD_CLUSTER ∨
        find_extent s pos ≤ 0) →
      fat_receive_go s ((buf_v, orig_v) :: rest) pos = (EIO_errno, s)) ∧
    (fat_receive_words (fat_finalize (runFatOps (fat_init 8)
      [FatOp.allocBeginning 2]) 2) [5, 0, 7] 4).1 = EIO_errno ∧
    (fat_receive_words (fat_finalize (runFatOps (fat_init 8)
      [FatOp.allocBeginning 2]) 2) [5, 0, 7] 4).2.extents ≠
      (fat_finalize (runFatOps (fat_init 8) [FatOp.allocBeginning 2]) 2).extents ∧
    (fat_receive_words (fat_finalize (runFatOps (fat_init 8)
      [FatOp.allocBeginning 2]) 2) [5, 0, 7] 4).2.extents =
      [entry_0, entry_1,
       { starting_cluster := 2, ending_cluster := 3, index := 0,
         next := FAT_END_OF_CHAIN, extent_type := EXTENT_UNKNOWN },
       { starting_cluster := 4, ending_cluster := 4, index := 0, next := 5,
         extent_type := EXTENT_UNKNOWN },
       { starting_cluster := 5, ending_cluster := 5, index := 0, next := 0,
         extent_type := EXTENT_LITERAL },
       { starting_cluster := 6, ending_cluster := 9, index := FAT_BAD_CLUSTER,
         next := FAT_BAD_CLUSTER, extent_type := EXTENT_LITERAL }] := by
  refine ⟨?_, ?_, ?_, ?_⟩
  · intro s buf_v orig_v pos rest hne hrej
    have hentry : fat_receive_entry s orig_v buf_v pos = none := by
      unfold fat_receive_entry
      rw [if_neg hne]
      by_cases h1 : pos < RESERVED_FAT_ENTRIES
      · rw [if_pos h1]
      · rw [if_neg h1]
        by_cases h2 : orig_v = FAT_BAD_CLUSTER
        · rw [if_pos h2]
        · rw [if_neg h2]
          have h3 : find_extent s pos ≤ 0 := by
            rcases hrej with h | h | h
            · exact absurd h h1
            · exact absurd h h2
            · exact h
          rw [if_pos h3]
    show (match fat_receive_entry s orig_v buf_v pos with
      | none => (EIO_errno, s)
      | some s2 => fat_receive_go s2 rest (pos + 1)) = (EIO_errno, s)
    rw [hentry]
  · simp [fat_receive_words, fat_receive_go, fat_receive_entry, fat_fill_words,
      fat_fill_go, fat_fill_chunk, find_extent, find_extent_go, try_inc_extent,
      bump_extent, try_renext_extent, punch_extent, runFatOps, fatStep,
      fat_alloc_beginning, fat_finalize, fat_init, first_free_cluster,
      last_free_cluster, entry_0, entry_1, U32, ALIGN32, FAT_END_OF_CHAIN,
      FAT_BAD_CLUSTER, FAT_UNALLOCATED, RESERVED_FAT_ENTRIES, SECTOR_SIZE,
      EXTENT_LITERAL, EXTENT_UNKNOWN, EIO_errno, List.insertIdx]
  · simp [fat_receive_words, fat_receive_go, fat_receive_entry, fat_fill_words,
      fat_fill_go, fat_fill_chunk, find_extent, find_extent_go, try_inc_extent,
      bump_extent, try_renext_extent, punch_extent, runFatOps, fatStep,
      fat_alloc_beginning, fat_finalize, fat_init, first_free_cluster,
      last_free_cluster, entry_0, entry_1, U32, ALIGN32, FAT_END_OF_CHAIN,
      FAT_BAD_CLUSTER, FAT_UNALLOCATED, RESERVED_FAT_ENTRIES, SECTOR_SIZE,
      EXTENT_LITERAL, EXTENT_UNKNOWN, EIO_errno, List.insertIdx]
  · simp [fat_receive_words, fat_receive_go, fat_receive_entry, fat_fill_words,
      fat_fill_go, fat_fill_chunk, find_extent, find_extent_go, try_inc_extent,
      bump_extent, try_renext_extent, punch_extent, runFatOps, fatStep,
      fat_alloc_beginning, fat_finalize, fat_init, first_free_cluster,
      last_free_cluster, entry_0, entry_1, U32, ALIGN32, FAT_END_OF_CHAIN,
      FAT_BAD_CLUSTER, FAT_UNALLOCATED, RESERVED_FAT_ENTRIES, SECTOR_SIZE,
      EXTENT_LITERAL, EXTENT_UNKNOWN, EIO_errno, List.insertIdx]

theorem fat_receive_no_rollback_witness :
    fat_receive_go (fat_init 4) [(7, 9)] 1 = (EIO_errno, fat_init 4) :=
  fat_receive_no_rollback.1 (fat_init 4) 7 9 1 [] (by decide) (Or.inl (by decide))

theorem mapInsertSorted_mem {α : Type} (l : List (Nat × α)) (p x : Nat × α)
    (hx : x ∈ mapInsertSorted l p) : x = p ∨ x ∈ l := by
  induction l with
  | nil =>
    have hx2 : x ∈ [p] := hx
    rw [List.mem_singleton] at hx2
    exact Or.inl hx2
  | cons q rest ih =>
    unfold mapInsertSorted at hx
    by_cases h1 : p.1 < q.1
    · rw [if_pos h1] at hx
      rcases List.mem_cons.mp hx with hx | hx
      · exact Or.inl hx
      · exact Or.inr hx
    · rw [if_neg h1] at hx
      by_cases h2 : p.1 = q.1
      · rw [if_pos h2] at hx
        rcases List.mem_cons.mp hx with hx | hx
        · exact Or.inl hx
        · exact Or.inr (List.mem_cons_of_mem q hx)
      · rw [if_neg h2] at hx
        rcases List.mem_cons.mp hx with hx | hx
        · exact Or.inr (by rw [hx]; exact List.mem_cons_self q rest)
        · rcases ih hx with hx2 | hx2
          · exact Or.inl hx2
          · exact Or.inr (List.mem_cons_of_mem q hx2)

theorem mapLookup_insert {α : Type} (l : List (Nat × α)) (p : Nat × α) :
    mapLookup (mapInsertSorted l p) p.1 = some p.2 := by
  induction l with
  | nil =>
    show mapLookup [p] p.1 = some p.2
    unfold mapLookup
    rw [List.find?_cons_of_pos _ (by simp)]
    rfl
  | cons q rest ih =>
    unfold mapInsertSorted
    by_cases h1 : p.1 < q.1
    · rw [if_pos h1]
      unfold mapLookup
      rw [List.find?_cons_of_pos _ (by simp)]
      rfl
    · rw [if_neg h1]
      by_cases h2 : p.1 = q.1
      · rw [if_pos h2]
        unfold mapLookup
        rw [List.find?_cons_of_pos _ (by simp)]
        rfl
      · rw [if_neg h2]
        unfold mapLookup
        rw [List.find?_cons_of_neg _ (by simp; omega)]
        exact ih

theorem mapInsertSorted_pairwise {α : Type} (len : α → Nat) (l : List (Nat × α))
    (p : Nat × α)
    (hpw : List.Pairwise (fun a b => a.1 + len a.2 ≤ b.1) l)
    (hleft : ∀ q ∈ l, q.1 < p.1 → q.1 + len q.2 ≤ p.1)
    (hright : ∀ q ∈ l, p.1 ≤ q.1 → p.1 + len p.2 ≤ q.1) :
    List.Pairwise (fun a b => a.1 + len a.2 ≤ b.1) (mapInsertSorted l p) := by
  induction l with
  | nil => exact List.pairwise_singleton _ p
  | cons q rest ih =>
    have hq := List.pairwise_cons.mp hpw
    unfold mapInsertSorted
    by_cases h1 : p.1 < q.1
    · rw [if_pos h1]
      refine List.pairwise_cons.mpr ⟨?_, hpw⟩
      intro b hb
      rcases List.mem_cons.mp hb with hb | hb
      · rw [hb]
        exact hright q (List.mem_cons_self q rest) (by omega)
      · have hqb := hq.1 b hb
        refine hright b (List.mem_cons_of_mem q hb) (by omega)
    · rw [if_neg h1]
      by_cases h2 : p.1 = q.1
      · rw [if_pos h2]
        refine List.pairwise_cons.mpr ⟨?_, hq.2⟩
        intro b hb
        have hqb := hq.1 b hb
        exact hright b (List.mem_cons_of_mem q hb) (by omega)
      · rw [if_neg h2]
        refine List.pairwise_cons.mpr ⟨?_, ?_⟩
        · intro b hb
          rcases mapInsertSorted_mem rest p b hb with hb2 | hb2
          · rw [hb2]
            exact hleft q (List.mem_cons_self q rest) (by omega)
          · exact hq.1 b hb2
        · exact ih hq.2 (fun x hx hlt => hleft x (List.mem_cons_of_mem q hx) hlt)
            (fun x hx hle => hright x (List.mem_cons_of_mem q hx) hle)

theorem svcCount_cons (q : Nat × ServiceRange) (l : List (Nat × ServiceRange))
    (sid : Nat) :
    svcCount (q :: l) sid = (if q.2.service = sid then 1 else 0) + svcCount l sid := by
  unfold svcCount
  rw [List.filter_cons]
  by_cases h : q.2.service = sid
  · rw [if_pos (by simp [h]), if_pos h, List.length_cons]
    omega
  · rw [if_neg (by simp [h]), if_neg h]
    omega

theorem svcCount_insert (l : List (Nat × ServiceRange)) (p : Nat × ServiceRange)
    (sid : Nat) (hnk : ∀ q ∈ l, q.1 ≠ p.1) :
    svcCount (mapInsertSorted l p) sid
      = svcCount l sid + (if p.2.service = sid then 1 else 0) := by
  induction l with
  | nil =>
    show svcCount [p] sid = svcCount ([] : List (Nat × ServiceRange)) sid + _
    rw [svcCount_cons p [] sid]
    have h0 : svcCount ([] : List (Nat × ServiceRange)) sid = 0 := rfl
    rw [h0]
    omega
  | cons q rest ih =>
    unfold mapInsertSorted
    by_cases h1 : p.1 < q.1
    · rw [if_pos h1, svcCount_cons, svcCount_cons]
      omega
    · rw [if_neg h1]
      by_cases h2 : p.1 = q.1
      · exact absurd h2.symm (hnk q (List.mem_cons_self q rest))
      · rw [if_neg h2, svcCount_cons, svcCount_cons,
          ih (fun x hx => hnk x (List.mem_cons_of_mem q hx))]
        omega

theorem svcCount_append (A B : List (Nat × ServiceRange)) (sid : Nat) :
    svcCount (A ++ B) sid = svcCount A sid + svcCount B sid := by
  unfold svcCount
  rw [List.filter_append, List.length_append]

theorem applyEvents_append (L : RefLedger) (ev1 ev2 : List RefEvent) :
    applyEvents L (ev1 ++ ev2) = applyEvents (applyEvents L ev1) ev2 := by
  induction ev1 generalizing L with
  | nil => rfl
  | cons e rest ih =>
    cases e with
    | take sid =>
      show applyEvents (svcRef L sid) (rest ++ ev2) = _
      rw [ih]
      rfl
    | release sid =>
      show applyEvents (svcDeref L sid) (rest ++ ev2) = _
      rw [ih]
      rfl

theorem pre_bound_core {α : Type} (len : α → Nat) (l : List (Nat × α)) (start : Nat)
    (PRE : List (Nat × α))
    (hpw : List.Pairwise (fun a b => a.1 + len a.2 ≤ b.1) l)
    (hPRE : PRE = (l.takeWhile (fun q : Nat × α => q.1 < start)).dropLast ∨
      (PRE = l.takeWhile (fun q : Nat × α => q.1 < start) ∧
       ∀ prev, (l.takeWhile (fun q : Nat × α => q.1 < start)).getLast? = some prev →
         prev.1 + len prev.2 ≤ start)) :
    ∀ p ∈ PRE, p.1 + len p.2 ≤ start := by
  have hpw2 := hpw.sublist (List.takeWhile_sublist (fun q : Nat × α => q.1 < start))
  have hmem : ∀ p ∈ l.takeWhile (fun q : Nat × α => q.1 < start), p.1 < start := by
    intro p hp
    have := List.mem_takeWhile_imp hp
    simpa using this
  intro p hp
  rcases hPRE with hPRE | ⟨hPRE, hlast⟩
  · rw [hPRE] at hp
    cases hgl : (l.takeWhile (fun q : Nat × α => q.1 < start)).getLast? with
    | none =>
      have hnil := List.getLast?_eq_none_iff.mp hgl
      rw [hnil] at hp
      simp at hp
    | some prev =>
      have hsplit := List.dropLast_append_getLast? prev hgl
      have hprev_mem : prev ∈ l.takeWhile (fun q : Nat × α => q.1 < start) := by
        rw [← hsplit]
        exact List.mem_append_right _ (List.mem_singleton.mpr rfl)
      have hcross := (List.pairwise_append.mp (hsplit ▸ hpw2)).2.2
      have hrel := hcross p hp prev (List.mem_singleton.mpr rfl)
      have := hmem prev hprev_mem
      omega
  · rw [hPRE] at hp
    cases hgl : (l.takeWhile (fun q : Nat × α => q.1 < start)).getLast? with
    | none =>
      have hnil := List.getLast?_eq_none_iff.mp hgl
      rw [hnil] at hp
      simp at hp
    | some prev =>
      have hsplit := List.dropLast_append_getLast? prev hgl
      have hcover := hlast prev hgl
      rw [← hsplit] at hp
      rcases List.mem_append.mp hp with hp2 | hp2
      · have hcross := (List.pairwise_append.mp (hsplit ▸ hpw2)).2.2
        have hrel := hcross p hp2 prev (List.mem_singleton.mpr rfl)
        have hprev_mem : prev ∈ l.takeWhile (fun q : Nat × α => q.1 < start) := by
          rw [← hsplit]
          exact List.mem_append_right _ (List.mem_singleton.mpr rfl)
        have := hmem prev hprev_mem
        omega
      · rw [List.mem_singleton] at hp2
        rw [hp2]
        exact hcover

theorem find_service_pre_cases (l : List (Nat × ServiceRange)) (start : Nat) :
    find_service_pre l start
        = (l.takeWhile (fun q : Nat × ServiceRange => q.1 < start)).dropLast ∨
      (find_service_pre l start
          = l.takeWhile (fun q : Nat × ServiceRange => q.1 < start) ∧
       ∀ prev,
         (l.takeWhile (fun q : Nat × ServiceRange => q.1 < start)).getLast?
            = some prev →
         prev.1 + prev.2.length ≤ start) := by
  simp only [find_service_pre]
  split
  · rename_i prev hgl
    split
    · left
      rfl
    · rename_i hcov
      right
      refine ⟨rfl, ?_⟩
      intro prev2 hgl2
      rw [hgl] at hgl2
      have h2 := Option.some.inj hgl2
      rw [← h2]
      omega
  · rename_i hgl
    right
    refine ⟨rfl, ?_⟩
    intro prev2 hgl2
    rw [hgl] at hgl2
    exact Option.noConfusion hgl2

theorem find_chunk_pre_cases (l : List (Nat × List Nat)) (start : Nat) :
    find_chunk_pre l start
        = (l.takeWhile (fun q : Nat × List Nat => q.1 < start)).dropLast ∨
      (find_chunk_pre l start
          = l.takeWhile (fun q : Nat × List Nat => q.1 < start) ∧
       ∀ prev,
         (l.takeWhile (fun q : Nat × List Nat => q.1 < start)).getLast?
            = some prev →
         prev.1 + prev.2.length ≤ start) := by
  simp only [find_chunk_pre]
  split
  · rename_i prev hgl
    split
    · left
      rfl
    · rename_i hcov
      right
      refine ⟨rfl, ?_⟩
      intro prev2 hgl2
      rw [hgl] at hgl2
      have h2 := Option.some.inj hgl2
      rw [← h2]
      omega
  · rename_i hgl
    right
    refine ⟨rfl, ?_⟩
    intro prev2 hgl2
    rw [hgl] at hgl2
    exact Option.noConfusion hgl2

theorem find_service_pre_bound (l : List (Nat × ServiceRange)) (start : Nat)
    (hpw : List.Pairwise (fun a b => a.1 + a.2.length ≤ b.1) l) :
    ∀ p ∈ find_service_pre l start, p.1 + p.2.length ≤ start :=
  pre_bound_core (fun r => r.length) l start (find_service_pre l start) hpw
    (find_service_pre_cases l start)

theorem find_chunk_pre_bound (l : List (Nat × List Nat)) (start : Nat)
    (hpw : List.Pairwise (fun a b => a.1 + a.2.length ≤ b.1) l) :
    ∀ p ∈ find_chunk_pre l start, p.1 + p.2.length ≤ start :=
  pre_bound_core (fun d => d.length) l start (find_chunk_pre l start) hpw
    (find_chunk_pre_cases l start)

theorem suffix_core_facts {α : Type} (len : α → Nat) (l : List (Nat × α)) (start : Nat)
    (SUF : List (Nat × α))
    (hpw : List.Pairwise (fun a b => a.1 + len a.2 ≤ b.1) l)
    (hpos : ∀ p ∈ l, 0 < len p.2)
    (hSUF : SUF = l.dropWhile (fun q : Nat × α => q.1 < start) ∨
      (∃ prev, (l.takeWhile (fun q : Nat × α => q.1 < start)).getLast? = some prev ∧
        start < prev.1 + len prev.2 ∧
        SUF = prev :: l.dropWhile (fun q : Nat × α => q.1 < start))) :
    List.Pairwise (fun a b => a.1 + len a.2 ≤ b.1) SUF ∧
    (∀ p ∈ SUF, p ∈ l) ∧
    (∀ p ∈ SUF, start < p.1 + len p.2) := by
  have hpwd : List.Pairwise (fun a b => a.1 + len a.2 ≤ b.1)
      (l.dropWhile (fun q : Nat × α => q.1 < start)) :=
    hpw.sublist (List.dropWhile_sublist _)
  have hsubd : ∀ p ∈ l.dropWhile (fun q : Nat × α => q.1 < start), p ∈ l := by
    intro p hp
    exact (List.dropWhile_sublist _).subset hp
  have hkeyd : ∀ p ∈ l.dropWhile (fun q : Nat × α => q.1 < start), start ≤ p.1 := by
    intro p hp
    cases hd : l.dropWhile (fun q : Nat × α => q.1 < start) with
    | nil =>
      rw [hd] at hp
      simp at hp
    | cons h t =>
      have hh : ¬ h.1 < start := by
        have hx := List.head?_dropWhile_not (fun q : Nat × α => decide (q.1 < start)) l
        rw [hd] at hx
        simp at hx
        omega
      rw [hd] at hp
      rcases List.mem_cons.mp hp with hp2 | hp2
      · rw [hp2]
        omega
      · have hpwd2 := hpwd
        rw [hd] at hpwd2
        have hrel := (List.pairwise_cons.mp hpwd2).1 p hp2
        omega
  have hendd : ∀ p ∈ l.dropWhile (fun q : Nat × α => q.1 < start),
      start < p.1 + len p.2 := by
    intro p hp
    have h1 := hkeyd p hp
    have h2 := hpos p (hsubd p hp)
    omega
  rcases hSUF with hSUF | ⟨prev, hgl, hcov, hSUF⟩
  · rw [hSUF]
    exact ⟨hpwd, hsubd, hendd⟩
  · have hsplit := List.dropLast_append_getLast? prev hgl
    have hprev_mem_tw : prev ∈ l.takeWhile (fun q : Nat × α => q.1 < start) := by
      rw [← hsplit]
      exact List.mem_append_right _ (List.mem_singleton.mpr rfl)
    have hprev_mem : prev ∈ l := (List.takeWhile_sublist _).subset hprev_mem_tw
    have hl_eq : l.takeWhile (fun q : Nat × α => q.1 < start)
        ++ l.dropWhile (fun q : Nat × α => q.1 < start) = l :=
      List.takeWhile_append_dropWhile _ l
    have hcross := (List.pairwise_append.mp (hl_eq ▸ hpw)).2.2
    rw [hSUF]
    refine ⟨?_, ?_, ?_⟩
    · refine List.pairwise_cons.mpr ⟨?_, hpwd⟩
      intro q hq
      exact hcross prev hprev_mem_tw q hq
    · intro p hp
      rcases List.mem_cons.mp hp with hp2 | hp2
      · rw [hp2]
        exact hprev_mem
      · exact hsubd p hp2
    · intro p hp
      rcases List.mem_cons.mp hp with hp2 | hp2
      · rw [hp2]
        omega
      · exact hendd p hp2

theorem find_service_cases (l : List (Nat × ServiceRange)) (start : Nat) :
    find_service l start = l.dropWhile (fun q : Nat × ServiceRange => q.1 < start) ∨
      (∃ prev,
        (l.takeWhile (fun q : Nat × ServiceRange => q.1 < start)).getLast?
          = some prev ∧
        start < prev.1 + prev.2.length ∧
        find_service l start
          = prev :: l.dropWhile (fun q : Nat × ServiceRange => q.1 < start)) := by
  simp only [find_service]
  split
  · rename_i prev hgl
    split
    · rename_i hcov
      right
      exact ⟨prev, hgl, by omega, rfl⟩
    · left
      rfl
  · left
    rfl

theorem find_chunk_cases (l : List (Nat × List Nat)) (start : Nat) :
    find_chunk l start = l.dropWhile (fun q : Nat × List Nat => q.1 < start) ∨
      (∃ prev,
        (l.takeWhile (fun q : Nat × List Nat => q.1 < start)).getLast?
          = some prev ∧
        start < prev.1 + prev.2.length ∧
        find_chunk l start
          = prev :: l.dropWhile (fun q : Nat × List Nat => q.1 < start)) := by
  simp only [find_chunk]
  split
  · rename_i prev hgl
    split
    · rename_i hcov
      right
      exact ⟨prev, hgl, by omega, rfl⟩
    · left
      rfl
  · left
    rfl

theorem find_service_facts (l : List (Nat × ServiceRange)) (start : Nat)
    (hpw : List.Pairwise (fun a b => a.1 + a.2.length ≤ b.1) l)
    (hpos : ∀ p ∈ l, 0 < p.2.length) :
    List.Pairwise (fun a b => a.1 + a.2.length ≤ b.1) (find_service l start) ∧
    (∀ p ∈ find_service l start, p ∈ l) ∧
    (∀ p ∈ find_service l start, start < p.1 + p.2.length) :=
  suffix_core_facts (fun r => r.length) l start (find_service l start) hpw hpos
    (find_service_cases l start)

theorem find_chunk_facts (l : List (Nat × List Nat)) (start : Nat)
    (hpw : List.Pairwise (fun a b => a.1 + a.2.length ≤ b.1) l)
    (hpos : ∀ p ∈ l, 0 < p.2.length) :
    List.Pairwise (fun a b => a.1 + a.2.length ≤ b.1) (find_chunk l start) ∧
    (∀ p ∈ find_chunk l start, p ∈ l) ∧
    (∀ p ∈ find_chunk l start, start < p.1 + p.2.length) :=
  suffix_core_facts (fun d => d.length) l start (find_chunk l start) hpw hpos
    (find_chunk_cases l start)

theorem csg_stop (start finish k : Nat) (r : ServiceRange)
    (rest : List (Nat × ServiceRange)) (h1 : finish ≤ k) :
    clear_services_go start finish ((k, r) :: rest) = ((k, r) :: rest, []) := by
  unfold clear_services_go
  rw [if_pos h1]

theorem csg_split_trunc (start finish k : Nat) (r : ServiceRange)
    (rest : List (Nat × ServiceRange))
    (h1 : ¬ finish ≤ k) (h2 : finish < k + r.length) (h3 : k < start) :
    clear_services_go start finish ((k, r) :: rest) =
      ((k, { r with length := start - k }) ::
        mapInsertSorted (clear_services_go start finish rest).1
          (finish, { length := k + r.length - finish,
                     offset := r.offset + (finish - k), service := r.service }),
       [RefEvent.take r.service] ++ (clear_services_go start finish rest).2) := by
  conv_lhs => unfold clear_services_go
  rw [if_neg h1]
  simp only [if_pos h2, if_pos h3]

theorem csg_split_rem (start finish k : Nat) (r : ServiceRange)
    (rest : List (Nat × ServiceRange))
    (h1 : ¬ finish ≤ k) (h2 : finish < k + r.length) (h3 : ¬ k < start) :
    clear_services_go start finish ((k, r) :: rest) =
      (mapInsertSorted (clear_services_go start finish rest).1
          (finish, { length := k + r.length - finish,
                     offset := r.offset + (finish - k), service := r.service }),
       [RefEvent.take r.service] ++ [RefEvent.release r.service]
         ++ (clear_services_go start finish rest).2) := by
  conv_lhs => unfold clear_services_go
  rw [if_neg h1]
  simp only [if_pos h2, if_neg h3]

theorem csg_nosplit_trunc (start finish k : Nat) (r : ServiceRange)
    (rest : List (Nat × ServiceRange))
    (h1 : ¬ finish ≤ k) (h2 : ¬ finish < k + r.length) (h3 : k < start) :
    clear_services_go start finish ((k, r) :: rest) =
      ((k, { r with length := start - k }) :: (clear_services_go start finish rest).1,
       (clear_services_go start finish rest).2) := by
  conv_lhs => unfold clear_services_go
  rw [if_neg h1]
  simp only [if_neg h2, if_pos h3]
  rfl

theorem csg_nosplit_rem (start finish k : Nat) (r : ServiceRange)
    (rest : List (Nat × ServiceRange))
    (h1 : ¬ finish ≤ k) (h2 : ¬ finish < k + r.length) (h3 : ¬ k < start) :
    clear_services_go start finish ((k, r) :: rest) =
      ((clear_services_go start finish rest).1,
       [RefEvent.release r.service] ++ (clear_services_go start finish rest).2) := by
  conv_lhs => unfold clear_services_go
  rw [if_neg h1]
  simp only [if_neg h2, if_neg h3]
  rfl

theorem csg_spec (start finish : Nat) (hsf : start < finish) :
    ∀ suf : List (Nat × ServiceRange),
    List.Pairwise (fun a b => a.1 + a.2.length ≤ b.1) suf →
    (∀ p ∈ suf, 0 < p.2.length) →
    (∀ p ∈ suf, start < p.1 + p.2.length) →
    (List.Pairwise (fun a b => a.1 + a.2.length ≤ b.1)
        (clear_services_go start finish suf).1 ∧
     (∀ p ∈ (clear_services_go start finish suf).1, 0 < p.2.length) ∧
     (∀ p ∈ (clear_services_go start finish suf).1, p.1 < start ∨ finish ≤ p.1) ∧
     (∀ p ∈ (clear_services_go start finish suf).1,
        (∃ q ∈ suf, p.1 = q.1) ∨ p.1 = finish) ∧
     (∀ (L : RefLedger) (sid A : Nat),
        L.refs sid = svcCount suf sid + A →
        L.taken sid = L.released sid + svcCount suf sid + A →
        (applyEvents L (clear_services_go start finish suf).2).refs sid
            = svcCount (clear_services_go start finish suf).1 sid + A ∧
        (applyEvents L (clear_services_go start finish suf).2).taken sid
            = (applyEvents L (clear_services_go start finish suf).2).released sid
              + svcCount (clear_services_go start finish suf).1 sid + A)) := by
  intro suf
  induction suf with
  | nil =>
    intro _ _ _
    refine ⟨List.Pairwise.nil, ?_, ?_, ?_, ?_⟩
    · intro p hp
      have hp2 : p ∈ ([] : List (Nat × ServiceRange)) := hp
      simp at hp2
    · intro p hp
      have hp2 : p ∈ ([] : List (Nat × ServiceRange)) := hp
      simp at hp2
    · intro p hp
      have hp2 : p ∈ ([] : List (Nat × ServiceRange)) := hp
      simp at hp2
    · intro L sid A h1 h2
      exact ⟨h1, h2⟩
  | cons hd rest ih =>
    obtain ⟨k, r⟩ := hd
    intro hpw hpos hend
    have hpw2 := List.pairwise_cons.mp hpw
    have hrel : ∀ q ∈ rest, k + r.length ≤ q.1 := fun q hq => hpw2.1 q hq
    have hpw' := hpw2.2
    have hpos' : ∀ p ∈ rest, 0 < p.2.length :=
      fun p hp => hpos p (List.mem_cons_of_mem _ hp)
    have hend' : ∀ p ∈ rest, start < p.1 + p.2.length :=
      fun p hp => hend p (List.mem_cons_of_mem _ hp)
    have hposk : 0 < r.length := hpos (k, r) (List.mem_cons_self _ _)
    have hendk : start < k + r.length := hend (k, r) (List.mem_cons_self _ _)
    by_cases h1 : finish ≤ k
    · rw [csg_stop start finish k r rest h1]
      refine ⟨hpw, hpos, ?_, ?_, ?_⟩
      · intro p hp
        rcases List.mem_cons.mp hp with hp2 | hp2
        · right
          rw [hp2]
          exact h1
        · right
          have h5 := hrel p hp2
          omega
      · intro p hp
        exact Or.inl ⟨p, hp, rfl⟩
      · intro L sid A ha hb
        exact ⟨ha, hb⟩
    · by_cases h2 : finish < k + r.length
      · have hrest_stop : clear_services_go start finish rest = (rest, []) := by
          cases rest with
          | nil => rfl
          | cons q t =>
            obtain ⟨qk, qr⟩ := q
            refine csg_stop start finish qk qr t ?_
            have h5 : k + r.length ≤ qk := hrel (qk, qr) (List.mem_cons_self _ _)
            omega
        have hnkey : ∀ q ∈ rest, q.1 ≠ finish := by
          intro q hq
          have h5 := hrel q hq
          omega
        have hcount_ins : ∀ sid, svcCount (mapInsertSorted rest
            (finish, { length := k + r.length - finish,
                       offset := r.offset + (finish - k), service := r.service })) sid
            = svcCount rest sid + (if r.service = sid then 1 else 0) :=
          fun sid => svcCount_insert rest _ sid (fun q hq => hnkey q hq)
        have hpw_ins : List.Pairwise (fun a b => a.1 + a.2.length ≤ b.1)
            (mapInsertSorted rest
              (finish, { length := k + r.length - finish,
                         offset := r.offset + (finish - k), service := r.service })) := by
          refine mapInsertSorted_pairwise (fun x => x.length) rest _ hpw' ?_ ?_
          · intro q hq hlt
            have h5 := hrel q hq
            show q.1 + q.2.length ≤ finish
            omega
          · intro q hq hle
            have h5 := hrel q hq
            show finish + (k + r.length - finish) ≤ q.1
            omega
        have hmem_ins : ∀ p ∈ mapInsertSorted rest
            (finish, { length := k + r.length - finish,
                       offset := r.offset + (finish - k), service := r.service }),
            p = (finish, { length := k + r.length - finish,
                           offset := r.offset + (finish - k), service := r.service })
              ∨ p ∈ rest :=
          fun p hp => mapInsertSorted_mem rest _ p hp
        by_cases h3 : k < start
        · rw [csg_split_trunc start finish k r rest h1 h2 h3, hrest_stop]
          refine ⟨?_, ?_, ?_, ?_, ?_⟩
          · refine List.pairwise_cons.mpr ⟨?_, hpw_ins⟩
            intro q hq
            show k + (start - k) ≤ q.1
            rcases hmem_ins q hq with hq2 | hq2
            · rw [hq2]
              omega
            · have h5 := hrel q hq2
              omega
          · intro p hp
            rcases List.mem_cons.mp hp with hp2 | hp2
            · rw [hp2]
              show 0 < start - k
              omega
            · rcases hmem_ins p hp2 with hp3 | hp3
              · rw [hp3]
                show 0 < k + r.length - finish
                omega
              · exact hpos' p hp3
          · intro p hp
            rcases List.mem_cons.mp hp with hp2 | hp2
            · left
              rw [hp2]
              exact h3
            · rcases hmem_ins p hp2 with hp3 | hp3
              · right
                rw [hp3]
              · right
                have h5 := hrel p hp3
                omega
          · intro p hp
            rcases List.mem_cons.mp hp with hp2 | hp2
            · left
              exact ⟨(k, r), List.mem_cons_self _ _, by rw [hp2]⟩
            · rcases hmem_ins p hp2 with hp3 | hp3
              · right
                rw [hp3]
              · left
                exact ⟨p, List.mem_cons_of_mem _ hp3, rfl⟩
          · intro L sid A ha hb
            rw [List.append_nil]
            rw [svcCount_cons] at ha hb
            rw [svcCount_cons, hcount_ins sid]
            have happ : applyEvents L [RefEvent.take r.service]
                = svcRef L r.service := rfl
            rw [happ]
            simp only [svcRef]
            by_cases hs : r.service = sid
            · subst hs
              simp at ha hb ⊢
              omega
            · have hs2 : ¬ sid = r.service := fun hc => hs hc.symm
              simp [hs, hs2] at ha hb ⊢
              omega
        · rw [csg_split_rem start finish k r rest h1 h2 h3, hrest_stop]
          refine ⟨hpw_ins, ?_, ?_, ?_, ?_⟩
          · intro p hp
            rcases hmem_ins p hp with hp3 | hp3
            · rw [hp3]
              show 0 < k + r.length - finish
              omega
            · exact hpos' p hp3
          · intro p hp
            rcases hmem_ins p hp with hp3 | hp3
            · right
              rw [hp3]
            · right
              have h5 := hrel p hp3
              omega
          · intro p hp
            rcases hmem_ins p hp with hp3 | hp3
            · right
              rw [hp3]
            · left
              exact ⟨p, List.mem_cons_of_mem _ hp3, rfl⟩
          · intro L sid A ha hb
            rw [List.append_nil]
            rw [svcCount_cons] at ha hb
            rw [hcount_ins sid]
            have happ : applyEvents L
                ([RefEvent.take r.service] ++ [RefEvent.release r.service])
                = svcDeref (svcRef L r.service) r.service := rfl
            rw [happ]
            simp only [svcDeref, svcRef]
            by_cases hs : r.service = sid
            · subst hs
              simp at ha hb ⊢
              omega
            · have hs2 : ¬ sid = r.service := fun hc => hs hc.symm
              simp [hs, hs2] at ha hb ⊢
              omega
      · have ihr := ih hpw' hpos' hend'
        obtain ⟨ihpw, ihpos, ihF3, ihkey, ihled⟩ := ihr
        by_cases h3 : k < start
        · rw [csg_nosplit_trunc start finish k r rest h1 h2 h3]
          refine ⟨?_, ?_, ?_, ?_, ?_⟩
          · refine List.pairwise_cons.mpr ⟨?_, ihpw⟩
            intro q hq
            show k + (start - k) ≤ q.1
            rcases ihkey q hq with ⟨q0, hq0, hqeq⟩ | hqeq
            · have h5 := hrel q0 hq0
              omega
            · omega
          · intro p hp
            rcases List.mem_cons.mp hp with hp2 | hp2
            · rw [hp2]
              show 0 < start - k
              omega
            · exact ihpos p hp2
          · intro p hp
            rcases List.mem_cons.mp hp with hp2 | hp2
            · left
              rw [hp2]
              exact h3
            · exact ihF3 p hp2
          · intro p hp
            rcases List.mem_cons.mp hp with hp2 | hp2
            · left
              exact ⟨(k, r), List.mem_cons_self _ _, by rw [hp2]⟩
            · rcases ihkey p hp2 with ⟨q0, hq0, hqeq⟩ | hqeq
              · left
                exact ⟨q0, List.mem_cons_of_mem _ hq0, hqeq⟩
              · right
                exact hqeq
          · intro L sid A ha hb
            rw [svcCount_cons] at ha hb
            show (applyEvents L (clear_services_go start finish rest).2).refs sid
                = svcCount ((k, { r with length := start - k })
                    :: (clear_services_go start finish rest).1) sid + A ∧
              (applyEvents L (clear_services_go start finish rest).2).taken sid
                = (applyEvents L (clear_services_go start finish rest).2).released sid
                  + svcCount ((k, { r with length := start - k })
                      :: (clear_services_go start finish rest).1) sid + A
            rw [svcCount_cons]
            by_cases hs : r.service = sid
            · rw [if_pos hs] at ha hb
              rw [if_pos hs]
              have h6 := ihled L sid (A + 1) (by omega) (by omega)
              omega
            · rw [if_neg hs] at ha hb
              rw [if_neg hs]
              have h6 := ihled L sid A (by omega) (by omega)
              omega
        · rw [csg_nosplit_rem start finish k r rest h1 h2 h3]
          refine ⟨ihpw, ihpos, ihF3, ?_, ?_⟩
          · intro p hp
            rcases ihkey p hp with ⟨q0, hq0, hqeq⟩ | hqeq
            · left
              exact ⟨q0, List.mem_cons_of_mem _ hq0, hqeq⟩
            · right
              exact hqeq
          · intro L sid A ha hb
            rw [svcCount_cons] at ha hb
            have happ : applyEvents L ([RefEvent.release r.service]
                ++ (clear_services_go start finish rest).2)
                = applyEvents (svcDeref L r.service)
                    (clear_services_go start finish rest).2 := rfl
            rw [happ]
            refine ihled (svcDeref L r.service) sid A ?_ ?_
            · simp only [svcDeref]
              by_cases hs : r.service = sid
              · subst hs
                simp at ha ⊢
                omega
              · have hs2 : ¬ sid = r.service := fun hc => hs hc.symm
                simp [hs, hs2] at ha ⊢
                omega
            · simp only [svcDeref]
              by_cases hs : r.service = sid
              · subst hs
                simp at ha hb ⊢
                omega
              · have hs2 : ¬ sid = r.service := fun hc => hs hc.symm
                simp [hs, hs2] at ha hb ⊢
                omega

theorem find_service_split (l : List (Nat × ServiceRange)) (start : Nat) :
    find_service_pre l start ++ find_service l start = l := by
  simp only [find_service_pre, find_service]
  split
  · rename_i prev hgl
    split
    · rename_i hcov
      have hsplit := List.dropLast_append_getLast? prev hgl
      rw [List.append_cons, hsplit]
      exact List.takeWhile_append_dropWhile _ l
    · exact List.takeWhile_append_dropWhile _ l
  · exact List.takeWhile_append_dropWhile _ l

theorem find_chunk_split (l : List (Nat × List Nat)) (start : Nat) :
    find_chunk_pre l start ++ find_chunk l start = l := by
  simp only [find_chunk_pre, find_chunk]
  split
  · rename_i prev hgl
    split
    · rename_i hcov
      have hsplit := List.dropLast_append_getLast? prev hgl
      rw [List.append_cons, hsplit]
      exact List.takeWhile_append_dropWhile _ l
    · exact List.takeWhile_append_dropWhile _ l
  · exact List.takeWhile_append_dropWhile _ l

theorem find_service_pre_sublist (l : List (Nat × ServiceRange)) (start : Nat) :
    List.Sublist (find_service_pre l start) l := by
  rcases find_service_pre_cases l start with h | ⟨h, _⟩
  · rw [h]
    exact (List.dropLast_sublist _).trans (List.takeWhile_sublist _)
  · rw [h]
    exact List.takeWhile_sublist _

theorem find_chunk_pre_sublist (l : List (Nat × List Nat)) (start : Nat) :
    List.Sublist (find_chunk_pre l start) l := by
  rcases find_chunk_pre_cases l start with h | ⟨h, _⟩
  · rw [h]
    exact (List.dropLast_sublist _).trans (List.takeWhile_sublist _)
  · rw [h]
    exact List.takeWhile_sublist _

theorem csg_left_bound (start finish : Nat) (hsf : start < finish) :
    ∀ suf : List (Nat × ServiceRange),
    List.Pairwise (fun a b => a.1 + a.2.length ≤ b.1) suf →
    (∀ p ∈ suf, 0 < p.2.length) →
    (∀ p ∈ suf, start < p.1 + p.2.length) →
    ∀ p ∈ (clear_services_go start finish suf).1,
      p.1 < start → p.1 + p.2.length ≤ start := by
  intro suf
  induction suf with
  | nil =>
    intro _ _ _ p hp
    have hp2 : p ∈ ([] : List (Nat × ServiceRange)) := hp
    simp at hp2
  | cons hd rest ih =>
    obtain ⟨k, r⟩ := hd
    intro hpw hpos hend
    have hpw2 := List.pairwise_cons.mp hpw
    have hrel : ∀ q ∈ rest, k + r.length ≤ q.1 := fun q hq => hpw2.1 q hq
    have hpw' := hpw2.2
    have hpos' : ∀ p ∈ rest, 0 < p.2.length :=
      fun p hp => hpos p (List.mem_cons_of_mem _ hp)
    have hend' : ∀ p ∈ rest, start < p.1 + p.2.length :=
      fun p hp => hend p (List.mem_cons_of_mem _ hp)
    have hposk : 0 < r.length := hpos (k, r) (List.mem_cons_self _ _)
    have hendk : start < k + r.length := hend (k, r) (List.mem_cons_self _ _)
    by_cases h1 : finish ≤ k
    · rw [csg_stop start finish k r rest h1]
      intro p hp hplt
      rcases List.mem_cons.mp hp with hp2 | hp2
      · rw [hp2] at hplt
        omega
      · have h5 := hrel p hp2
        omega
    · by_cases h2 : finish < k + r.length
      · have hrest_stop : clear_services_go start finish rest = (rest, []) := by
          cases rest with
          | nil => rfl
          | cons q t =>
            obtain ⟨qk, qr⟩ := q
            refine csg_stop start finish qk qr t ?_
            have h5 : k + r.length ≤ qk := hrel (qk, qr) (List.mem_cons_self _ _)
            omega
        by_cases h3 : k < start
        · rw [csg_split_trunc start finish k r rest h1 h2 h3, hrest_stop]
          intro p hp hplt
          rcases List.mem_cons.mp hp with hp2 | hp2
          · rw [hp2]
            show k + (start - k) ≤ start
            omega
          · rcases mapInsertSorted_mem rest _ p hp2 with hp3 | hp3
            · rw [hp3] at hplt
              simp only at hplt
              omega
            · have h5 := hrel p hp3
              omega
        · rw [csg_split_rem start finish k r rest h1 h2 h3, hrest_stop]
          intro p hp hplt
          rcases mapInsertSorted_mem rest _ p hp with hp3 | hp3
          · rw [hp3] at hplt
            simp only at hplt
            omega
          · have h5 := hrel p hp3
            omega
      · by_cases h3 : k < start
        · rw [csg_nosplit_trunc start finish k r rest h1 h2 h3]
          intro p hp hplt
          rcases List.mem_cons.mp hp with hp2 | hp2
          · rw [hp2]
            show k + (start - k) ≤ start
            omega
          · exact ih hpw' hpos' hend' p hp2 hplt
        · rw [csg_nosplit_rem start finish k r rest h1 h2 h3]
          intro p hp hplt
          exact ih hpw' hpos' hend' p hp hplt

theorem clear_services_spec (st : ImageState) (start length : Nat)
    (h0 : 0 < length)
    (hpw : List.Pairwise (fun a b => a.1 + a.2.length ≤ b.1) st.services)
    (hpos : ∀ p ∈ st.services, 0 < p.2.length) :
    List.Pairwise (fun a b => a.1 + a.2.length ≤ b.1)
      (image_clear_services st start length).services ∧
    (∀ p ∈ (image_clear_services st start length).services, 0 < p.2.length) ∧
    (∀ q ∈ (image_clear_services st start length).services,
      q.1 < start → q.1 + q.2.length ≤ start) ∧
    (∀ q ∈ (image_clear_services st start length).services,
      start ≤ q.1 → start + length ≤ q.1) ∧
    (image_clear_services st start length).chunks = st.chunks ∧
    (∀ sid B, st.ledger.refs sid = svcCount st.services sid + B →
      st.ledger.taken sid = st.ledger.released sid + svcCount st.services sid + B →
      (image_clear_services st start length).ledger.refs sid
        = svcCount (image_clear_services st start length).services sid + B ∧
      (image_clear_services st start length).ledger.taken sid
        = (image_clear_services st start length).ledger.released sid
          + svcCount (image_clear_services st start length).services sid + B) := by
  have hlen0 : ¬ length = 0 := by omega
  have hres : image_clear_services st start length =
      { st with services := find_service_pre st.services start
                  ++ (clear_services_go start (start + length)
                      (find_service st.services start)).1,
                ledger := applyEvents st.ledger
                  (clear_services_go start (start + length)
                    (find_service st.services start)).2 } := by
    unfold image_clear_services
    rw [if_neg hlen0]
  rw [hres]
  obtain ⟨spw, smem, send⟩ := find_service_facts st.services start hpw hpos
  have spos : ∀ p ∈ find_service st.services start, 0 < p.2.length :=
    fun p hp => hpos p (smem p hp)
  have hsf : start < start + length := by omega
  obtain ⟨opw, opos, oF3, okey, oled⟩ :=
    csg_spec start (start + length) hsf (find_service st.services start) spw spos send
  have oleft := csg_left_bound start (start + length) hsf
    (find_service st.services start) spw spos send
  have hpre_b := find_service_pre_bound st.services start hpw
  have hpre_sub := find_service_pre_sublist st.services start
  have hsplit := find_service_split st.services start
  have hpw_app : List.Pairwise (fun a b => a.1 + a.2.length ≤ b.1)
      (find_service_pre st.services start ++ find_service st.services start) := by
    rw [hsplit]
    exact hpw
  have hcross0 := (List.pairwise_append.mp hpw_app).2.2
  refine ⟨?_, ?_, ?_, ?_, rfl, ?_⟩
  · refine List.pairwise_append.mpr ⟨hpw.sublist hpre_sub, opw, ?_⟩
    intro p hp q hq
    rcases okey q hq with ⟨q0, hq0, hqeq⟩ | hqeq
    · have h5 := hcross0 p hp q0 hq0
      omega
    · have h5 := hpre_b p hp
      omega
  · intro p hp
    rcases List.mem_append.mp hp with hp2 | hp2
    · exact hpos p (hpre_sub.subset hp2)
    · exact opos p hp2
  · intro q hq hqlt
    rcases List.mem_append.mp hq with hq2 | hq2
    · exact hpre_b q hq2
    · exact oleft q hq2 hqlt
  · intro q hq hqge
    rcases List.mem_append.mp hq with hq2 | hq2
    · have h5 := hpre_b q hq2
      have h6 := hpos q (hpre_sub.subset hq2)
      omega
    · rcases oF3 q hq2 with h5 | h5
      · omega
      · exact h5
  · intro sid B ha hb
    rw [← hsplit, svcCount_append] at ha hb
    have h7 := oled st.ledger sid (svcCount (find_service_pre st.services start) sid + B)
      (by omega) (by omega)
    have hL : ({ st with services := find_service_pre st.services start ++ (clear_services_go start (start + length) (find_service st.services start)).1, ledger := applyEvents st.ledger (clear_services_go start (start + length) (find_service st.services start)).2 } : ImageState).ledger = applyEvents st.ledger (clear_services_go start (start + length) (find_service st.services start)).2 := rfl
    rw [hL, svcCount_append]
    omega

theorem image_clear_data_keeps (st : ImageState) (start length : Nat) :
    (image_clear_data st start length).services = st.services ∧
    (image_clear_data st start length).ledger = st.ledger := by
  unfold image_clear_data
  split
  · exact ⟨rfl, rfl⟩
  · exact ⟨rfl, rfl⟩

theorem image_receive_keeps (st : ImageState) (env : Nat → ServiceBehavior)
    (buf : List Nat) (start length : Nat) :
    (image_receive st env buf start length).2.services = st.services ∧
    (image_receive st env buf start length).2.ledger = st.ledger := by
  unfold image_receive
  split
  · exact ⟨rfl, rfl⟩
  · dsimp only
    by_cases hr : notify_services env buf start (start + length)
        (find_service st.services start) ≠ 0
    · rw [if_pos hr]
      exact ⟨rfl, rfl⟩
    · rw [if_neg hr]
      refine ⟨?_, ?_⟩
      · show (image_clear_data st start length).services = st.services
        exact (image_clear_data_keeps st start length).1
      · show (image_clear_data st start length).ledger = st.ledger
        exact (image_clear_data_keeps st start length).2

theorem image_register_inv (st : ImageState) (sid start length offset : Nat)
    (hpw : List.Pairwise (fun a b => a.1 + a.2.length ≤ b.1) st.services)
    (hpos : ∀ p ∈ st.services, 0 < p.2.length)
    (hinv : ∀ s2, st.ledger.refs s2 = svcCount st.services s2 ∧
      st.ledger.taken s2 = st.ledger.released s2 + svcCount st.services s2) :
    List.Pairwise (fun a b => a.1 + a.2.length ≤ b.1)
      (image_register st sid start length offset).services ∧
    (∀ p ∈ (image_register st sid start length offset).services, 0 < p.2.length) ∧
    ∀ s2, (image_register st sid start length offset).ledger.refs s2
        = svcCount (image_register st sid start length offset).services s2 ∧
      (image_register st sid start length offset).ledger.taken s2
        = (image_register st sid start length offset).ledger.released s2
          + svcCount (image_register st sid start length offset).services s2 := by
  by_cases hl : length = 0
  · have hres : image_register st sid start length offset
        = { st with ledger := svcDeref (svcRef st.ledger sid) sid } := by
      unfold image_register
      rw [if_pos hl]
    rw [hres]
    refine ⟨hpw, hpos, ?_⟩
    intro s2
    have h1 := hinv s2
    have h2 := hinv sid
    show (if s2 = sid then (svcRef st.ledger sid).refs sid - 1
        else (svcRef st.ledger sid).refs s2) = _ ∧ _
    by_cases hs : s2 = sid
    · subst hs
      simp [svcRef, svcDeref]
      omega
    · simp [svcRef, svcDeref, hs]
      omega
  · have h0 : 0 < length := by omega
    have hres : image_register st sid start length offset
        = { image_clear_services { st with ledger := svcRef st.ledger sid } start length with services := mapInsertSorted (image_clear_services { st with ledger := svcRef st.ledger sid } start length).services (start, { length := length, offset := offset, service := sid }) } := by
      unfold image_register
      rw [if_neg hl]
    rw [hres]
    dsimp only
    obtain ⟨cpw, cpos, cleft, cright, cchunks, cled⟩ :=
      clear_services_spec { st with ledger := svcRef st.ledger sid } start length h0
        hpw hpos
    have hnostart : ∀ q ∈ (image_clear_services
        { st with ledger := svcRef st.ledger sid } start length).services,
        q.1 ≠ start := by
      intro q hq
      by_cases hqlt : q.1 < start
      · omega
      · have := cright q hq (by omega)
        omega
    refine ⟨?_, ?_, ?_⟩
    · refine mapInsertSorted_pairwise (fun x : ServiceRange => x.length) _ _ cpw ?_ ?_
      · intro q hq hlt
        exact cleft q hq hlt
      · intro q hq hle
        show start + length ≤ q.1
        exact cright q hq hle
    · intro p hp
      rcases mapInsertSorted_mem _ _ p hp with hp2 | hp2
      · rw [hp2]
        exact h0
      · exact cpos p hp2
    · intro s2
      have hcount := svcCount_insert (image_clear_services { st with ledger := svcRef st.ledger sid } start length).services (start, { length := length, offset := offset, service := sid }) s2 hnostart
      have hsvc_eq : ((start, ({ length := length, offset := offset, service := sid } : ServiceRange)) : Nat × ServiceRange).2.service = sid := rfl
      have hled2 := cled s2 (if s2 = sid then 1 else 0) ?_ ?_
      · rw [hcount, hsvc_eq]
        show (image_clear_services { st with ledger := svcRef st.ledger sid } start length).ledger.refs s2 = _ ∧ (image_clear_services { st with ledger := svcRef st.ledger sid } start length).ledger.taken s2 = _
        by_cases hs : s2 = sid
        · rw [if_pos hs] at hled2
          rw [if_pos hs.symm]
          omega
        · rw [if_neg hs] at hled2
          rw [if_neg (fun hc => hs hc.symm)]
          omega
      · have hsc : svcCount ({ st with ledger := svcRef st.ledger sid } : ImageState).services s2 = svcCount st.services s2 := rfl
        show (if s2 = sid then st.ledger.refs sid + 1 else st.ledger.refs s2) = _
        rw [hsc]
        by_cases hs : s2 = sid
        · rw [if_pos hs, if_pos hs, hs]
          have h1 := hinv sid
          omega
        · rw [if_neg hs, if_neg hs]
          have h1 := hinv s2
          omega
      · have hsc : svcCount ({ st with ledger := svcRef st.ledger sid } : ImageState).services s2 = svcCount st.services s2 := rfl
        show (if s2 = sid then st.ledger.taken sid + 1 else st.ledger.taken s2) = st.ledger.released s2 + _ + _
        rw [hsc]
        by_cases hs : s2 = sid
        · rw [if_pos hs, if_pos hs, hs]
          have h1 := hinv sid
          omega
        · rw [if_neg hs, if_neg hs]
          have h1 := hinv s2
          omega

theorem imageStep_inv (env : Nat → ServiceBehavior) (st : ImageState) (op : ImageOp)
    (hpw : List.Pairwise (fun a b => a.1 + a.2.length ≤ b.1) st.services)
    (hpos : ∀ p ∈ st.services, 0 < p.2.length)
    (hinv : ∀ s2, st.ledger.refs s2 = svcCount st.services s2 ∧
      st.ledger.taken s2 = st.ledger.released s2 + svcCount st.services s2) :
    List.Pairwise (fun a b => a.1 + a.2.length ≤ b.1) (imageStep env st op).services ∧
    (∀ p ∈ (imageStep env st op).services, 0 < p.2.length) ∧
    ∀ s2, (imageStep env st op).ledger.refs s2
        = svcCount (imageStep env st op).services s2 ∧
      (imageStep env st op).ledger.taken s2
        = (imageStep env st op).ledger.released s2
          + svcCount (imageStep env st op).services s2 := by
  cases op with
  | register sid start length offset =>
    exact image_register_inv st sid start length offset hpw hpos hinv
  | receive buf start length =>
    obtain ⟨hs, hl⟩ := image_receive_keeps st env buf start length
    have hstep : imageStep env st (ImageOp.receive buf start length)
        = (image_receive st env buf start length).2 := rfl
    rw [hstep, hs, hl]
    exact ⟨hpw, hpos, hinv⟩
  | clearData start length =>
    obtain ⟨hs, hl⟩ := image_clear_data_keeps st start length
    have hstep : imageStep env st (ImageOp.clearData start length)
        = image_clear_data st start length := rfl
    rw [hstep, hs, hl]
    exact ⟨hpw, hpos, hinv⟩
  | clearServices start length =>
    by_cases hzero : length = 0
    · have hres : imageStep env st (ImageOp.clearServices start length) = st := by
        show image_clear_services st start length = st
        unfold image_clear_services
        rw [if_pos hzero]
      rw [hres]
      exact ⟨hpw, hpos, hinv⟩
    · have h0 : 0 < length := by omega
      have hstep : imageStep env st (ImageOp.clearServices start length)
          = image_clear_services st start length := rfl
      rw [hstep]
      obtain ⟨cpw, cpos, _, _, _, cled⟩ := clear_services_spec st start length h0 hpw hpos
      refine ⟨cpw, cpos, ?_⟩
      intro s2
      have h4 := cled s2 0 (by have := (hinv s2).1; omega)
        (by have := (hinv s2).2; omega)
      omega

theorem runImageOps_inv (env : Nat → ServiceBehavior) (ops : List ImageOp) :
    ∀ st : ImageState,
    List.Pairwise (fun a b => a.1 + a.2.length ≤ b.1) st.services →
    (∀ p ∈ st.services, 0 < p.2.length) →
    (∀ s2, st.ledger.refs s2 = svcCount st.services s2 ∧
      st.ledger.taken s2 = st.ledger.released s2 + svcCount st.services s2) →
    (∀ s2, (runImageOps env st ops).ledger.refs s2
        = svcCount (runImageOps env st ops).services s2 ∧
      (runImageOps env st ops).ledger.taken s2
        = (runImageOps env st ops).ledger.released s2
          + svcCount (runImageOps env st ops).services s2) := by
  induction ops with
  | nil =>
    intro st _ _ hinv
    exact hinv
  | cons op rest ih =>
    intro st hpw hpos hinv
    obtain ⟨hpw2, hpos2, hinv2⟩ := imageStep_inv env st op hpw hpos hinv
    exact ih (imageStep env st op) hpw2 hpos2 hinv2

/-- C5: over every sequence of composer operations from the initial
state, reference counts are conserved for every service: the refs taken
(one per register call, one per split by clear_services) equal the refs
released (one per whole-range removal, including register-on-top
replacements via the embedded clear, and length-0 balancing) plus the
refs still held, one per service-map range; the live count equals the
number of ranges held, and the spec-modelled deref runs the final-release
hook exactly when that count reaches 0. -/
theorem image_refcount_conserved (env : Nat → ServiceBehavior)
    (ops : List ImageOp) (sid : Nat) :
    (runImageOps env image_init ops).ledger.taken sid
        = (runImageOps env image_init ops).ledger.released sid
          + svcCount (runImageOps env image_init ops).services sid ∧
    (runImageOps env image_init ops).ledger.refs sid
        = svcCount (runImageOps env image_init ops).services sid := by
  have h := runImageOps_inv env ops image_init List.Pairwise.nil
    (by intro p hp; have hp2 : p ∈ ([] : List (Nat × ServiceRange)) := hp; simp at hp2)
    (by intro s2; exact ⟨rfl, rfl⟩)
  exact ⟨(h sid).2, (h sid).1⟩

theorem cdg_stop (start finish k : Nat) (data : List Nat)
    (rest : List (Nat × List Nat)) (h1 : finish ≤ k) :
    clear_data_go start finish ((k, data) :: rest) = (k, data) :: rest := by
  unfold clear_data_go
  rw [if_pos h1]

theorem cdg_split_trunc (start finish k : Nat) (data : List Nat)
    (rest : List (Nat × List Nat))
    (h1 : ¬ finish ≤ k) (h2 : finish < k + data.length) (h3 : k < start) :
    clear_data_go start finish ((k, data) :: rest) =
      (k, data.take (start - k)) ::
        mapInsertSorted (clear_data_go start finish rest)
          (finish, (data.drop (data.length - 1 - (k + data.length - finish))).take
            (k + data.length - finish)) := by
  conv_lhs => unfold clear_data_go
  rw [if_neg h1]
  simp only [if_pos h2, if_pos h3]

theorem cdg_split_rem (start finish k : Nat) (data : List Nat)
    (rest : List (Nat × List Nat))
    (h1 : ¬ finish ≤ k) (h2 : finish < k + data.length) (h3 : ¬ k < start) :
    clear_data_go start finish ((k, data) :: rest) =
      mapInsertSorted (clear_data_go start finish rest)
        (finish, (data.drop (data.length - 1 - (k + data.length - finish))).take
          (k + data.length - finish)) := by
  conv_lhs => unfold clear_data_go
  rw [if_neg h1]
  simp only [if_pos h2, if_neg h3]

theorem cdg_nosplit_trunc (start finish k : Nat) (data : List Nat)
    (rest : List (Nat × List Nat))
    (h1 : ¬ finish ≤ k) (h2 : ¬ finish < k + data.length) (h3 : k < start) :
    clear_data_go start finish ((k, data) :: rest) =
      (k, data.take (start - k)) :: clear_data_go start finish rest := by
  conv_lhs => unfold clear_data_go
  rw [if_neg h1]
  simp only [if_neg h2, if_pos h3]

theorem cdg_nosplit_rem (start finish k : Nat) (data : List Nat)
    (rest : List (Nat × List Nat))
    (h1 : ¬ finish ≤ k) (h2 : ¬ finish < k + data.length) (h3 : ¬ k < start) :
    clear_data_go start finish ((k, data) :: rest) =
      clear_data_go start finish rest := by
  conv_lhs => unfold clear_data_go
  rw [if_neg h1]
  simp only [if_neg h2, if_neg h3]

theorem cdg_bound (start finish : Nat) :
    ∀ suf : List (Nat × List Nat),
    List.Pairwise (fun a b => a.1 + a.2.length ≤ b.1) suf →
    ∀ p ∈ clear_data_go start finish suf,
      p.1 + p.2.length ≤ start ∨ finish ≤ p.1 := by
  intro suf
  induction suf with
  | nil =>
    intro _ p hp
    have hp2 : p ∈ ([] : List (Nat × List Nat)) := hp
    simp at hp2
  | cons hd rest ih =>
    obtain ⟨k, data⟩ := hd
    intro hpw
    have hpw2 := List.pairwise_cons.mp hpw
    have hrel : ∀ q ∈ rest, k + data.length ≤ q.1 := fun q hq => hpw2.1 q hq
    have hpw' := hpw2.2
    by_cases h1 : finish ≤ k
    · rw [cdg_stop start finish k data rest h1]
      intro p hp
      rcases List.mem_cons.mp hp with hp2 | hp2
      · right
        rw [hp2]
        exact h1
      · right
        have h5 := hrel p hp2
        omega
    · by_cases h2 : finish < k + data.length
      · by_cases h3 : k < start
        · rw [cdg_split_trunc start finish k data rest h1 h2 h3]
          intro p hp
          rcases List.mem_cons.mp hp with hp2 | hp2
          · left
            rw [hp2]
            have := List.length_take (start - k) data
            simp only
            omega
          · rcases mapInsertSorted_mem _ _ p hp2 with hp3 | hp3
            · right
              rw [hp3]
            · exact ih hpw' p hp3
        · rw [cdg_split_rem start finish k data rest h1 h2 h3]
          intro p hp
          rcases mapInsertSorted_mem _ _ p hp with hp3 | hp3
          · right
            rw [hp3]
          · exact ih hpw' p hp3
      · by_cases h3 : k < start
        · rw [cdg_nosplit_trunc start finish k data rest h1 h2 h3]
          intro p hp
          rcases List.mem_cons.mp hp with hp2 | hp2
          · left
            rw [hp2]
            have := List.length_take (start - k) data
            simp only
            omega
          · exact ih hpw' p hp2
        · rw [cdg_nosplit_rem start finish k data rest h1 h2 h3]
          intro p hp
          exact ih hpw' p hp

theorem image_clear_data_chunks (st : ImageState) (start length : Nat)
    (h0 : 0 < length) :
    (image_clear_data st start length).chunks =
      find_chunk_pre st.chunks start
        ++ clear_data_go start (start + length) (find_chunk st.chunks start) := by
  unfold image_clear_data
  rw [if_neg (by omega)]

theorem image_receive_error_case (st : ImageState) (env : Nat → ServiceBehavior)
    (buf : List Nat) (start length : Nat) (h0 : 0 < length)
    (hr : notify_services env buf start (start + length)
      (find_service st.services start) ≠ 0) :
    image_receive st env buf start length =
      (notify_services env buf start (start + length)
        (find_service st.services start), st) := by
  unfold image_receive
  rw [if_neg (by omega)]
  dsimp only
  rw [if_pos hr]

theorem image_receive_success_case (st : ImageState) (env : Nat → ServiceBehavior)
    (buf : List Nat) (start length : Nat) (h0 : 0 < length)
    (hr : ¬ notify_services env buf start (start + length)
      (find_service st.services start) ≠ 0) :
    image_receive st env buf start length =
      (0, { image_clear_data st start length with chunks := mapInsertSorted (image_clear_data st start length).chunks (start, buf.take length) }) := by
  unfold image_receive
  rw [if_neg (by omega)]
  dsimp only
  rw [if_neg hr]

/-- C4: for a positive-length receive into a well-formed chunk map: when
a notified service rejects the write, image_receive surfaces that error
and leaves the state unchanged, storing nothing; when every notified
service accepts, it returns 0, the data map afterwards holds exactly the
first length bytes of the buffer under key start, and every other chunk
lies entirely outside the written range. A zero-length receive stores
nothing (the uncorrected claim promised a stored chunk for every call). -/
theorem image_receive_error_and_store (st : ImageState) (env : Nat → ServiceBehavior)
    (buf : List Nat) (start length : Nat)
    (h0 : 0 < length)
    (hwf : chunkMapWF st.chunks) :
    ((image_receive st env buf start length).1 ≠ 0 →
      (image_receive st env buf start length).1
          = notify_services env buf start (start + length)
              (find_service st.services start) ∧
      (image_receive st env buf start length).2 = st) ∧
    ((image_receive st env buf start length).1 = 0 →
      mapLookup (image_receive st env buf start length).2.chunks start
          = some (buf.take length) ∧
      ∀ p ∈ (image_receive st env buf start length).2.chunks, p.1 ≠ start →
        p.1 + p.2.length ≤ start ∨ start + length ≤ p.1) := by
  obtain ⟨hpw, hpos⟩ := hwf
  by_cases hr : notify_services env buf start (start + length)
      (find_service st.services start) ≠ 0
  · rw [image_receive_error_case st env buf start length h0 hr]
    refine ⟨fun _ => ⟨rfl, rfl⟩, fun hc => absurd hc hr⟩
  · rw [image_receive_success_case st env buf start length h0 hr]
    refine ⟨fun hc => absurd rfl hc, fun _ => ⟨?_, ?_⟩⟩
    · exact mapLookup_insert (image_clear_data st start length).chunks
        (start, buf.take length)
    · intro p hp hpne
      have hp2 : p ∈ mapInsertSorted (image_clear_data st start length).chunks
          (start, buf.take length) := hp
      rcases mapInsertSorted_mem _ _ p hp2 with hp3 | hp3
      · exact absurd (by rw [hp3]) hpne
      · rw [image_clear_data_chunks st start length h0] at hp3
        rcases List.mem_append.mp hp3 with hp4 | hp4
        · left
          exact find_chunk_pre_bound st.chunks start hpw p hp4
        · obtain ⟨cpw, _, _⟩ := find_chunk_facts st.chunks start hpw hpos
          exact cdg_bound start (start + length) (find_chunk st.chunks start) cpw p hp4

theorem image_receive_error_and_store_witness :
    (((image_receive image_init envZero [7, 7] 3 2).1 ≠ 0 →
      (image_receive image_init envZero [7, 7] 3 2).1 = notify_services envZero [7, 7] 3 (3 + 2) (find_service image_init.services 3) ∧
      (image_receive image_init envZero [7, 7] 3 2).2 = image_init) ∧
    ((image_receive image_init envZero [7, 7] 3 2).1 = 0 →
      mapLookup (image_receive image_init envZero [7, 7] 3 2).2.chunks 3 = some (List.take 2 [7, 7]) ∧
      ∀ p ∈ (image_receive image_init envZero [7, 7] 3 2).2.chunks,
        p.1 ≠ 3 → p.1 + p.2.length ≤ 3 ∨ 3 + 2 ≤ p.1)) :=
  image_receive_error_and_store image_init envZero [7, 7] 3 2
    (by decide) ⟨List.Pairwise.nil, by simp [image_init]⟩

theorem image_receive_zero_length_cex :
    (image_receive image_init envZero [] 5 0).1 = 0 ∧
    mapLookup (image_receive image_init envZero [] 5 0).2.chunks 5 = none :=
  ⟨rfl, rfl⟩

theorem drop_eq_of_drop_eq (l1 l2 : List Nat) (m n : Nat) (hmn : m ≤ n)
    (h : l1.drop m = l2.drop m) : l1.drop n = l2.drop n := by
  have h1 : l1.drop n = (l1.drop m).drop (n - m) := by
    rw [List.drop_drop]
    congr 1
    omega
  have h2 : l2.drop n = (l2.drop m).drop (n - m) := by
    rw [List.drop_drop]
    congr 1
    omega
  rw [h1, h2, h]

theorem listWrite_length (buf bytes : List Nat) (a : Nat)
    (h : a + bytes.length ≤ buf.length) :
    (listWrite buf a bytes).length = buf.length := by
  unfold listWrite
  simp only [List.length_append, List.length_take, List.length_drop]
  omega

theorem listWrite_drop (buf bytes : List Nat) (a : Nat)
    (h : a + bytes.length ≤ buf.length) :
    (listWrite buf a bytes).drop (a + bytes.length)
      = buf.drop (a + bytes.length) := by
  unfold listWrite
  have hlen : (buf.take a ++ bytes).length = a + bytes.length := by
    simp only [List.length_append, List.length_take]
    omega
  have h2 : ((buf.take a ++ bytes) ++ buf.drop (a + bytes.length)).drop
        ((buf.take a ++ bytes).length + 0)
      = (buf.drop (a + bytes.length)).drop 0 := List.drop_append 0
  rw [Nat.add_zero, List.drop_zero, hlen] at h2
  exact h2

theorem tail_chain_step (buf newbuf : List Nat) (filled fl length : Nat)
    (r : Nat × List Nat × Nat)
    (hnew_len : newbuf.length = buf.length)
    (hnew_drop : newbuf.drop (filled + fl) = buf.drop (filled + fl))
    (hr1 : r.2.1.length = newbuf.length)
    (hr2 : filled + fl ≤ r.2.2)
    (hr3 : r.2.2 ≤ length)
    (hr4 : r.2.1.drop r.2.2 = newbuf.drop r.2.2) :
    r.2.1.length = buf.length ∧ filled ≤ r.2.2 ∧ r.2.2 ≤ length ∧
      r.2.1.drop r.2.2 = buf.drop r.2.2 := by
  refine ⟨by rw [hr1, hnew_len], by omega, hr3, ?_⟩
  rw [hr4]
  exact drop_eq_of_drop_eq newbuf buf (filled + fl) r.2.2 hr2 hnew_drop

theorem image_fill_go_tail (env : Nat → ServiceBehavior) :
    ∀ itfuel lenfuel (ci : List (Nat × List Nat)) (si : List (Nat × ServiceRange))
      (buf : List Nat) (start length filled : Nat),
    ci.length + si.length ≤ itfuel →
    length - filled ≤ lenfuel →
    length ≤ buf.length → filled ≤ length →
    (image_fill_go env ci si buf start length filled).2.1.length = buf.length ∧
    filled ≤ (image_fill_go env ci si buf start length filled).2.2 ∧
    (image_fill_go env ci si buf start length filled).2.2 ≤ length ∧
    (image_fill_go env ci si buf start length filled).2.1.drop
        (image_fill_go env ci si buf start length filled).2.2
      = buf.drop (image_fill_go env ci si buf start length filled).2.2 := by
  intro itfuel
  induction itfuel with
  | zero =>
    intro lenfuel
    induction lenfuel with
    | zero =>
      intro ci si buf start length filled hit hlen hlb hfl
      have h0 : length ≤ filled := by omega
      rw [image_fill_go, dif_pos h0]
      exact ⟨rfl, le_refl _, hfl, rfl⟩
    | succ lf ihlf =>
      intro ci si buf start length filled hit hlen hlb hfl
      have hci : ci = [] := by
        cases ci with
        | nil => rfl
        | cons a l =>
          exfalso
          have hx : (a :: l).length = l.length + 1 := rfl
          omega
      have hsi : si = [] := by
        cases si with
        | nil => rfl
        | cons a l =>
          exfalso
          have hx : (a :: l).length = l.length + 1 := rfl
          omega
      subst hci
      subst hsi
      by_cases h0 : length ≤ filled
      · rw [image_fill_go, dif_pos h0]
        exact ⟨rfl, le_refl _, hfl, rfl⟩
      · rw [image_fill_go, dif_neg h0]
        dsimp only
        rw [dif_neg (by simp)]
        rw [dif_neg (by simp)]
        simp only [if_pos rfl]
        have hbl : (List.replicate (length - filled) 0).length = length - filled :=
          List.length_replicate _ _
        have hwl := listWrite_length buf (List.replicate (length - filled) 0) filled
          (by omega)
        have hwd := listWrite_drop buf (List.replicate (length - filled) 0) filled
          (by omega)
        rw [hbl] at hwd
        have hrec := ihlf [] [] (listWrite buf filled (List.replicate (length - filled) 0))
          start length (filled + (length - filled)) (by simp) (by omega)
          (by omega) (by omega)
        exact tail_chain_step buf _ filled (length - filled) length _ hwl hwd
          hrec.1 hrec.2.1 hrec.2.2.1 hrec.2.2.2
  | succ m ihm =>
    intro lenfuel
    induction lenfuel with
    | zero =>
      intro ci si buf start length filled hit hlen hlb hfl
      have h0 : length ≤ filled := by omega
      rw [image_fill_go, dif_pos h0]
      exact ⟨rfl, le_refl _, hfl, rfl⟩
    | succ lf ihlf =>
      intro ci si buf start length filled hit hlen hlb hfl
      by_cases h0 : length ≤ filled
      · rw [image_fill_go, dif_pos h0]
        exact ⟨rfl, le_refl _, hfl, rfl⟩
      · rw [image_fill_go, dif_neg h0]
        dsimp only
        by_cases hc : ci ≠ [] ∧ (ci.headD (0, [])).1 ≤ start + filled
        · rw [dif_pos hc]
          have hcl : ci.length = ci.tail.length + 1 := by
            cases ci with
            | nil => exact absurd rfl hc.1
            | cons a l => rfl
          have hflc : min ((ci.headD (0, [])).2.length
              - (start + filled - (ci.headD (0, [])).1)) (length - filled)
              ≤ length - filled := by omega
          have hbyl : (((ci.headD (0, [])).2.drop
              (start + filled - (ci.headD (0, [])).1)).take
              (min ((ci.headD (0, [])).2.length - (start + filled - (ci.headD (0, [])).1))
                (length - filled))).length
              ≤ min ((ci.headD (0, [])).2.length - (start + filled - (ci.headD (0, [])).1))
                (length - filled) := by
            simp only [List.length_take, List.length_drop]
            omega
          have hwl := listWrite_length buf (((ci.headD (0, [])).2.drop
              (start + filled - (ci.headD (0, [])).1)).take
              (min ((ci.headD (0, [])).2.length - (start + filled - (ci.headD (0, [])).1))
                (length - filled))) filled (by omega)
          have hwd := listWrite_drop buf (((ci.headD (0, [])).2.drop
              (start + filled - (ci.headD (0, [])).1)).take
              (min ((ci.headD (0, [])).2.length - (start + filled - (ci.headD (0, [])).1))
                (length - filled))) filled (by omega)
          have hwd2 := drop_eq_of_drop_eq (listWrite buf filled (((ci.headD (0, [])).2.drop
              (start + filled - (ci.headD (0, [])).1)).take
              (min ((ci.headD (0, [])).2.length - (start + filled - (ci.headD (0, [])).1))
                (length - filled)))) buf
            (filled + (((ci.headD (0, [])).2.drop
              (start + filled - (ci.headD (0, [])).1)).take
              (min ((ci.headD (0, [])).2.length - (start + filled - (ci.headD (0, [])).1))
                (length - filled))).length)
            (filled + min ((ci.headD (0, [])).2.length
              - (start + filled - (ci.headD (0, [])).1)) (length - filled))
            (by omega) hwd
          have hrec := ihm length ci.tail si
            (listWrite buf filled (((ci.headD (0, [])).2.drop
              (start + filled - (ci.headD (0, [])).1)).take
              (min ((ci.headD (0, [])).2.length - (start + filled - (ci.headD (0, [])).1))
                (length - filled))))
            start length
            (filled + min ((ci.headD (0, [])).2.length
              - (start + filled - (ci.headD (0, [])).1)) (length - filled))
            (by omega) (by omega) (by omega) (by omega)
          exact tail_chain_step buf _ filled
            (min ((ci.headD (0, [])).2.length - (start + filled - (ci.headD (0, [])).1))
              (length - filled)) length _ hwl hwd2
            hrec.1 hrec.2.1 hrec.2.2.1 hrec.2.2.2
        · rw [dif_neg hc]
          by_cases hs : si ≠ [] ∧ (si.headD (0, ⟨0, 0, 0⟩)).1 ≤ start + filled
          · rw [dif_pos hs]
            have hsl : si.length = si.tail.length + 1 := by
              cases si with
              | nil => exact absurd rfl hs.1
              | cons a l => rfl
            by_cases hskip : (si.headD (0, ⟨0, 0, 0⟩)).2.length
                ≤ start + filled - (si.headD (0, ⟨0, 0, 0⟩)).1
            · rw [if_pos hskip]
              exact ihm length ci si.tail buf start length filled (by omega) (by omega)
                hlb hfl
            · rw [if_neg hskip]
              by_cases herr : (env (si.headD (0, ⟨0, 0, 0⟩)).2.service).fillErr
                  (min ((si.headD (0, ⟨0, 0, 0⟩)).2.length
                    - (start + filled - (si.headD (0, ⟨0, 0, 0⟩)).1))
                    (if ci = [] then length - filled
                     else min ((ci.headD (0, [])).1 - (start + filled)) (length - filled)))
                  ((si.headD (0, ⟨0, 0, 0⟩)).2.offset
                    + (start + filled - (si.headD (0, ⟨0, 0, 0⟩)).1)) ≠ 0
              · rw [if_pos herr]
                exact ⟨rfl, le_refl _, hfl, rfl⟩
              · rw [if_neg herr]
                have hm2 : (if ci = [] then length - filled
                    else min ((ci.headD (0, [])).1 - (start + filled)) (length - filled))
                    ≤ length - filled := by
                  by_cases hcie : ci = []
                  · rw [if_pos hcie]
                  · rw [if_neg hcie]
                    omega
                have hfls : min ((si.headD (0, ⟨0, 0, 0⟩)).2.length
                    - (start + filled - (si.headD (0, ⟨0, 0, 0⟩)).1))
                    (if ci = [] then length - filled
                     else min ((ci.headD (0, [])).1 - (start + filled)) (length - filled))
                    ≤ length - filled := by omega
                have hbyl : ((List.range (min ((si.headD (0, ⟨0, 0, 0⟩)).2.length
                    - (start + filled - (si.headD (0, ⟨0, 0, 0⟩)).1))
                    (if ci = [] then length - filled
                     else min ((ci.headD (0, [])).1 - (start + filled))
                       (length - filled)))).map
                    (fun j => (env (si.headD (0, ⟨0, 0, 0⟩)).2.service).byteAt
                      ((si.headD (0, ⟨0, 0, 0⟩)).2.offset
                        + (start + filled - (si.headD (0, ⟨0, 0, 0⟩)).1) + j))).length
                    = min ((si.headD (0, ⟨0, 0, 0⟩)).2.length
                      - (start + filled - (si.headD (0, ⟨0, 0, 0⟩)).1))
                      (if ci = [] then length - filled
                       else min ((ci.headD (0, [])).1 - (start + filled))
                         (length - filled)) := by
                  simp only [List.length_map, List.length_range]
                have hwl := listWrite_length buf ((List.range
                    (min ((si.headD (0, ⟨0, 0, 0⟩)).2.length
                    - (start + filled - (si.headD (0, ⟨0, 0, 0⟩)).1))
                    (if ci = [] then length - filled
                     else min ((ci.headD (0, [])).1 - (start + filled))
                       (length - filled)))).map
                    (fun j => (env (si.headD (0, ⟨0, 0, 0⟩)).2.service).byteAt
                      ((si.headD (0, ⟨0, 0, 0⟩)).2.offset
                        + (start + filled - (si.headD (0, ⟨0, 0, 0⟩)).1) + j)))
                  filled (by omega)
                have hwd := listWrite_drop buf ((List.range
                    (min ((si.headD (0, ⟨0, 0, 0⟩)).2.length
                    - (start + filled - (si.headD (0, ⟨0, 0, 0⟩)).1))
                    (if ci = [] then length - filled
                     else min ((ci.headD (0, [])).1 - (start + filled))
                       (length - filled)))).map
                    (fun j => (env (si.headD (0, ⟨0, 0, 0⟩)).2.service).byteAt
                      ((si.headD (0, ⟨0, 0, 0⟩)).2.offset
                        + (start + filled - (si.headD (0, ⟨0, 0, 0⟩)).1) + j)))
                  filled (by omega)
                rw [hbyl] at hwd
                have hrec := ihm length ci si.tail
                  (listWrite buf filled ((List.range
                    (min ((si.headD (0, ⟨0, 0, 0⟩)).2.length
                    - (start + filled - (si.headD (0, ⟨0, 0, 0⟩)).1))
                    (if ci = [] then length - filled
                     else min ((ci.headD (0, [])).1 - (start + filled))
                       (length - filled)))).map
                    (fun j => (env (si.headD (0, ⟨0, 0, 0⟩)).2.service).byteAt
                      ((si.headD (0, ⟨0, 0, 0⟩)).2.offset
                        + (start + filled - (si.headD (0, ⟨0, 0, 0⟩)).1) + j))))
                  start length
                  (filled + min ((si.headD (0, ⟨0, 0, 0⟩)).2.length
                    - (start + filled - (si.headD (0, ⟨0, 0, 0⟩)).1))
                    (if ci = [] then length - filled
                     else min ((ci.headD (0, [])).1 - (start + filled))
                       (length - filled)))
                  (by omega) (by omega) (by omega) (by omega)
                exact tail_chain_step buf _ filled
                  (min ((si.headD (0, ⟨0, 0, 0⟩)).2.length
                    - (start + filled - (si.headD (0, ⟨0, 0, 0⟩)).1))
                    (if ci = [] then length - filled
                     else min ((ci.headD (0, [])).1 - (start + filled))
                       (length - filled))) length _ hwl hwd
                  hrec.1 hrec.2.1 hrec.2.2.1 hrec.2.2.2
          · rw [dif_neg hs]
            have hm2 : (if ci = [] then length - filled
                else min ((ci.headD (0, [])).1 - (start + filled)) (length - filled))
                ≤ length - filled := by
              by_cases hcie : ci = []
              · rw [if_pos hcie]
              · rw [if_neg hcie]
                omega
            have hm2pos : 1 ≤ (if ci = [] then length - filled
                else min ((ci.headD (0, [])).1 - (start + filled)) (length - filled)) := by
              by_cases hcie : ci = []
              · rw [if_pos hcie]
                omega
              · rw [if_neg hcie]
                have hch : ¬ (ci.headD (0, [])).1 ≤ start + filled := by
                  intro hcon
                  exact hc ⟨hcie, hcon⟩
                omega
            have hm3 : (if si = [] then
                  (if ci = [] then length - filled
                   else min ((ci.headD (0, [])).1 - (start + filled)) (length - filled))
                else min ((si.headD (0, ⟨0, 0, 0⟩)).1 - (start + filled))
                  (if ci = [] then length - filled
                   else min ((ci.headD (0, [])).1 - (start + filled)) (length - filled)))
                ≤ length - filled := by
              by_cases hsie : si = []
              · rw [if_pos hsie]
                exact hm2
              · rw [if_neg hsie]
                omega
            have hm3pos : 1 ≤ (if si = [] then
                  (if ci = [] then length - filled
                   else min ((ci.headD (0, [])).1 - (start + filled)) (length - filled))
                else min ((si.headD (0, ⟨0, 0, 0⟩)).1 - (start + filled))
                  (if ci = [] then length - filled
                   else min ((ci.headD (0, [])).1 - (start + filled)) (length - filled))) := by
              by_cases hsie : si = []
              · rw [if_pos hsie]
                exact hm2pos
              · rw [if_neg hsie]
                have hsh : ¬ (si.headD (0, ⟨0, 0, 0⟩)).1 ≤ start + filled := by
                  intro hcon
                  exact hs ⟨hsie, hcon⟩
                omega
            have hbl : (List.replicate (if si = [] then
                  (if ci = [] then length - filled
                   else min ((ci.headD (0, [])).1 - (start + filled)) (length - filled))
                else min ((si.headD (0, ⟨0, 0, 0⟩)).1 - (start + filled))
                  (if ci = [] then length - filled
                   else min ((ci.headD (0, [])).1 - (start + filled)) (length - filled)))
                (0 : Nat)).length
                = (if si = [] then
                  (if ci = [] then length - filled
                   else min ((ci.headD (0, [])).1 - (start + filled)) (length - filled))
                else min ((si.headD (0, ⟨0, 0, 0⟩)).1 - (start + filled))
                  (if ci = [] then length - filled
                   else min ((ci.headD (0, [])).1 - (start + filled)) (length - filled))) :=
              List.length_replicate _ _
            have hwl := listWrite_length buf (List.replicate (if si = [] then
                  (if ci = [] then length - filled
                   else min ((ci.headD (0, [])).1 - (start + filled)) (length - filled))
                else min ((si.headD (0, ⟨0, 0, 0⟩)).1 - (start + filled))
                  (if ci = [] then length - filled
                   else min ((ci.headD (0, [])).1 - (start + filled)) (length - filled)))
                (0 : Nat)) filled (by omega)
            have hwd := listWrite_drop buf (List.replicate (if si = [] then
                  (if ci = [] then length - filled
                   else min ((ci.headD (0, [])).1 - (start + filled)) (length - filled))
                else min ((si.headD (0, ⟨0, 0, 0⟩)).1 - (start + filled))
                  (if ci = [] then length - filled
                   else min ((ci.headD (0, [])).1 - (start + filled)) (length - filled)))
                (0 : Nat)) filled (by omega)
            rw [hbl] at hwd
            have hrec := ihlf ci si (listWrite buf filled (List.replicate (if si = [] then
                  (if ci = [] then length - filled
                   else min ((ci.headD (0, [])).1 - (start + filled)) (length - filled))
                else min ((si.headD (0, ⟨0, 0, 0⟩)).1 - (start + filled))
                  (if ci = [] then length - filled
                   else min ((ci.headD (0, [])).1 - (start + filled)) (length - filled)))
                (0 : Nat))) start length
              (filled + (if si = [] then
                  (if ci = [] then length - filled
                   else min ((ci.headD (0, [])).1 - (start + filled)) (length - filled))
                else min ((si.headD (0, ⟨0, 0, 0⟩)).1 - (start + filled))
                  (if ci = [] then length - filled
                   else min ((ci.headD (0, [])).1 - (start + filled)) (length - filled))))
              hit (by omega) (by omega) (by omega)
            exact tail_chain_step buf _ filled
              (if si = [] then
                  (if ci = [] then length - filled
                   else min ((ci.headD (0, [])).1 - (start + filled)) (length - filled))
                else min ((si.headD (0, ⟨0, 0, 0⟩)).1 - (start + filled))
                  (if ci = [] then length - filled
                   else min ((ci.headD (0, [])).1 - (start + filled)) (length - filled)))
              length _ hwl hwd
              hrec.1 hrec.2.1 hrec.2.2.1 hrec.2.2.2

/-- C7 (amended): when a registered service's fill fails during
image_fill, the remainder of the caller's buffer is NOT zeroed: the
returned buffer keeps the caller's length, the returned fill count is at
most the requested length, and every byte at or past the fill count is
exactly the caller's original byte, so the bytes beyond the failure
point retain their prior (stale) contents. -/
theorem image_fill_error_keeps_tail (env : Nat → ServiceBehavior) (st : ImageState)
    (buf : List Nat) (start length : Nat) (hlb : length ≤ buf.length) :
    (image_fill env st buf start length).2.1.length = buf.length ∧
    (image_fill env st buf start length).2.2 ≤ length ∧
    (image_fill env st buf start length).2.1.drop
        (image_fill env st buf start length).2.2
      = buf.drop (image_fill env st buf start length).2.2 := by
  unfold image_fill
  have h := image_fill_go_tail env
    ((find_chunk st.chunks start).length + (find_service st.services start).length)
    length (find_chunk st.chunks start) (find_service st.services start)
    buf start length 0 (le_refl _) (by omega) hlb (by omega)
  exact ⟨h.1, h.2.2.1, h.2.2.2⟩

/-- Witness for the C7 theorem: a service registered over bytes 0..8
whose fill always fails with error 5, applied to a buffer of nines. -/
theorem image_fill_error_keeps_tail_witness :
    8 ≤ (List.replicate 8 9 : List Nat).length ∧
    ((image_fill (fun _ => ⟨fun _ => 0, fun _ _ => 5, fun _ _ => 0⟩)
        (image_register image_init 1 0 8 0) (List.replicate 8 9) 0 8).2.1.length
        = (List.replicate 8 9 : List Nat).length ∧
      (image_fill (fun _ => ⟨fun _ => 0, fun _ _ => 5, fun _ _ => 0⟩)
        (image_register image_init 1 0 8 0) (List.replicate 8 9) 0 8).2.2 ≤ 8 ∧
      (image_fill (fun _ => ⟨fun _ => 0, fun _ _ => 5, fun _ _ => 0⟩)
        (image_register image_init 1 0 8 0) (List.replicate 8 9) 0 8).2.1.drop
          (image_fill (fun _ => ⟨fun _ => 0, fun _ _ => 5, fun _ _ => 0⟩)
            (image_register image_init 1 0 8 0) (List.replicate 8 9) 0 8).2.2
        = (List.replicate 8 9 : List Nat).drop
          (image_fill (fun _ => ⟨fun _ => 0, fun _ _ => 5, fun _ _ => 0⟩)
            (image_register image_init 1 0 8 0) (List.replicate 8 9) 0 8).2.2) :=
  ⟨by decide, image_fill_error_keeps_tail (fun _ => ⟨fun _ => 0, fun _ _ => 5, fun _ _ => 0⟩)
    (image_register image_init 1 0 8 0) (List.replicate 8 9) 0 8 (by decide)⟩

/-- Counterexample to C7 as stated: with a service over [0, 8) whose
fill always fails with error 5, image_fill on a buffer of nines returns
error 5 with zero bytes produced and every byte of the buffer still 9 —
the remainder past the failure point is not zeroed. -/
theorem image_fill_error_no_zeroing_cex :
    image_fill (fun _ => ⟨fun _ => 0, fun _ _ => 5, fun _ _ => 0⟩)
      (image_register image_init 1 0 8 0) (List.replicate 8 9) 0 8
      = (5, List.replicate 8 9, 0) ∧
    (List.replicate 8 9 : List Nat) ≠ List.replicate 8 0 := by
  constructor
  · simp [image_fill, image_fill_go, find_chunk, find_service, find_service_pre,
      image_register, image_clear_services, clear_services_go, mapInsertSorted,
      image_init, listWrite, svcRef, svcDeref, applyEvents]
  · decide

/-- C8 (amended): Filemap::receive refuses every write, but the error
code it returns is EACCES (permission denied, 13) rather than the
read-only-filesystem error EROFS (30): for every buffer, length and
offset the result is EACCES and therefore nonzero, so no write to a
file-mapped region is ever accepted. -/
theorem filemap_receive_always_refuses (buf : List Nat) (length offset : Nat) :
    filemap_receive buf length offset = EACCES_errno ∧
    filemap_receive buf length offset ≠ 0 :=
  ⟨rfl, by simp [filemap_receive, EACCES_errno]⟩

/-- Counterexample to C8 as stated: the refusal error is EACCES (13),
not the read-only-filesystem error EROFS (30). -/
theorem filemap_receive_not_erofs_cex :
    filemap_receive [] 0 0 = EACCES_errno ∧
    filemap_receive [] 0 0 ≠ EROFS_errno := by
  decide

/-- C3: the precedence rule is violated after a data chunk interrupts a
service range. A service over [10, 50) producing byte 5 everywhere and a
received chunk [7,7,7,7,7] at [20, 25): filling [10, 50) yields the
service's bytes only up to the chunk, then the chunk, then zeros — the
service iterator is advanced past the whole range after the truncated
fill, so positions 25..49, still covered by the registered service,
come out as zeros instead of the service's output. -/
theorem image_fill_service_tail_skipped :
    (image_fill (fun _ => ⟨fun _ => 5, fun _ _ => 0, fun _ _ => 0⟩)
        (image_receive (image_register image_init 0 10 40 0)
          (fun _ => ⟨fun _ => 5, fun _ _ => 0, fun _ _ => 0⟩) [7, 7, 7, 7, 7] 20 5).2
        (List.replicate 40 9) 10 40
      = (0, List.replicate 10 5 ++ [7, 7, 7, 7, 7] ++ List.replicate 25 0, 40)) ∧
    ((image_receive (image_register image_init 0 10 40 0)
        (fun _ => ⟨fun _ => 5, fun _ _ => 0, fun _ _ => 0⟩) [7, 7, 7, 7, 7] 20 5).2.services
      = [(10, ⟨40, 0, 0⟩)]) := by
  constructor
  · simp [image_fill, image_fill_go, find_chunk, find_service, find_service_pre,
      find_chunk_pre, image_register, image_clear_services, clear_services_go,
      image_receive, notify_services, image_clear_data, clear_data_go,
      mapInsertSorted, image_init, listWrite, svcRef, svcDeref, applyEvents,
      List.replicate]
  · simp [image_receive, notify_services, image_register, image_clear_services,
      clear_services_go, find_service, find_service_pre, find_chunk, find_chunk_pre,
      image_clear_data, clear_data_go, mapInsertSorted, image_init, svcRef,
      svcDeref, applyEvents]

theorem prep_short_entry_length (u : Nat) : (prep_short_entry u).length = 11 := rfl

theorem short_entry_bytes_length (encDT : Nat → Nat × Nat × Nat × Nat)
    (encD : Nat → Nat × Nat) (uniq entry_clust file_size attrs mtime atime : Nat) :
    (short_entry_bytes encDT encD uniq entry_clust file_size attrs mtime atime).length
      = 32 := by
  simp [short_entry_bytes, prep_short_entry]

theorem fill_filename_part_length (s : Nat) (b : Bool) (fn : List Nat) (cs : Nat) :
    (fill_filename_part s b fn cs).length = 32 := rfl

theorem fill_filename_part_getD13 (s : Nat) (b : Bool) (fn : List Nat) (cs : Nat) :
    (fill_filename_part s b fn cs).getD 13 0 = cs := rfl

theorem fill_filename_part_getD0 (s : Nat) (b : Bool) (fn : List Nat) (cs : Nat) :
    (fill_filename_part s b fn cs).getD 0 0
      = if b then (s ||| 64) % 256 else s % 256 := by
  cases b <;> rfl

theorem lfn_records_length (n : Nat) (fn : List Nat) (cs : Nat) :
    (lfn_records n fn cs).length = n := by
  simp [lfn_records]

theorem lfn_records_getD (n i : Nat) (h : i < n) (fn : List Nat) (cs : Nat) :
    (lfn_records n fn cs).getD i []
      = fill_filename_part (n - i) (decide (n - i = n)) fn cs := by
  have hl : i < (lfn_records n fn cs).length := by rw [lfn_records_length]; exact h
  rw [List.getD_eq_getElem _ _ hl]
  unfold lfn_records
  rw [List.getElem_map, List.getElem_reverse, List.getElem_range]
  have he : (List.range n).length - 1 - i + 1 = n - i := by
    rw [List.length_range]; omega
  rw [he]

theorem flatten_uniform_length (ls : List (List Nat))
    (h : ∀ r ∈ ls, r.length = 32) : ls.flatten.length = 32 * ls.length := by
  induction ls with
  | nil => rfl
  | cons a l ih =>
    simp only [List.flatten_cons, List.length_append, List.length_cons]
    rw [h a (by simp), ih (fun r hr => h r (by simp [hr]))]
    ring

theorem flatten_uniform_getD (ls : List (List Nat))
    (h : ∀ r ∈ ls, r.length = 32) (i o : Nat) (hi : i < ls.length) (ho : o < 32) :
    ls.flatten.getD (32 * i + o) 0 = (ls.getD i []).getD o 0 := by
  induction ls generalizing i with
  | nil => simp at hi
  | cons a l ih =>
    have ha : a.length = 32 := h a (by simp)
    cases i with
    | zero =>
      rw [List.flatten_cons, List.getD_cons_zero]
      have h0 : 32 * 0 + o = o := by omega
      have hlt : o < a.length := by omega
      rw [h0, List.getD_eq_getElem?_getD, List.getD_eq_getElem?_getD,
        List.getElem?_append, if_pos hlt]
    | succ i' =>
      rw [List.flatten_cons, List.getD_cons_succ]
      have hidx : 32 * (i' + 1) + o = a.length + (32 * i' + o) := by omega
      have hi' : i' < l.length := by simp at hi; omega
      have harith : a.length + (32 * i' + o) - a.length = 32 * i' + o := by omega
      rw [hidx, List.getD_eq_getElem?_getD, List.getElem?_append,
        if_neg (by omega), harith, ← List.getD_eq_getElem?_getD]
      exact ih (fun r hr => h r (by simp [hr])) i' hi'

theorem lfn_seq_byte (n i : Nat) (hi : i < n) (hn : n ≤ 21) (fn : List Nat) (cs : Nat) :
    ((lfn_records n fn cs).getD i []).getD 0 0 % 64 = n - i ∧
    (i = 0 → 64 ≤ ((lfn_records n fn cs).getD i []).getD 0 0) ∧
    (0 < i → ((lfn_records n fn cs).getD i []).getD 0 0 < 64) := by
  rw [lfn_records_getD n i hi, fill_filename_part_getD0]
  by_cases h0 : i = 0
  · subst h0
    have hd : (decide (n - 0 = n)) = true := by simp
    rw [hd, if_pos rfl]
    have h1 : 1 ≤ n := hi
    refine ⟨?_, fun _ => ?_, fun hlt => absurd hlt (by decide)⟩
    · interval_cases n <;> decide
    · interval_cases n <;> decide
  · have hd : (decide (n - i = n)) = false := by
      simp only [decide_eq_false_iff_not]
      omega
    rw [hd, if_neg Bool.false_ne_true]
    refine ⟨by omega, fun he => absurd he h0, fun _ => by omega⟩

theorem lfn_checksum_byte (n i : Nat) (hi : i < n) (fn : List Nat) (cs : Nat) :
    ((lfn_records n fn cs).getD i []).getD 13 0 = cs := by
  rw [lfn_records_getD n i hi, fill_filename_part_getD13]

/-- C6: a filename of at most 255 code units accepted by dir_add_entry
appends exactly 1 + ceil(length/13) 32-byte records to the parent
directory's data: first the LFN records, whose sequence numbers (the low
six bits of byte 0) strictly descend from ceil(length/13) down to 1 with
the 0x40 last-in-sequence flag set on the first record only, then
exactly one short entry, and byte 13 of every LFN record is the FAT-spec
checksum of the short entry's first 11 bytes. -/
theorem dir_add_entry_layout
    (sys : DirSys) (encDT : Nat → Nat × Nat × Nat × Nat) (encD : Nat → Nat × Nat)
    (parent_clust entry_clust : Nat) (filename : List Nat)
    (file_size attrs mtime atime : Nat) (parent : DirService)
    (hlen : filename.length ≤ 255)
    (hpar : mapLookup sys.dirservices
        (if parent_clust % U32 = 0 then ROOT_DIR_CLUSTER else parent_clust % U32)
      = some parent)
    (hacc : (dir_add_entry sys encDT encD parent_clust entry_clust filename
        file_size attrs mtime atime).1 = true) :
    ∃ parent2 : DirService,
      mapLookup (dir_add_entry sys encDT encD parent_clust entry_clust filename
          file_size attrs mtime atime).2.dirservices
        (if parent_clust % U32 = 0 then ROOT_DIR_CLUSTER else parent_clust % U32)
        = some parent2 ∧
      parent2.data = parent.data ++
        (lfn_records ((filename.length + 12) / 13) filename
          (calc_vfat_checksum (short_entry_bytes encDT encD sys.unique_name_counter
            (entry_clust % U32) (file_size % U32) attrs mtime atime)) ++
         [short_entry_bytes encDT encD sys.unique_name_counter
            (entry_clust % U32) (file_size % U32) attrs mtime atime]).flatten ∧
      (lfn_records ((filename.length + 12) / 13) filename
          (calc_vfat_checksum (short_entry_bytes encDT encD sys.unique_name_counter
            (entry_clust % U32) (file_size % U32) attrs mtime atime)) ++
         [short_entry_bytes encDT encD sys.unique_name_counter
            (entry_clust % U32) (file_size % U32) attrs mtime atime]).length
        = 1 + (filename.length + 12) / 13 ∧
      (∀ r ∈ lfn_records ((filename.length + 12) / 13) filename
          (calc_vfat_checksum (short_entry_bytes encDT encD sys.unique_name_counter
            (entry_clust % U32) (file_size % U32) attrs mtime atime)) ++
         [short_entry_bytes encDT encD sys.unique_name_counter
            (entry_clust % U32) (file_size % U32) attrs mtime atime],
        r.length = 32) ∧
      (∀ i, i < (filename.length + 12) / 13 →
        ((lfn_records ((filename.length + 12) / 13) filename
            (calc_vfat_checksum (short_entry_bytes encDT encD sys.unique_name_counter
              (entry_clust % U32) (file_size % U32) attrs mtime atime))).getD i
          []).getD 0 0 % 64 = (filename.length + 12) / 13 - i) ∧
      (0 < (filename.length + 12) / 13 →
        64 ≤ ((lfn_records ((filename.length + 12) / 13) filename
            (calc_vfat_checksum (short_entry_bytes encDT encD sys.unique_name_counter
              (entry_clust % U32) (file_size % U32) attrs mtime atime))).getD 0
          []).getD 0 0) ∧
      (∀ i, 0 < i → i < (filename.length + 12) / 13 →
        ((lfn_records ((filename.length + 12) / 13) filename
            (calc_vfat_checksum (short_entry_bytes encDT encD sys.unique_name_counter
              (entry_clust % U32) (file_size % U32) attrs mtime atime))).getD i
          []).getD 0 0 < 64) ∧
      (∀ i, i < (filename.length + 12) / 13 →
        ((lfn_records ((filename.length + 12) / 13) filename
            (calc_vfat_checksum (short_entry_bytes encDT encD sys.unique_name_counter
              (entry_clust % U32) (file_size % U32) attrs mtime atime))).getD i
          []).getD 13 0
          = calc_vfat_checksum (short_entry_bytes encDT encD sys.unique_name_counter
              (entry_clust % U32) (file_size % U32) attrs mtime atime)) := by
  have hL : ¬ filename.length > 256 := by omega
  have hNe : 1 + (filename.length + 13 - 1) / 13 - 1 = (filename.length + 12) / 13 := by
    omega
  have hN20 : (filename.length + 12) / 13 ≤ 21 := by omega
  unfold dir_add_entry at hacc ⊢
  dsimp only at hacc ⊢
  rw [if_neg hL] at hacc ⊢
  rw [hpar] at hacc ⊢
  dsimp only at hacc ⊢
  split at hacc
  · simp at hacc
  · rename_i fat1 img1 parent1 heq
    dsimp only
    have hpd : parent1.data = parent.data := by
      repeat' split at heq
      all_goals
        first
          | (rw [Option.some_inj] at heq
             simp only [Prod.mk.injEq] at heq
             rw [← heq.2.2])
          | simp at heq
    rw [hNe] at hacc ⊢
    refine ⟨_, mapLookup_insert _ _, ?_, ?_, ?_, ?_, ?_, ?_, ?_⟩
    · dsimp only
      rw [hpd]
    · simp [lfn_records_length]
      omega
    · intro r hr
      rcases List.mem_append.mp hr with h | h
      · simp only [lfn_records, List.mem_map, List.mem_reverse, List.mem_range] at h
        obtain ⟨j, hj, rfl⟩ := h
        exact fill_filename_part_length _ _ _ _
      · rw [List.mem_singleton] at h
        subst h
        exact short_entry_bytes_length _ _ _ _ _ _ _ _
    · intro i hi
      exact (lfn_seq_byte _ i hi hN20 _ _).1
    · intro hpos
      exact (lfn_seq_byte _ 0 hpos hN20 _ _).2.1 rfl
    · intro i hip hi
      exact (lfn_seq_byte _ i hi hN20 _ _).2.2 hip
    · intro i hi
      exact lfn_checksum_byte _ i hi _ _

/-- Witness for the C6 theorem: adding the 4-unit name t,e,s,t to a root
directory with one empty parent service. -/
theorem dir_add_entry_layout_witness :
    (([116, 101, 115, 116] : List Nat).length ≤ 255) ∧
    (mapLookup ({ fat := fat_init 100, img := image_init, dirservices := [(2, { path := "d", data := [], last_cluster := 2 })], unique_name_counter := 0 } : DirSys).dirservices 2
      = some { path := "d", data := [], last_cluster := 2 }) ∧
    ((dir_add_entry { fat := fat_init 100, img := image_init, dirservices := [(2, { path := "d", data := [], last_cluster := 2 })], unique_name_counter := 0 } (fun _ => (0, 0, 0, 0)) (fun _ => (0, 0)) 0 3
        [116, 101, 115, 116] 10 0 0 0).1 = true) ∧
    (∃ parent2 : DirService,
      mapLookup (dir_add_entry { fat := fat_init 100, img := image_init, dirservices := [(2, { path := "d", data := [], last_cluster := 2 })], unique_name_counter := 0 } (fun _ => (0, 0, 0, 0)) (fun _ => (0, 0)) 0 3
          [116, 101, 115, 116] 10 0 0 0).2.dirservices 2 = some parent2 ∧
      parent2.data =
        (lfn_records 1 [116, 101, 115, 116]
          (calc_vfat_checksum (short_entry_bytes (fun _ => (0, 0, 0, 0))
            (fun _ => (0, 0)) 0 3 10 0 0 0)) ++
         [short_entry_bytes (fun _ => (0, 0, 0, 0)) (fun _ => (0, 0)) 0 3 10 0 0 0]).flatten ∧
      (lfn_records 1 [116, 101, 115, 116]
          (calc_vfat_checksum (short_entry_bytes (fun _ => (0, 0, 0, 0))
            (fun _ => (0, 0)) 0 3 10 0 0 0)) ++
         [short_entry_bytes (fun _ => (0, 0, 0, 0)) (fun _ => (0, 0)) 0 3 10 0 0 0]).length
        = 2 ∧
      (∀ r ∈ lfn_records 1 [116, 101, 115, 116]
          (calc_vfat_checksum (short_entry_bytes (fun _ => (0, 0, 0, 0))
            (fun _ => (0, 0)) 0 3 10 0 0 0)) ++
         [short_entry_bytes (fun _ => (0, 0, 0, 0)) (fun _ => (0, 0)) 0 3 10 0 0 0],
        r.length = 32) ∧
      (∀ i, i < 1 →
        ((lfn_records 1 [116, 101, 115, 116]
          (calc_vfat_checksum (short_entry_bytes (fun _ => (0, 0, 0, 0))
            (fun _ => (0, 0)) 0 3 10 0 0 0))).getD i []).getD 0 0 % 64 = 1 - i) ∧
      (0 < 1 →
        64 ≤ ((lfn_records 1 [116, 101, 115, 116]
          (calc_vfat_checksum (short_entry_bytes (fun _ => (0, 0, 0, 0))
            (fun _ => (0, 0)) 0 3 10 0 0 0))).getD 0 []).getD 0 0) ∧
      (∀ i, 0 < i → i < 1 →
        ((lfn_records 1 [116, 101, 115, 116]
          (calc_vfat_checksum (short_entry_bytes (fun _ => (0, 0, 0, 0))
            (fun _ => (0, 0)) 0 3 10 0 0 0))).getD i []).getD 0 0 < 64) ∧
      (∀ i, i < 1 →
        ((lfn_records 1 [116, 101, 115, 116]
          (calc_vfat_checksum (short_entry_bytes (fun _ => (0, 0, 0, 0))
            (fun _ => (0, 0)) 0 3 10 0 0 0))).getD i []).getD 13 0
          = calc_vfat_checksum (short_entry_bytes (fun _ => (0, 0, 0, 0))
              (fun _ => (0, 0)) 0 3 10 0 0 0))) :=
  ⟨by decide, rfl, rfl,
    dir_add_entry_layout
      { fat := fat_init 100, img := image_init, dirservices := [(2, { path := "d", data := [], last_cluster := 2 })], unique_name_counter := 0 }
      (fun _ => (0, 0, 0, 0)) (fun _ => (0, 0)) 0 3 [116, 101, 115, 116] 10 0 0 0
      { path := "d", data := [], last_cluster := 2 } (by decide) rfl rfl⟩
